import Mathlib

/-!
# A limit order book with price-level ladders and an order index

Shallow embedding of `include/order.h`, `include/order_book.h` and
`src/order_book.cpp`.

* `std::map<uint64_t, std::list<Order>>` is a list of `(price, queue)` pairs kept in
  strictly ascending price order (`Ladder.WF`); `begin()` is the head of the list and
  `rbegin()` its last element.
* `std::unordered_map<uint64_t, Order*>` is an association list from identifiers to
  `Locator`s.  A locator names the list node an `Order*` points to by the side and the
  price the node was created with; both fields are never written afterwards and a list
  node never moves.  The pointer is valid as long as the node is in its queue
  (`node_stored`); once `remove_if` or `erase` has destroyed the node the pointer dangles,
  and a read through it is a read of freed memory, whose value is indeterminate.  Each
  call of `cancel_order` therefore takes the values of such reads as an argument
  (`FreedReads`), and a statement about `cancel_order` holds for the source only if it
  holds for every value of that argument.
* `uint64_t` fields are natural numbers; the two subtractions of `execute_trade` are
  the wrapping subtraction `usub64`.
* The `shared_mutex` is not modelled: every operation is a function on whole states.
-/

/-! ## order.h -/

inductive Side where
  | BUY
  | SELL
deriving DecidableEq, Repr

inductive OrderType where
  | LIMIT
  | MARKET
deriving DecidableEq, Repr

structure Order where
  id : Nat
  symbol_id : Nat
  type : OrderType
  side : Side
  price : Nat
  quantity : Nat
  remaining : Nat
deriving DecidableEq, Repr

/-- The factory `Order::Limit(id, symbol, side, price, qty)`. -/
def Order.Limit (id symbol : Nat) (side : Side) (price qty : Nat) : Order :=
  { id := id, symbol_id := symbol, type := OrderType.LIMIT, side := side,
    price := price, quantity := qty, remaining := qty }

/-- The factory `Order::Market(id, symbol, side, qty)`; the price field is 0. -/
def Order.Market (id symbol : Nat) (side : Side) (qty : Nat) : Order :=
  { id := id, symbol_id := symbol, type := OrderType.MARKET, side := side,
    price := 0, quantity := qty, remaining := qty }

/-- The member `Order::is_filled()`: `remaining == 0`. -/
def Order.is_filled (o : Order) : Bool := o.remaining == 0

/-- Subtraction of two `uint64_t` values: the difference modulo `2^64`. -/
def usub64 (a b : Nat) : Nat := if b ≤ a then a - b else a + 2 ^ 64 - b

/-! ## The price ladder (`std::map<uint64_t, std::list<Order>>`) -/

abbrev Ladder := List (Nat × List Order)

/-- Keys of a `std::map` are strictly ascending. -/
def Ladder.WF (l : Ladder) : Prop := (l.map Prod.fst).Pairwise (· < ·)

instance (l : Ladder) : Decidable l.WF := by
  unfold Ladder.WF; infer_instance

/-- The queue stored under price `p`, if that level exists (`find`). -/
def Ladder.lookup : Ladder → Nat → Option (List Order)
  | [], _ => none
  | (k, q) :: t, p => if k = p then some q else Ladder.lookup t p

/-- Store queue `q` under price `p`, creating the level at its sorted position when it
is absent (the effect of writing through `levels[p]`). -/
def Ladder.put : Ladder → Nat → List Order → Ladder
  | [], p, q => [(p, q)]
  | (k, v) :: t, p, q =>
    if p < k then (p, q) :: (k, v) :: t
    else if p = k then (k, q) :: t
    else (k, v) :: Ladder.put t p q

/-- The call `levels.erase(p)` by key. -/
def Ladder.erase (l : Ladder) (p : Nat) : Ladder := l.filter (fun kv => !(kv.1 == p))

/-- The call `levels.begin()->first`. -/
def Ladder.first_key (l : Ladder) : Option Nat := l.head?.map Prod.fst

/-- The call `levels.rbegin()->first`. -/
def Ladder.last_key (l : Ladder) : Option Nat := l.getLast?.map Prod.fst

/-- Every order stored in the ladder, level by level. -/
def Ladder.orders (l : Ladder) : List Order := l.flatMap Prod.snd

/-- Sum of the remaining quantities of a queue. -/
def queue_liquidity (q : List Order) : Nat := (q.map Order.remaining).sum

/-- Sum of the remaining quantities over all levels. -/
def Ladder.liquidity (l : Ladder) : Nat := (l.map (fun kv => queue_liquidity kv.2)).sum

/-! ## The order index (`std::unordered_map<uint64_t, Order*>`) -/

/-- The list node an `Order*` of the index points to, named by the side and the price
written into the node when it was created. -/
structure Locator where
  side : Side
  price : Nat
deriving DecidableEq, Repr

/-- The values that the reads of freed memory return in one call of `cancel_order`:
`side` and `price` for lines 29 and 30 when the `Order*` already dangles at the call,
and `erase_price` for line 35, where `order_ptr->price` is read after `remove_if` has
destroyed the node. These values are indeterminate. -/
structure FreedReads where
  side : Side
  price : Nat
  erase_price : Nat
deriving DecidableEq, Repr

abbrev Index := List (Nat × Locator)

def Index.keys (ix : Index) : List Nat := ix.map Prod.fst

/-- The call `orders_.find(id)`; `none` stands for `orders_.end()`. -/
def Index.find : Index → Nat → Option Locator
  | [], _ => none
  | (k, loc) :: t, id => if k = id then some loc else Index.find t id

/-- The call `orders_.erase(id)`. -/
def Index.erase (ix : Index) (id : Nat) : Index := ix.filter (fun e => !(e.1 == id))

/-- The assignment `orders_[id] = ptr`. -/
def Index.assign (ix : Index) (id : Nat) (loc : Locator) : Index :=
  (id, loc) :: Index.erase ix id

/-! ## order_book.h / order_book.cpp -/

structure OrderBook where
  bids_ : Ladder
  asks_ : Ladder
  orders_ : Index
deriving DecidableEq, Repr

namespace OrderBook

/-- The default-constructed book. -/
def empty : OrderBook := { bids_ := [], asks_ := [], orders_ := [] }

def best_bid_price (b : OrderBook) : Option Nat :=
  if b.bids_.isEmpty then none else b.bids_.last_key

def best_ask_price (b : OrderBook) : Option Nat :=
  if b.asks_.isEmpty then none else b.asks_.first_key

def total_orders (b : OrderBook) : Nat := b.orders_.length

def total_bid_levels (b : OrderBook) : Nat := b.bids_.length

def total_ask_levels (b : OrderBook) : Nat := b.asks_.length

/-- The private `add_limit_order`: `levels[order.price]` (created empty when absent),
`push_back(order)`, then `orders_[order.id] = &level_orders.back()`. -/
def add_limit_order (b : OrderBook) (order : Order) : OrderBook :=
  let levels := if order.side = Side.BUY then b.bids_ else b.asks_
  let level_orders := (levels.lookup order.price).getD []
  let levels1 := levels.put order.price (level_orders ++ [order])
  let orders1 := b.orders_.assign order.id { side := order.side, price := order.price }
  if order.side = Side.BUY then { b with bids_ := levels1, orders_ := orders1 }
  else { b with asks_ := levels1, orders_ := orders1 }

/-- The private `execute_trade`: both remaining quantities drop by `qty`, and a resting
order that became filled leaves the index. Returns the updated incoming order, resting
order and index. -/
def execute_trade (orders_ : Index) (incoming resting : Order) (qty : Nat) :
    Order × Order × Index :=
  let incoming1 := { incoming with remaining := usub64 incoming.remaining qty }
  let resting1 := { resting with remaining := usub64 resting.remaining qty }
  (incoming1, resting1,
    if resting1.is_filled then orders_.erase resting1.id else orders_)

/-- The range-`for` of `match_market_order` over one level: `break` once the incoming
order is exhausted, `continue` over resting orders with nothing remaining, otherwise
trade `min(order.remaining, resting.remaining)`. -/
def match_level (order : Order) (orders_ : Index) : List Order → Order × List Order × Index
  | [] => (order, [], orders_)
  | resting :: rest =>
    if order.remaining = 0 then (order, resting :: rest, orders_)
    else if resting.remaining = 0 then
      let r := match_level order orders_ rest
      (r.1, resting :: r.2.1, r.2.2)
    else
      let exec_qty := min order.remaining resting.remaining
      let t := execute_trade orders_ order resting exec_qty
      let r := match_level t.1 t.2.2 rest
      (r.1, t.2.1 :: r.2.1, r.2.2)

/-- The call `level_orders.remove_if([](const Order& o) { return o.is_filled(); })`. -/
def remove_filled (level_orders : List Order) : List Order :=
  level_orders.filter (fun o => !o.is_filled)

/-- One pass of the `while` body of `match_market_order` on the level at `begin()`:
walk the level, `remove_if` the filled orders, erase the level when it became empty. -/
def match_step (order : Order) (p : Nat) (level_orders : List Order) (rest : Ladder)
    (orders_ : Index) : Order × Ladder × Index :=
  let r := match_level order orders_ level_orders
  let kept := remove_filled r.2.1
  (r.1, if kept.isEmpty then rest else (p, kept) :: rest, r.2.2)

/-- The `while (order.remaining > 0 && !levels.empty())` loop of `match_market_order`,
run for at most `fuel` iterations. -/
def match_loop : Nat → Order → Ladder → Index → Order × Ladder × Index
  | 0, order, levels, orders_ => (order, levels, orders_)
  | fuel + 1, order, levels, orders_ =>
    if order.remaining > 0 then
      match levels with
      | [] => (order, [], orders_)
      | (p, level_orders) :: rest =>
        let s := match_step order p level_orders rest orders_
        match_loop fuel s.1 s.2.1 s.2.2
    else (order, levels, orders_)

/-- The private `match_market_order`; `levels` is the ask ladder for a BUY and the bid
ladder otherwise, and the loop always starts at `levels.begin()`. The loop is given
one iteration per level of `levels` (`match_loop_fuel` shows this is enough). -/
def match_market_order (b : OrderBook) (order : Order) : OrderBook :=
  let levels := if order.side = Side.BUY then b.asks_ else b.bids_
  let r := match_loop levels.length order levels b.orders_
  if order.side = Side.BUY then { b with asks_ := r.2.1, orders_ := r.2.2 }
  else { b with bids_ := r.2.1, orders_ := r.2.2 }

/-- The public `add_order`: the returned flag and the new state. -/
def add_order (b : OrderBook) (order : Order) : Bool × OrderBook :=
  if (b.orders_.find order.id).isSome then (false, b)
  else if order.type = OrderType.LIMIT then (true, add_limit_order b order)
  else (true, match_market_order b order)

/-- Whether the node that the index entry of `order_id` points to is still in its
queue: an order with this id is stored at the side and price of the entry. -/
def node_stored (b : OrderBook) (order_id : Nat) (order_ptr : Locator) : Bool :=
  (((if order_ptr.side = Side.BUY then b.bids_ else b.asks_).lookup order_ptr.price).getD
    []).any (fun o => o.id == order_id)

/-- The reads `order_ptr->side` and `order_ptr->price` of lines 29 and 30: the fields of
the node while it is stored, and indeterminate values once the pointer dangles. -/
def read_ptr (b : OrderBook) (order_id : Nat) (order_ptr : Locator) (freed : FreedReads) :
    Locator :=
  if node_stored b order_id order_ptr then order_ptr
  else { side := freed.side, price := freed.price }

/-- Lines 30-36 of `cancel_order` on the ladder of the order's side: take
`levels[price]` (created empty when absent), `remove_if` the orders with the given id,
and, when the queue is empty, `levels.erase(order_ptr->price)`. At that point the node
has been destroyed, so the key of the erase is the indeterminate `erase_price`. -/
def cancel_levels (levels : Ladder) (price order_id erase_price : Nat) : Ladder :=
  let level_orders := (levels.lookup price).getD []
  let level_orders1 := level_orders.filter (fun o => !(o.id == order_id))
  if level_orders1.isEmpty then (levels.put price level_orders1).erase erase_price
  else levels.put price level_orders1

/-- The public `cancel_order`. Side and price are read through the index pointer at
lines 29 and 30 (`read_ptr`); the price is read again at line 35, after the node was
destroyed (`freed.erase_price`). -/
def cancel_order (b : OrderBook) (order_id : Nat) (freed : FreedReads) : Bool × OrderBook :=
  match b.orders_.find order_id with
  | none => (false, b)
  | some order_ptr =>
    let node := read_ptr b order_id order_ptr freed
    let levels := if node.side = Side.BUY then b.bids_ else b.asks_
    let levels1 := cancel_levels levels node.price order_id freed.erase_price
    let orders1 := b.orders_.erase order_id
    if node.side = Side.BUY then (true, { b with bids_ := levels1, orders_ := orders1 })
    else (true, { b with asks_ := levels1, orders_ := orders1 })

/-- Whether the read of line 35 is harmless in this call of `cancel_order`: either the
queue is not empty after `remove_if`, so that the read is not made, or the read returns
the price that was read at line 30. -/
def cancel_reads_back (b : OrderBook) (order_id : Nat) (freed : FreedReads) : Bool :=
  match b.orders_.find order_id with
  | none => true
  | some order_ptr =>
    let node := read_ptr b order_id order_ptr freed
    let levels := if node.side = Side.BUY then b.bids_ else b.asks_
    let level_orders1 :=
      ((levels.lookup node.price).getD []).filter (fun o => !(o.id == order_id))
    !level_orders1.isEmpty || freed.erase_price == node.price

end OrderBook

/-- A call of one of the two mutating operations; a call of `cancel_order` comes with
the values its reads of freed memory return. -/
inductive Op where
  | add (o : Order)
  | cancel (id : Nat) (freed : FreedReads)
deriving DecidableEq, Repr

/-- The state after one call. -/
def OrderBook.apply (b : OrderBook) : Op → OrderBook
  | Op.add o => (b.add_order o).2
  | Op.cancel id freed => (b.cancel_order id freed).2

/-- The state after a sequence of calls, in order. -/
def OrderBook.run (b : OrderBook) (ops : List Op) : OrderBook := ops.foldl OrderBook.apply b

/-- Whether along the sequence of calls, started in `b`, the read of line 35 is harmless
in every call of `cancel_order` (`cancel_reads_back`). -/
def OrderBook.reads_back (b : OrderBook) : List Op → Bool
  | [] => true
  | Op.add o :: rest => OrderBook.reads_back (b.apply (Op.add o)) rest
  | Op.cancel id freed :: rest =>
    b.cancel_reads_back id freed && OrderBook.reads_back (b.apply (Op.cancel id freed)) rest

/-- All resting orders have something remaining. -/
def OrderBook.Positive (b : OrderBook) : Prop :=
  ∀ x ∈ b.bids_ ++ b.asks_, ∀ o ∈ x.2, 0 < o.remaining

instance (b : OrderBook) : Decidable b.Positive := by
  unfold OrderBook.Positive; infer_instance

/-- The index agrees with the ladder of side `s`: the ladder is sorted, identifiers are
distinct within each queue, every stored order is located by the index entry of its id
at this side and at the price of its level, and every index entry of side `s` locates
a level that holds an order with that id. -/
def AgreeOn (s : Side) (levels : Ladder) (ix : Index) : Prop :=
  levels.WF ∧
  (∀ x ∈ levels, (x.2.map Order.id).Nodup) ∧
  (∀ x ∈ levels, ∀ o ∈ x.2, ix.find o.id = some { side := s, price := x.1 }) ∧
  (∀ k ∈ ix.keys, ∀ loc ∈ ix.find k, loc.side = s →
    ∃ x ∈ levels, x.1 = loc.price ∧ ∃ o ∈ x.2, o.id = k)

instance (s : Side) (levels : Ladder) (ix : Index) : Decidable (AgreeOn s levels ix) := by
  unfold AgreeOn; infer_instance

/-- The index agrees with the ladders: its keys are distinct and it agrees with the bid
ladder and with the ask ladder. -/
def OrderBook.Agree (b : OrderBook) : Prop :=
  b.orders_.keys.Nodup ∧ AgreeOn Side.BUY b.bids_ b.orders_ ∧ AgreeOn Side.SELL b.asks_ b.orders_

instance (b : OrderBook) : Decidable b.Agree := by
  unfold OrderBook.Agree; infer_instance

/-- Every order stored in the ladder satisfies `P`, which may depend on the price of the
level the order is stored in. -/
def Ladder.All (P : Nat → Order → Prop) (l : Ladder) : Prop := ∀ x ∈ l, ∀ o ∈ x.2, P x.1 o

/-- No level of the ladder holds an empty queue. -/
def Ladder.NoEmpty (l : Ladder) : Prop := ∀ x ∈ l, x.2 ≠ []

instance (l : Ladder) : Decidable l.NoEmpty := by
  unfold Ladder.NoEmpty; infer_instance

/-- Liquidity resting at prices up to and including `p`. -/
def Ladder.liquidity_upto (l : Ladder) (p : Nat) : Nat :=
  Ladder.liquidity (l.filter (fun kv => kv.1 ≤ p))

/-- The number of iterations that the `while` loop of `match_market_order` performs
when it is allowed at most `fuel` of them. -/
def OrderBook.match_loop_count : Nat → Order → Ladder → Index → Nat
  | 0, _, _, _ => 0
  | fuel + 1, order, levels, orders_ =>
    if order.remaining > 0 then
      match levels with
      | [] => 0
      | (p, level_orders) :: rest =>
        1 + OrderBook.match_loop_count fuel
          (OrderBook.match_step order p level_orders rest orders_).1
          (OrderBook.match_step order p level_orders rest orders_).2.1
          (OrderBook.match_step order p level_orders rest orders_).2.2
    else 0

/-- How a resting order may change during a match: only `remaining`, and only downwards. -/
def Residual (o o1 : Order) : Prop :=
  o1 = { o with remaining := o1.remaining } ∧ o1.remaining ≤ o.remaining

/-- The walk of a level whose queue is `pre ++ resting :: post`, written with the trade
against `resting` made explicit: walk `pre`, call `execute_trade` on `resting` with the
quantity `exec_qty`, walk `post`. -/
def OrderBook.walk_with_trade (order : Order) (orders_ : Index) (pre : List Order)
    (resting : Order) (post : List Order) (exec_qty : Nat) : Order × List Order × Index :=
  let w := OrderBook.match_level order orders_ pre
  let t := OrderBook.execute_trade w.2.2 w.1 resting exec_qty
  let r := OrderBook.match_level t.1 t.2.2 post
  (r.1, w.2.1 ++ t.2.1 :: r.2.1, r.2.2)

/-! ## Lemmas on ladders -/

theorem Ladder.lookup_put (l : Ladder) (p : Nat) (q : List Order) (k : Nat) :
    (l.put p q).lookup k = if k = p then some q else l.lookup k := by
  induction l with
  | nil =>
    by_cases h : k = p
    · simp [Ladder.put, Ladder.lookup, h]
    · have h2 : ¬ p = k := fun e => h e.symm
      simp [Ladder.put, Ladder.lookup, h, h2]
  | cons x t ih =>
    obtain ⟨a, v⟩ := x
    by_cases h1 : p < a
    · by_cases h : k = p
      · simp [Ladder.put, Ladder.lookup, h1, h]
      · have h2 : ¬ p = k := fun e => h e.symm
        simp [Ladder.put, Ladder.lookup, h1, h, h2]
    · by_cases h2 : p = a
      · subst h2
        by_cases h : k = p
        · simp [Ladder.put, Ladder.lookup, h]
        · have h3 : ¬ p = k := fun e => h e.symm
          simp [Ladder.put, Ladder.lookup, h, h3]
      · by_cases h : k = p
        · subst h
          have h3 : ¬ a = k := fun e => h2 e.symm
          simp [Ladder.put, Ladder.lookup, h1, h2, h3, ih]
        · simp [Ladder.put, Ladder.lookup, h1, h2, h, ih]

theorem Ladder.keys_put (l : Ladder) (p : Nat) (q : List Order) (k : Nat) :
    k ∈ (l.put p q).map Prod.fst ↔ k = p ∨ k ∈ l.map Prod.fst := by
  induction l with
  | nil => simp [Ladder.put]
  | cons x t ih =>
    obtain ⟨a, v⟩ := x
    by_cases h1 : p < a
    · simp [Ladder.put, h1]
    · by_cases h2 : p = a
      · subst h2
        simp [Ladder.put]
      · simp only [Ladder.put, h1, h2, if_false, List.map_cons, List.mem_cons, ih]
        tauto

theorem Ladder.put_WF (l : Ladder) (p : Nat) (q : List Order) (h : l.WF) : (l.put p q).WF := by
  induction l with
  | nil => simp [Ladder.put, Ladder.WF]
  | cons x t ih =>
    obtain ⟨a, v⟩ := x
    have ht : Ladder.WF t := (List.pairwise_cons.mp h).2
    have ha : ∀ k ∈ t.map Prod.fst, a < k := (List.pairwise_cons.mp h).1
    by_cases h1 : p < a
    · simp only [Ladder.put, h1, if_true]
      refine List.pairwise_cons.mpr ⟨?_, h⟩
      intro k hk
      rcases List.mem_cons.mp hk with hk | hk
      · exact hk ▸ h1
      · exact lt_trans h1 (ha k hk)
    · by_cases h2 : p = a
      · subst h2
        simpa [Ladder.put, Ladder.WF] using h
      · simp only [Ladder.put, h1, h2, if_false]
        refine List.pairwise_cons.mpr ⟨?_, ih ht⟩
        intro k hk
        rcases (Ladder.keys_put t p q k).mp hk with hk | hk
        · subst hk; omega
        · exact ha k hk

theorem Ladder.lookup_of_mem (l : Ladder) (h : l.WF) (p : Nat) (q : List Order)
    (hm : (p, q) ∈ l) : l.lookup p = some q := by
  induction l with
  | nil => simp at hm
  | cons x t ih =>
    obtain ⟨a, v⟩ := x
    have ht : Ladder.WF t := (List.pairwise_cons.mp h).2
    have ha : ∀ k ∈ t.map Prod.fst, a < k := (List.pairwise_cons.mp h).1
    rcases List.mem_cons.mp hm with hm | hm
    · injection hm with e1 e2
      subst e1; subst e2
      simp [Ladder.lookup]
    · have hlt : a < p := ha p (List.mem_map.mpr ⟨(p, q), hm, rfl⟩)
      have hne : ¬ a = p := by omega
      simp [Ladder.lookup, hne, ih ht hm]

theorem Ladder.mem_of_lookup (l : Ladder) (p : Nat) (q : List Order)
    (hl : l.lookup p = some q) : (p, q) ∈ l := by
  induction l with
  | nil => simp [Ladder.lookup] at hl
  | cons x t ih =>
    obtain ⟨a, v⟩ := x
    by_cases h : a = p
    · subst h
      simp [Ladder.lookup] at hl
      subst hl
      simp
    · simp only [Ladder.lookup, h, if_false] at hl
      exact List.mem_cons_of_mem _ (ih hl)

theorem Ladder.mem_iff_lookup (l : Ladder) (h : l.WF) (p : Nat) (q : List Order) :
    (p, q) ∈ l ↔ l.lookup p = some q :=
  ⟨Ladder.lookup_of_mem l h p q, Ladder.mem_of_lookup l p q⟩

theorem Ladder.lookup_erase (l : Ladder) (p k : Nat) :
    (l.erase p).lookup k = if k = p then none else l.lookup k := by
  induction l with
  | nil => simp [Ladder.erase, Ladder.lookup]
  | cons x t ih =>
    obtain ⟨a, v⟩ := x
    unfold Ladder.erase at ih ⊢
    by_cases h1 : a = p
    · subst h1
      by_cases h : k = a
      · subst h
        simpa [List.filter_cons, Ladder.lookup] using ih
      · have h3 : ¬ a = k := fun e => h e.symm
        simpa [List.filter_cons, Ladder.lookup, h, h3] using ih
    · have hb : (a == p) = false := by simpa using h1
      rw [List.filter_cons]
      simp only [hb, Bool.not_false, if_true, Ladder.lookup, ih]
      by_cases h : k = p
      · subst h
        simp [h1]
      · simp [h]

theorem Ladder.erase_WF (l : Ladder) (p : Nat) (h : l.WF) : (l.erase p).WF := by
  unfold Ladder.WF Ladder.erase at *
  exact (List.pairwise_map.mpr ((List.pairwise_map.mp h).filter _))

theorem Ladder.mem_erase (l : Ladder) (p : Nat) (x : Nat × List Order) :
    x ∈ l.erase p ↔ x ∈ l ∧ x.1 ≠ p := by
  simp [Ladder.erase]

theorem Ladder.erase_put (l : Ladder) (p : Nat) (q : List Order) :
    (l.put p q).erase p = l.erase p := by
  induction l with
  | nil => simp [Ladder.put, Ladder.erase]
  | cons x t ih =>
    obtain ⟨a, v⟩ := x
    unfold Ladder.erase at ih ⊢
    by_cases h1 : p < a
    · simp [Ladder.put, h1]
    · by_cases h2 : p = a
      · subst h2
        simp [Ladder.put]
      · have h3 : ¬ a = p := fun e => h2 e.symm
        simp [Ladder.put, h1, h2, h3, ih]

theorem Ladder.mem_put (l : Ladder) (h : l.WF) (p : Nat) (q : List Order)
    (x : Nat × List Order) :
    x ∈ l.put p q ↔ x = (p, q) ∨ (x ∈ l ∧ x.1 ≠ p) := by
  obtain ⟨k, v⟩ := x
  rw [Ladder.mem_iff_lookup _ (Ladder.put_WF l p q h), Ladder.lookup_put]
  by_cases hk : k = p
  · subst hk
    simp [eq_comm]
  · simp only [hk, if_false, Prod.mk.injEq, false_and, false_or, ne_eq, not_false_eq_true,
      and_true]
    exact (Ladder.mem_iff_lookup l h k v).symm

/-! ## Lemmas on the index -/

theorem Index.find_erase (ix : Index) (id k : Nat) :
    (ix.erase id).find k = if k = id then none else ix.find k := by
  induction ix with
  | nil => simp [Index.erase, Index.find]
  | cons x t ih =>
    obtain ⟨a, v⟩ := x
    unfold Index.erase at ih ⊢
    by_cases h1 : a = id
    · subst h1
      by_cases h : k = a
      · subst h
        simpa [List.filter_cons, Index.find] using ih
      · have h3 : ¬ a = k := fun e => h e.symm
        simpa [List.filter_cons, Index.find, h, h3] using ih
    · have hb : (a == id) = false := by simpa using h1
      rw [List.filter_cons]
      simp only [hb, Bool.not_false, if_true, Index.find, ih]
      by_cases h : k = id
      · subst h
        simp [h1]
      · simp [h]

theorem Index.find_assign (ix : Index) (id : Nat) (loc : Locator) (k : Nat) :
    (ix.assign id loc).find k = if k = id then some loc else ix.find k := by
  by_cases h : k = id
  · subst h
    simp [Index.assign, Index.find]
  · have h3 : ¬ id = k := fun e => h e.symm
    simp [Index.assign, Index.find, h, h3, Index.find_erase]

theorem Index.find_eq_none_iff (ix : Index) (id : Nat) :
    ix.find id = none ↔ id ∉ ix.keys := by
  induction ix with
  | nil => simp [Index.find, Index.keys]
  | cons x t ih =>
    obtain ⟨a, v⟩ := x
    unfold Index.keys at ih ⊢
    by_cases h : a = id
    · subst h
      simp [Index.find]
    · have h3 : ¬ id = a := fun e => h e.symm
      simp [Index.find, h, h3, ih]

theorem Index.erase_of_not_mem (ix : Index) (id : Nat) (h : id ∉ ix.keys) :
    ix.erase id = ix := by
  unfold Index.erase
  apply List.filter_eq_self.mpr
  intro e he
  have : e.1 ≠ id := by
    intro heq
    exact h (List.mem_map.mpr ⟨e, he, heq⟩)
  simpa using this

theorem Index.mem_keys_erase (ix : Index) (id k : Nat) :
    k ∈ (ix.erase id).keys ↔ k ∈ ix.keys ∧ k ≠ id := by
  simp only [Index.keys, Index.erase, List.mem_map, List.mem_filter]
  constructor
  · rintro ⟨e, ⟨he, hne⟩, rfl⟩
    exact ⟨⟨e, he, rfl⟩, by simpa using hne⟩
  · rintro ⟨⟨e, he, rfl⟩, hne⟩
    exact ⟨e, ⟨he, by simpa using hne⟩, rfl⟩

/-! ## Lemmas on matching -/

open OrderBook

theorem usub64_of_le (a b : Nat) (h : b ≤ a) : usub64 a b = a - b := by
  simp [usub64, h]

theorem queue_liquidity_cons (o : Order) (q : List Order) :
    queue_liquidity (o :: q) = o.remaining + queue_liquidity q := by
  simp [queue_liquidity]

theorem Residual.refl (o : Order) : Residual o o := ⟨rfl, le_refl _⟩

theorem match_level_residual (order : Order) (ix : Index) (q : List Order) :
    List.Forall₂ Residual q (match_level order ix q).2.1 := by
  induction q generalizing order ix with
  | nil => simp [match_level]
  | cons resting rest ih =>
    by_cases h0 : order.remaining = 0
    · simp only [match_level, h0, if_true]
      exact List.forall₂_same.mpr (fun o _ => Residual.refl o)
    · by_cases h1 : resting.remaining = 0
      · simp only [match_level, h0, h1, if_true, if_false]
        exact List.Forall₂.cons (Residual.refl _) (ih _ _)
      · simp only [match_level, h0, h1, if_false]
        refine List.Forall₂.cons ?_ (ih _ _)
        simp [Residual, execute_trade, usub64_of_le]

theorem match_level_incoming (order : Order) (ix : Index) (q : List Order) :
    (match_level order ix q).1 = { order with remaining := (match_level order ix q).1.remaining } ∧
    (match_level order ix q).1.remaining + queue_liquidity q =
      order.remaining + queue_liquidity (match_level order ix q).2.1 := by
  induction q generalizing order ix with
  | nil => simp [match_level]
  | cons resting rest ih =>
    by_cases h0 : order.remaining = 0
    · simp only [match_level, h0, if_true, and_true]
      rw [← h0]
    · by_cases h1 : resting.remaining = 0
      · simp only [match_level, h0, h1, if_true, if_false, queue_liquidity_cons]
        have := ih order ix
        refine ⟨this.1, ?_⟩
        omega
      · simp only [match_level, h0, h1, if_false, queue_liquidity_cons]
        have := ih (execute_trade ix order resting (min order.remaining resting.remaining)).1
          (execute_trade ix order resting (min order.remaining resting.remaining)).2.2
        constructor
        · rw [this.1]
          simp [execute_trade]
        · have h2 := this.2
          simp only [execute_trade, usub64_of_le, Nat.min_le_left, Nat.min_le_right] at h2 ⊢
          omega

theorem match_level_le (order : Order) (ix : Index) (q : List Order) :
    (match_level order ix q).1.remaining ≤ order.remaining := by
  induction q generalizing order ix with
  | nil => simp [match_level]
  | cons resting rest ih =>
    by_cases h0 : order.remaining = 0
    · simp [match_level, h0]
    · by_cases h1 : resting.remaining = 0
      · simp only [match_level, h0, h1, if_true, if_false]
        exact ih order ix
      · simp only [match_level, h0, h1, if_false]
        refine le_trans (ih _ _) ?_
        simp only [execute_trade, usub64_of_le, Nat.min_le_left]
        omega

theorem match_level_exhausts (order : Order) (ix : Index) (q : List Order)
    (h : 0 < (match_level order ix q).1.remaining) :
    ∀ o ∈ (match_level order ix q).2.1, o.remaining = 0 := by
  induction q generalizing order ix with
  | nil => simp [match_level]
  | cons resting rest ih =>
    by_cases h0 : order.remaining = 0
    · have := match_level_le order ix (resting :: rest)
      omega
    · by_cases h1 : resting.remaining = 0
      · simp only [match_level, h0, h1, if_true, if_false] at h ⊢
        intro o ho
        rcases List.mem_cons.mp ho with ho | ho
        · rw [ho]; exact h1
        · exact ih order ix h o ho
      · simp only [match_level, h0, h1, if_false] at h ⊢
        intro o ho
        rcases List.mem_cons.mp ho with ho | ho
        · rw [ho]
          have hle := match_level_le
            (execute_trade ix order resting (min order.remaining resting.remaining)).1
            (execute_trade ix order resting (min order.remaining resting.remaining)).2.2 rest
          have h2 := h
          simp only [execute_trade, usub64_of_le, Nat.min_le_left, Nat.min_le_right] at h2 hle ⊢
          omega
        · exact ih _ _ h o ho

theorem match_level_of_exhausted (order : Order) (ix : Index) (q : List Order)
    (h : order.remaining = 0) : match_level order ix q = (order, q, ix) := by
  cases q <;> simp [match_level, h]

/-- Walking a queue `pre ++ rest` is walking `pre` and then `rest`, from the incoming
order and the index that the walk of `pre` left. -/
theorem match_level_append (order : Order) (ix : Index) (pre rest : List Order) :
    match_level order ix (pre ++ rest) =
      ((match_level (match_level order ix pre).1 (match_level order ix pre).2.2 rest).1,
        (match_level order ix pre).2.1 ++
          (match_level (match_level order ix pre).1 (match_level order ix pre).2.2 rest).2.1,
        (match_level (match_level order ix pre).1 (match_level order ix pre).2.2 rest).2.2) := by
  induction pre generalizing order ix with
  | nil => simp [match_level]
  | cons x pre ih =>
    by_cases h0 : order.remaining = 0
    · rw [match_level_of_exhausted order ix (x :: pre) h0,
        match_level_of_exhausted order ix rest h0,
        match_level_of_exhausted order ix (x :: pre ++ rest) h0]
    · by_cases hx : x.remaining = 0
      · simp only [List.cons_append, match_level, h0, hx, if_false, if_true, List.append_eq]
        rw [ih order ix]
      · simp only [List.cons_append, match_level, h0, hx, if_false, List.append_eq]
        rw [ih]

theorem match_loop_of_exhausted (n : Nat) (order : Order) (levels : Ladder) (ix : Index)
    (h : order.remaining = 0) : match_loop n order levels ix = (order, levels, ix) := by
  cases n <;> simp [match_loop, h]

theorem match_loop_nil (n : Nat) (order : Order) (ix : Index) :
    match_loop n order [] ix = (order, [], ix) := by
  cases n <;> simp [match_loop]

theorem remove_filled_eq_self (q : List Order) (h : ∀ o ∈ q, 0 < o.remaining) : remove_filled q = q := by
  unfold remove_filled
  apply List.filter_eq_self.mpr
  intro o ho
  have := h o ho
  simp [Order.is_filled]
  omega

theorem remove_filled_eq_nil (q : List Order) (h : ∀ o ∈ q, o.remaining = 0) : remove_filled q = [] := by
  unfold remove_filled
  apply List.filter_eq_nil_iff.mpr
  intro o ho
  simp [Order.is_filled, h o ho]

theorem queue_liquidity_remove_filled (q : List Order) : queue_liquidity (remove_filled q) = queue_liquidity q := by
  induction q with
  | nil => rfl
  | cons o t ih =>
    by_cases h : o.remaining = 0
    · have hf : (!o.is_filled) = false := by simp [Order.is_filled, h]
      simp only [remove_filled, List.filter_cons, hf] at ih ⊢
      simp [queue_liquidity_cons, h, ih]
    · have hf : (!o.is_filled) = true := by simp [Order.is_filled, h]
      simp only [remove_filled, List.filter_cons, hf] at ih ⊢
      simp [queue_liquidity_cons, ih]

theorem match_level_of_survivor (order : Order) (ix : Index) (q : List Order)
    (h : remove_filled (match_level order ix q).2.1 ≠ []) : (match_level order ix q).1.remaining = 0 := by
  by_contra hne
  exact h (remove_filled_eq_nil _ (match_level_exhausts order ix q (Nat.pos_of_ne_zero hne)))

theorem match_loop_cons (order : Order) (p : Nat) (q : List Order) (rest : Ladder) (ix : Index) :
    match_loop (rest.length + 1) order ((p, q) :: rest) ix =
      if order.remaining = 0 then (order, (p, q) :: rest, ix)
      else if remove_filled (match_level order ix q).2.1 = [] then
        match_loop rest.length (match_level order ix q).1 rest (match_level order ix q).2.2
      else ((match_level order ix q).1, (p, remove_filled (match_level order ix q).2.1) :: rest,
        (match_level order ix q).2.2) := by
  by_cases h0 : order.remaining = 0
  · simp [match_loop, h0]
  · have hpos : 0 < order.remaining := Nat.pos_of_ne_zero h0
    by_cases hk : remove_filled (match_level order ix q).2.1 = []
    · simp [match_loop, h0, hpos, hk, match_step]
    · have hz := match_level_of_survivor order ix q hk
      have he : (remove_filled (match_level order ix q).2.1).isEmpty = false := by
        simpa [List.isEmpty_iff] using hk
      simp only [match_loop, hpos, if_true, match_step, h0, if_false, hk, he]
      rw [match_loop_of_exhausted _ _ _ _ hz]
      simp

/-- One loop iteration per level suffices: more fuel does not change the result. -/
theorem match_loop_fuel (levels : Ladder) (n : Nat) (order : Order) (ix : Index)
    (h : levels.length ≤ n) :
    match_loop n order levels ix = match_loop levels.length order levels ix := by
  induction levels generalizing n order ix with
  | nil => simp [match_loop_nil]
  | cons x rest ih =>
    obtain ⟨p, q⟩ := x
    obtain ⟨m, rfl⟩ : ∃ m, n = m + 1 := ⟨n - 1, by simp at h; omega⟩
    have hm : rest.length ≤ m := by simpa using h
    by_cases h0 : order.remaining = 0
    · rw [match_loop_of_exhausted _ _ _ _ h0, match_loop_of_exhausted _ _ _ _ h0]
    · have hpos : 0 < order.remaining := Nat.pos_of_ne_zero h0
      simp only [List.length_cons, match_loop, hpos, if_true]
      by_cases hk : remove_filled (match_level order ix q).2.1 = []
      · simp only [match_step, hk, List.isEmpty_nil, if_true]
        exact ih m _ _ hm
      · have hz : (match_step order p q rest ix).1.remaining = 0 :=
          match_level_of_survivor order ix q hk
        rw [match_loop_of_exhausted _ _ _ _ hz, match_loop_of_exhausted _ _ _ _ hz]

/-- The loop exits in its stop condition, and remaining quantity is conserved. -/
theorem match_loop_conservation (levels : Ladder) (order : Order) (ix : Index) :
    (match_loop levels.length order levels ix).1.remaining + levels.liquidity =
      order.remaining + (match_loop levels.length order levels ix).2.1.liquidity ∧
    ((match_loop levels.length order levels ix).1.remaining = 0 ∨
      (match_loop levels.length order levels ix).2.1 = []) := by
  induction levels generalizing order ix with
  | nil => simp [match_loop_nil]
  | cons x rest ih =>
    obtain ⟨p, q⟩ := x
    rw [List.length_cons, match_loop_cons]
    by_cases h0 : order.remaining = 0
    · simp [h0]
    · simp only [h0, if_false]
      have hc := (match_level_incoming order ix q).2
      by_cases hk : remove_filled (match_level order ix q).2.1 = []
      · simp only [hk, if_true]
        have := ih (match_level order ix q).1 (match_level order ix q).2.2
        refine ⟨?_, this.2⟩
        have h1 := this.1
        have hz : queue_liquidity (match_level order ix q).2.1 = 0 := by
          rw [← queue_liquidity_remove_filled, hk]; rfl
        simp only [Ladder.liquidity, List.map_cons, List.sum_cons] at h1 ⊢
        omega
      · simp only [hk, if_false]
        have hz := match_level_of_survivor order ix q hk
        refine ⟨?_, Or.inl hz⟩
        have hl : queue_liquidity (remove_filled (match_level order ix q).2.1) =
            queue_liquidity (match_level order ix q).2.1 := queue_liquidity_remove_filled _
        simp only [Ladder.liquidity, List.map_cons, List.sum_cons]
        omega

theorem Ladder.liquidity_cons (p : Nat) (q : List Order) (t : Ladder) :
    Ladder.liquidity ((p, q) :: t) = queue_liquidity q + Ladder.liquidity t := by
  simp [Ladder.liquidity]

/-- Shape of the ladder after the loop: some leading levels are gone, whose liquidity
the incoming order covered, and at most the first level that stays has been changed. -/
theorem match_loop_shape (levels : Ladder) (order : Order) (ix : Index) :
    ∃ gone stay, levels = gone ++ stay ∧ Ladder.liquidity gone ≤ order.remaining ∧
      ((match_loop levels.length order levels ix).2.1 = stay ∨
        ∃ p q q1 t, stay = (p, q) :: t ∧
          (match_loop levels.length order levels ix).2.1 = (p, q1) :: t) := by
  induction levels generalizing order ix with
  | nil => exact ⟨[], [], rfl, by simp [Ladder.liquidity], Or.inl (by simp [match_loop_nil])⟩
  | cons x rest ih =>
    obtain ⟨p, q⟩ := x
    rw [List.length_cons, match_loop_cons]
    by_cases h0 : order.remaining = 0
    · exact ⟨[], (p, q) :: rest, rfl, by simp [Ladder.liquidity], Or.inl (by simp [h0])⟩
    · simp only [h0, if_false]
      by_cases hk : remove_filled (match_level order ix q).2.1 = []
      · simp only [hk, if_true]
        obtain ⟨gone, stay, hsplit, hliq, hres⟩ :=
          ih (match_level order ix q).1 (match_level order ix q).2.2
        refine ⟨(p, q) :: gone, stay, by simp [hsplit], ?_, hres⟩
        have hc := (match_level_incoming order ix q).2
        have hz : queue_liquidity (match_level order ix q).2.1 = 0 := by
          rw [← queue_liquidity_remove_filled, hk]; rfl
        rw [Ladder.liquidity_cons]
        omega
      · simp only [hk, if_false]
        exact ⟨[], (p, q) :: rest, rfl, by simp [Ladder.liquidity],
          Or.inr ⟨p, q, _, rest, rfl, rfl⟩⟩

/-- One level walked when every resting order has something remaining: a front part `A`
of the queue is filled and leaves the index, the rest `B` stays in order, and only the
first order of `B` may have been reduced. -/
theorem match_level_struct (order : Order) (ix : Index) (q : List Order)
    (hpos : ∀ o ∈ q, 0 < o.remaining) :
    ∃ A B, q = A ++ B ∧
      (∀ k, (match_level order ix q).2.2.find k =
        if k ∈ A.map Order.id then none else ix.find k) ∧
      (remove_filled (match_level order ix q).2.1 = B ∨
        ∃ h tl x, B = h :: tl ∧
          remove_filled (match_level order ix q).2.1 = { h with remaining := x } :: tl ∧
          0 < x ∧ x < h.remaining) := by
  induction q generalizing order ix with
  | nil => exact ⟨[], [], rfl, by simp [match_level], Or.inl (by simp [match_level, remove_filled])⟩
  | cons resting rest ih =>
    have hrest : ∀ o ∈ rest, 0 < o.remaining := fun o ho => hpos o (List.mem_cons_of_mem _ ho)
    have hres : 0 < resting.remaining := hpos resting (List.mem_cons_self _ _)
    by_cases h0 : order.remaining = 0
    · refine ⟨[], resting :: rest, rfl, by simp [match_level, h0], Or.inl ?_⟩
      simp only [match_level, h0, if_true]
      exact remove_filled_eq_self _ hpos
    · have h1 : ¬ resting.remaining = 0 := by omega
      simp only [match_level, h0, h1, if_false]
      by_cases hf : resting.remaining ≤ order.remaining
      · -- the resting order is filled
        have hmin : min order.remaining resting.remaining = resting.remaining := by omega
        obtain ⟨A, B, hsplit, hfind, hq⟩ :=
          ih (execute_trade ix order resting (min order.remaining resting.remaining)).1
            (execute_trade ix order resting (min order.remaining resting.remaining)).2.2 hrest
        refine ⟨resting :: A, B, by simp [hsplit], ?_, ?_⟩
        · intro k
          rw [hfind k]
          simp only [execute_trade, hmin, usub64_of_le, le_refl, Nat.sub_self, Order.is_filled,
            beq_self_eq_true, if_true, Index.find_erase, List.map_cons, List.mem_cons]
          by_cases hk : k = resting.id
          · simp [hk]
          · simp [hk]
        · have hfil : (execute_trade ix order resting
              (min order.remaining resting.remaining)).2.1.is_filled = true := by
            simp [execute_trade, hmin, usub64_of_le, Order.is_filled]
          have hkept : ∀ l, remove_filled ((execute_trade ix order resting
              (min order.remaining resting.remaining)).2.1 :: l) = remove_filled l := by
            intro l
            simp [remove_filled, List.filter_cons, hfil]
          rw [hkept]
          exact hq
      · -- the incoming order is exhausted by this trade
        have hmin : min order.remaining resting.remaining = order.remaining := by omega
        have hz : (execute_trade ix order resting
            (min order.remaining resting.remaining)).1.remaining = 0 := by
          simp [execute_trade, hmin, usub64_of_le]
        rw [match_level_of_exhausted _ _ _ hz]
        refine ⟨[], resting :: rest, rfl, ?_, Or.inr ⟨resting, rest,
          resting.remaining - order.remaining, rfl, ?_, by omega, by omega⟩⟩
        · intro k
          have hnf : ¬ (resting.remaining - order.remaining = 0) := by omega
          simp [execute_trade, hmin, usub64_of_le, Order.is_filled, hnf,
            Nat.le_of_lt (Nat.lt_of_not_le hf)]
        · have hnf : ¬ (resting.remaining - order.remaining = 0) := by omega
          simp only [execute_trade, hmin, usub64_of_le, Nat.le_of_lt (Nat.lt_of_not_le hf)]
          have hks := remove_filled_eq_self _ hrest
          simp only [remove_filled, Order.is_filled] at hks
          simp [remove_filled, List.filter_cons, Order.is_filled, hnf, hks]

theorem Ladder.orders_cons (p : Nat) (q : List Order) (t : Ladder) :
    Ladder.orders ((p, q) :: t) = q ++ Ladder.orders t := by
  simp [Ladder.orders]

theorem Ladder.orders_nil : Ladder.orders [] = [] := rfl

/-- The loop on a ladder in which every resting order has something remaining: the
levels in `gone` and the front part `A` of the next level are filled and leave the
index; everything behind keeps its place, and only the order right behind `A` may have
been reduced. -/
theorem match_loop_struct (levels : Ladder) (order : Order) (ix : Index)
    (hpos : ∀ x ∈ levels, ∀ o ∈ x.2, 0 < o.remaining) :
    ∃ gone stay, levels = gone ++ stay ∧
      (((match_loop levels.length order levels ix).2.1 = stay ∧
          ∀ k, (match_loop levels.length order levels ix).2.2.find k =
            if k ∈ (Ladder.orders gone).map Order.id then none else ix.find k) ∨
        ∃ p A h tl x rest, stay = (p, A ++ h :: tl) :: rest ∧
          (match_loop levels.length order levels ix).2.1 =
            (p, { h with remaining := x } :: tl) :: rest ∧
          0 < x ∧ x ≤ h.remaining ∧
          ∀ k, (match_loop levels.length order levels ix).2.2.find k =
            if k ∈ (Ladder.orders gone ++ A).map Order.id then none else ix.find k) := by
  induction levels generalizing order ix with
  | nil =>
    exact ⟨[], [], rfl, Or.inl ⟨by simp [match_loop_nil], by simp [match_loop_nil, Ladder.orders_nil]⟩⟩
  | cons x rest ih =>
    obtain ⟨p, q⟩ := x
    have hq : ∀ o ∈ q, 0 < o.remaining := hpos (p, q) (List.mem_cons_self _ _)
    have hrest : ∀ x ∈ rest, ∀ o ∈ x.2, 0 < o.remaining :=
      fun x hx => hpos x (List.mem_cons_of_mem _ hx)
    rw [List.length_cons, match_loop_cons]
    by_cases h0 : order.remaining = 0
    · exact ⟨[], (p, q) :: rest, rfl, Or.inl ⟨by simp [h0], by simp [h0, Ladder.orders_nil]⟩⟩
    · simp only [h0, if_false]
      obtain ⟨A, B, hsplit, hfind, hB⟩ := match_level_struct order ix q hq
      by_cases hk : remove_filled (match_level order ix q).2.1 = []
      · simp only [hk, if_true]
        have hBnil : B = [] := by
          rcases hB with hB | ⟨h, tl, x, _, hB, _⟩
          · rw [← hB, hk]
          · rw [hk] at hB; simp at hB
        have hqA : q = A := by simp [hsplit, hBnil]
        obtain ⟨gone, stay, hsp, hres⟩ :=
          ih (match_level order ix q).1 (match_level order ix q).2.2 hrest
        refine ⟨(p, q) :: gone, stay, by simp [hsp], ?_⟩
        rcases hres with ⟨hl, hf⟩ | ⟨p1, A1, h, tl, x, rest1, hst, hl, hx0, hx1, hf⟩
        · refine Or.inl ⟨hl, ?_⟩
          intro k
          rw [hf k, hfind k, Ladder.orders_cons, ← hqA]
          by_cases h1 : k ∈ List.map Order.id (Ladder.orders gone)
          · have h1b : k ∈ List.map Order.id (q ++ Ladder.orders gone) := by
              simp only [List.map_append, List.mem_append] at h1 ⊢
              tauto
            rw [if_pos h1, if_pos h1b]
          · by_cases h2 : k ∈ List.map Order.id q
            · have h1b : k ∈ List.map Order.id (q ++ Ladder.orders gone) := by
                simp only [List.map_append, List.mem_append] at h2 ⊢
                tauto
              rw [if_neg h1, if_pos h2, if_pos h1b]
            · have h1b : ¬ k ∈ List.map Order.id (q ++ Ladder.orders gone) := by
                simp only [List.map_append, List.mem_append] at h1 h2 ⊢
                tauto
              rw [if_neg h1, if_neg h2, if_neg h1b]
        · refine Or.inr ⟨p1, A1, h, tl, x, rest1, hst, hl, hx0, hx1, ?_⟩
          intro k
          rw [hf k, hfind k, Ladder.orders_cons, ← hqA]
          by_cases h1 : k ∈ List.map Order.id (Ladder.orders gone ++ A1)
          · have h1b : k ∈ List.map Order.id (q ++ Ladder.orders gone ++ A1) := by
              simp only [List.map_append, List.mem_append] at h1 ⊢
              tauto
            rw [if_pos h1, if_pos h1b]
          · by_cases h2 : k ∈ List.map Order.id q
            · have h1b : k ∈ List.map Order.id (q ++ Ladder.orders gone ++ A1) := by
                simp only [List.map_append, List.mem_append] at h2 ⊢
                tauto
              rw [if_neg h1, if_pos h2, if_pos h1b]
            · have h1b : ¬ k ∈ List.map Order.id (q ++ Ladder.orders gone ++ A1) := by
                simp only [List.map_append, List.mem_append] at h1 h2 ⊢
                tauto
              rw [if_neg h1, if_neg h2, if_neg h1b]
      · simp only [hk, if_false]
        refine ⟨[], (p, q) :: rest, rfl, Or.inr ?_⟩
        rcases hB with hB | ⟨h, tl, x, hBe, hB, hx0, hx1⟩
        · obtain ⟨h, tl, hBe⟩ : ∃ h tl, B = h :: tl := by
            cases hb : B with
            | nil => rw [hb] at hB; exact absurd hB hk
            | cons h tl => exact ⟨h, tl, rfl⟩
          refine ⟨p, A, h, tl, h.remaining, rest, by simp [hsplit, hBe], ?_, ?_, le_refl _, ?_⟩
          · rw [hB, hBe]
          · have : h ∈ q := by simp [hsplit, hBe]
            exact hq h this
          · intro k
            simpa [Ladder.orders_nil] using hfind k
        · refine ⟨p, A, h, tl, x, rest, by simp [hsplit, hBe], by rw [hB], hx0, le_of_lt hx1, ?_⟩
          intro k
          simpa [Ladder.orders_nil] using hfind k


/-! ## Unfolding `add_order` -/

theorem add_order_of_mem (b : OrderBook) (o : Order) (h : o.id ∈ b.orders_.keys) :
    b.add_order o = (false, b) := by
  have hs : (b.orders_.find o.id).isSome = true := by
    cases hf : b.orders_.find o.id with
    | none => exact absurd h ((Index.find_eq_none_iff _ _).mp hf)
    | some loc => rfl
  simp [add_order, hs]

theorem add_order_limit (b : OrderBook) (o : Order) (h : o.id ∉ b.orders_.keys)
    (hty : o.type = OrderType.LIMIT) : b.add_order o = (true, add_limit_order b o) := by
  have hf := (Index.find_eq_none_iff _ _).mpr h
  simp [add_order, hf, hty]

theorem add_order_market (b : OrderBook) (o : Order) (h : o.id ∉ b.orders_.keys)
    (hty : o.type = OrderType.MARKET) : b.add_order o = (true, match_market_order b o) := by
  have hf := (Index.find_eq_none_iff _ _).mpr h
  simp [add_order, hf, hty]


theorem match_market_order_opposite (b : OrderBook) (m : Order) :
    (if m.side = Side.BUY then (match_market_order b m).asks_ else (match_market_order b m).bids_) =
      (match_loop (if m.side = Side.BUY then b.asks_ else b.bids_).length m
        (if m.side = Side.BUY then b.asks_ else b.bids_) b.orders_).2.1 := by
  by_cases hs : m.side = Side.BUY <;> simp [match_market_order, hs]

theorem match_market_order_own (b : OrderBook) (m : Order) :
    (if m.side = Side.BUY then (match_market_order b m).bids_ else (match_market_order b m).asks_) =
      (if m.side = Side.BUY then b.bids_ else b.asks_) := by
  by_cases hs : m.side = Side.BUY <;> simp [match_market_order, hs]

theorem match_market_order_index (b : OrderBook) (m : Order) :
    (match_market_order b m).orders_ =
      (match_loop (if m.side = Side.BUY then b.asks_ else b.bids_).length m
        (if m.side = Side.BUY then b.asks_ else b.bids_) b.orders_).2.2 := by
  by_cases hs : m.side = Side.BUY <;> simp [match_market_order, hs]

theorem Ladder.WF_append (gone stay : Ladder) (h : Ladder.WF (gone ++ stay)) :
    Ladder.WF gone ∧ Ladder.WF stay ∧ ∀ a ∈ gone, ∀ c ∈ stay, a.1 < c.1 := by
  unfold Ladder.WF at *
  rw [List.map_append, List.pairwise_append] at h
  refine ⟨h.1, h.2.1, ?_⟩
  intro a ha c hc
  exact h.2.2 a.1 (List.mem_map.mpr ⟨a, ha, rfl⟩) c.1 (List.mem_map.mpr ⟨c, hc, rfl⟩)

theorem Ladder.liquidity_append (l1 l2 : Ladder) :
    Ladder.liquidity (l1 ++ l2) = Ladder.liquidity l1 + Ladder.liquidity l2 := by
  simp [Ladder.liquidity]

theorem Ladder.liquidity_filter_le (l : Ladder) (f : Nat × List Order → Bool) :
    Ladder.liquidity (l.filter f) ≤ Ladder.liquidity l := by
  induction l with
  | nil => simp
  | cons x t ih =>
    obtain ⟨p, q⟩ := x
    by_cases h : f (p, q) = true
    · simp only [List.filter_cons, h, if_true, Ladder.liquidity_cons]
      omega
    · simp only [List.filter_cons, h, Ladder.liquidity_cons]
      simp only [Bool.false_eq_true, if_false]
      omega

/-- The ladder left by the loop has the keys of a tail of the ladder it started from. -/
theorem match_loop_keys (levels : Ladder) (order : Order) (ix : Index) :
    ∃ gone stay, levels = gone ++ stay ∧ Ladder.liquidity gone ≤ order.remaining ∧
      (match_loop levels.length order levels ix).2.1.map Prod.fst = stay.map Prod.fst ∧
      ((match_loop levels.length order levels ix).2.1 = stay ∨
        ∃ p q q1 t, stay = (p, q) :: t ∧
          (match_loop levels.length order levels ix).2.1 = (p, q1) :: t) := by
  obtain ⟨gone, stay, hsplit, hliq, hres⟩ := match_loop_shape levels order ix
  refine ⟨gone, stay, hsplit, hliq, ?_, hres⟩
  rcases hres with h | ⟨p, q, q1, t, hs, h⟩
  · rw [h]
  · rw [h, hs]; simp

theorem match_loop_WF (levels : Ladder) (order : Order) (ix : Index) (h : levels.WF) :
    Ladder.WF (match_loop levels.length order levels ix).2.1 := by
  obtain ⟨gone, stay, hsplit, _, hkeys, _⟩ := match_loop_keys levels order ix
  rw [hsplit] at h
  have := (Ladder.WF_append gone stay h).2.1
  unfold Ladder.WF at *
  rw [hkeys]; exact this

/-- Price priority of the loop on a sorted ladder: if the level at price `p` was changed
or removed, every level at a smaller price is gone and the incoming order covered the
whole liquidity below `p`. -/
theorem match_loop_price_priority (levels : Ladder) (order : Order) (ix : Index)
    (hwf : levels.WF) (p : Nat) (q : List Order) (hq : levels.lookup p = some q)
    (hch : (match_loop levels.length order levels ix).2.1.lookup p ≠ some q) :
    (∀ p1, p1 < p → (match_loop levels.length order levels ix).2.1.lookup p1 = none) ∧
    Ladder.liquidity (levels.filter (fun kv => kv.1 < p)) ≤ order.remaining := by
  have hresWF := match_loop_WF levels order ix hwf
  obtain ⟨gone, stay, hsplit, hliq, hkeys, hres⟩ := match_loop_keys levels order ix
  have hmem : (p, q) ∈ gone ++ stay := hsplit ▸ Ladder.mem_of_lookup levels p q hq
  have hwf2 := hwf
  rw [hsplit] at hwf2
  obtain ⟨_, hstayWF, hlt⟩ := Ladder.WF_append gone stay hwf2
  have hnotin : (p, q) ∉ (match_loop levels.length order levels ix).2.1 :=
    fun hin => hch (Ladder.lookup_of_mem _ hresWF p q hin)
  have hge : ∀ c ∈ stay, p ≤ c.1 := by
    intro c hc
    rcases List.mem_append.mp hmem with hg | hs
    · exact le_of_lt (hlt _ hg c hc)
    · rcases hres with h | ⟨p0, q0, q1, t, hst, h⟩
      · rw [h] at hnotin; exact absurd hs hnotin
      · rw [hst] at hs hc hstayWF
        have ht : ∀ k ∈ t.map Prod.fst, p0 < k := (List.pairwise_cons.mp hstayWF).1
        rcases List.mem_cons.mp hs with hs | hs
        · injection hs with e1 e2
          subst e1
          rcases List.mem_cons.mp hc with hc | hc
          · rw [hc]
          · exact le_of_lt (ht c.1 (List.mem_map.mpr ⟨c, hc, rfl⟩))
        · rw [h] at hnotin
          exact absurd (List.mem_cons_of_mem _ hs) hnotin
  constructor
  · intro p1 hp1
    cases hl : (match_loop levels.length order levels ix).2.1.lookup p1 with
    | none => rfl
    | some q1 =>
      have hin := Ladder.mem_of_lookup _ p1 q1 hl
      have hk : p1 ∈ (match_loop levels.length order levels ix).2.1.map Prod.fst :=
        List.mem_map.mpr ⟨(p1, q1), hin, rfl⟩
      rw [hkeys] at hk
      obtain ⟨c, hc, hce⟩ := List.mem_map.mp hk
      have := hge c hc
      omega
  · have hnil : stay.filter (fun kv => decide (kv.1 < p)) = [] := by
      apply List.filter_eq_nil_iff.mpr
      intro c hc
      have := hge c hc
      simp; omega
    rw [hsplit, List.filter_append, hnil, List.append_nil]
    exact le_trans (Ladder.liquidity_filter_le gone _) hliq

theorem add_limit_order_lookup (b : OrderBook) (o : Order) :
    (if o.side = Side.BUY then (add_limit_order b o).bids_
      else (add_limit_order b o).asks_).lookup o.price =
      some (((if o.side = Side.BUY then b.bids_ else b.asks_).lookup o.price).getD [] ++ [o]) := by
  by_cases hs : o.side = Side.BUY <;> simp [add_limit_order, hs, Ladder.lookup_put]


/-- Time priority of the loop: a queue found after the loop is what is left of the queue
at that price when a front part `gone` is taken away, and only its first order may have
a smaller remaining. -/
theorem match_loop_time_priority (levels : Ladder) (order : Order) (ix : Index)
    (hpos : ∀ x ∈ levels, ∀ o ∈ x.2, 0 < o.remaining) (hwf : levels.WF)
    (p : Nat) (q1 : List Order)
    (h1 : (match_loop levels.length order levels ix).2.1.lookup p = some q1) :
    ∃ q gone, levels.lookup p = some q ∧
      (q = gone ++ q1 ∨
        ∃ h tl x, q = gone ++ h :: tl ∧ q1 = { h with remaining := x } :: tl ∧
          0 < x ∧ x < h.remaining) := by
  have hin := Ladder.mem_of_lookup _ p q1 h1
  obtain ⟨gone, stay, hsplit, hres⟩ := match_loop_struct levels order ix hpos
  have hback : ∀ q, (p, q) ∈ stay → levels.lookup p = some q := by
    intro q hq
    apply Ladder.lookup_of_mem levels hwf
    rw [hsplit]
    exact List.mem_append_right _ hq
  rcases hres with ⟨hl, _⟩ | ⟨p0, A, h, tl, x, rest, hst, hl, hx0, hx1, _⟩
  · rw [hl] at hin
    exact ⟨q1, [], hback q1 hin, Or.inl rfl⟩
  · rw [hl] at hin
    rcases List.mem_cons.mp hin with hin | hin
    · injection hin with e1 e2
      subst e1
      have hlk := hback (A ++ h :: tl) (by rw [hst]; exact List.mem_cons_self _ _)
      refine ⟨A ++ h :: tl, A, hlk, ?_⟩
      by_cases hx : x = h.remaining
      · left; rw [e2, hx]
      · right
        exact ⟨h, tl, x, rfl, e2, hx0, by omega⟩
    · exact ⟨q1, [], hback q1 (by rw [hst]; exact List.mem_cons_of_mem _ hin), Or.inl rfl⟩

/-! ## Best prices and runs of insertions -/

theorem max?_congr_mem (l1 l2 : List Nat) (h : ∀ x, x ∈ l1 ↔ x ∈ l2) : l1.max? = l2.max? := by
  cases h1 : l1.max? with
  | none =>
    have e1 : l1 = [] := List.max?_eq_none_iff.mp h1
    have e2 : l2 = [] := by
      apply List.eq_nil_iff_forall_not_mem.mpr
      intro x hx
      have := (h x).mpr hx
      rw [e1] at this; simp at this
    rw [e2]; rfl
  | some a =>
    symm
    rw [List.max?_eq_some_iff'] at h1 ⊢
    exact ⟨(h a).mp h1.1, fun b hb => h1.2 b ((h b).mpr hb)⟩

theorem min?_congr_mem (l1 l2 : List Nat) (h : ∀ x, x ∈ l1 ↔ x ∈ l2) : l1.min? = l2.min? := by
  cases h1 : l1.min? with
  | none =>
    have e1 : l1 = [] := List.min?_eq_none_iff.mp h1
    have e2 : l2 = [] := by
      apply List.eq_nil_iff_forall_not_mem.mpr
      intro x hx
      have := (h x).mpr hx
      rw [e1] at this; simp at this
    rw [e2]; rfl
  | some a =>
    symm
    rw [List.min?_eq_some_iff'] at h1 ⊢
    exact ⟨(h a).mp h1.1, fun b hb => h1.2 b ((h b).mpr hb)⟩

/-- On a sorted ladder `rbegin()` is the largest key. -/
theorem Ladder.last_key_eq_max (l : Ladder) (h : l.WF) : l.last_key = (l.map Prod.fst).max? := by
  unfold Ladder.last_key Ladder.WF at *
  rcases List.eq_nil_or_concat l with hl | ⟨ys, a, hl⟩
  · subst hl; rfl
  · subst hl
    have hm : (List.map Prod.fst (ys.concat a)).max? = some a.1 := by
      rw [List.max?_eq_some_iff']
      simp only [List.concat_eq_append, List.map_append, List.map_cons, List.map_nil,
        List.pairwise_append] at h ⊢
      refine ⟨by simp, ?_⟩
      intro b hb
      rcases List.mem_append.mp hb with hb | hb
      · exact le_of_lt (h.2.2 b hb a.1 (by simp))
      · simp at hb; omega
    rw [hm]
    simp

/-- On a sorted ladder `begin()` is the smallest key. -/
theorem Ladder.first_key_eq_min (l : Ladder) (h : l.WF) : l.first_key = (l.map Prod.fst).min? := by
  unfold Ladder.first_key Ladder.WF at *
  cases l with
  | nil => rfl
  | cons x t =>
    have hm : (List.map Prod.fst (x :: t)).min? = some x.1 := by
      rw [List.min?_eq_some_iff']
      simp only [List.map_cons, List.pairwise_cons] at h ⊢
      refine ⟨by simp, ?_⟩
      intro b hb
      rcases List.mem_cons.mp hb with hb | hb
      · omega
      · exact le_of_lt (h.1 b hb)
    rw [hm]
    simp

theorem best_bid_price_eq_max (b : OrderBook) (h : b.bids_.WF) :
    b.best_bid_price = (b.bids_.map Prod.fst).max? := by
  unfold best_bid_price
  by_cases he : b.bids_.isEmpty = true
  · rw [List.isEmpty_iff] at he
    simp [he]
  · simp only [he]
    exact Ladder.last_key_eq_max _ h

theorem best_ask_price_eq_min (b : OrderBook) (h : b.asks_.WF) :
    b.best_ask_price = (b.asks_.map Prod.fst).min? := by
  unfold best_ask_price
  by_cases he : b.asks_.isEmpty = true
  · rw [List.isEmpty_iff] at he
    simp [he]
  · simp only [he]
    exact Ladder.first_key_eq_min _ h

theorem Index.mem_keys_assign (ix : Index) (id : Nat) (loc : Locator) (k : Nat) :
    k ∈ (ix.assign id loc).keys ↔ k = id ∨ k ∈ ix.keys := by
  have h := Index.mem_keys_erase ix id k
  unfold Index.keys at h ⊢
  simp only [Index.assign, List.map_cons, List.mem_cons, h]
  by_cases hk : k = id
  · simp [hk]
  · simp [hk]

theorem run_append (b : OrderBook) (ops1 ops2 : List Op) :
    b.run (ops1 ++ ops2) = (b.run ops1).run ops2 := by
  simp [OrderBook.run, List.foldl_append]

/-- What a run of LIMIT insertions with distinct ids builds from the empty book. -/
theorem run_limits (os : List Order) (hty : ∀ o ∈ os, o.type = OrderType.LIMIT)
    (hid : (os.map Order.id).Nodup) :
    (OrderBook.empty.run (os.map Op.add)).bids_.WF ∧
    (OrderBook.empty.run (os.map Op.add)).asks_.WF ∧
    (∀ p, p ∈ (OrderBook.empty.run (os.map Op.add)).bids_.map Prod.fst ↔
      p ∈ (os.filter (fun o => o.side = Side.BUY)).map Order.price) ∧
    (∀ p, p ∈ (OrderBook.empty.run (os.map Op.add)).asks_.map Prod.fst ↔
      p ∈ (os.filter (fun o => o.side = Side.SELL)).map Order.price) ∧
    (∀ id, id ∈ (OrderBook.empty.run (os.map Op.add)).orders_.keys ↔ id ∈ os.map Order.id) := by
  induction os using List.reverseRecOn with
  | nil => simp [OrderBook.run, OrderBook.empty, Ladder.WF, Index.keys]
  | append_singleton os o ih =>
    have hty1 : ∀ o ∈ os, o.type = OrderType.LIMIT :=
      fun x hx => hty x (List.mem_append_left _ hx)
    have hid1 : (os.map Order.id).Nodup := by
      rw [List.map_append, List.nodup_append] at hid
      exact hid.1
    have hnew : o.id ∉ os.map Order.id := by
      rw [List.map_append, List.nodup_append] at hid
      intro hin
      exact hid.2.2 hin (by simp)
    obtain ⟨hb, ha, hkb, hka, hki⟩ := ih hty1 hid1
    have hnk : o.id ∉ (OrderBook.empty.run (os.map Op.add)).orders_.keys :=
      fun hin => hnew ((hki _).mp hin)
    have hstep : OrderBook.empty.run ((os ++ [o]).map Op.add) =
        add_limit_order (OrderBook.empty.run (os.map Op.add)) o := by
      rw [List.map_append, run_append]
      simp only [List.map_cons, List.map_nil, OrderBook.run, List.foldl_cons, List.foldl_nil,
        OrderBook.apply]
      have := add_order_limit _ o hnk (hty o (by simp))
      simp only [OrderBook.run] at this
      rw [this]
    rw [hstep]
    have hkeys : ∀ id, id ∈ (add_limit_order (OrderBook.empty.run (os.map Op.add)) o).orders_.keys ↔
        id ∈ (os ++ [o]).map Order.id := by
      intro id
      have : (add_limit_order (OrderBook.empty.run (os.map Op.add)) o).orders_ =
          (OrderBook.empty.run (os.map Op.add)).orders_.assign o.id
            { side := o.side, price := o.price } := by
        by_cases hs : o.side = Side.BUY <;> simp [add_limit_order, hs]
      rw [this, Index.mem_keys_assign, hki]
      simp [or_comm]
    by_cases hs : o.side = Side.BUY
    · have hs2 : ¬ o.side = Side.SELL := by rw [hs]; decide
      simp only [add_limit_order, hs, if_true] at hkeys ⊢
      refine ⟨Ladder.put_WF _ _ _ hb, ha, ?_, ?_, hkeys⟩
      · intro p
        rw [Ladder.keys_put, hkb]
        simp [List.filter_append, hs, or_comm]
      · intro p
        rw [hka]
        simp [List.filter_append, hs2]
    · have hs2 : o.side = Side.SELL := by
        cases hh : o.side with
        | BUY => exact absurd hh hs
        | SELL => rfl
      simp only [add_limit_order, hs, if_false] at hkeys ⊢
      refine ⟨hb, Ladder.put_WF _ _ _ ha, ?_, ?_, hkeys⟩
      · intro p
        rw [hkb]
        simp [List.filter_append, hs]
      · intro p
        rw [Ladder.keys_put, hka]
        simp [List.filter_append, hs2, or_comm]

/-! ## Agreement of index and ladders is preserved -/

theorem Index.mem_keys_of_find (ix : Index) (k : Nat) (loc : Locator)
    (h : ix.find k = some loc) : k ∈ ix.keys := by
  by_contra hn
  rw [(Index.find_eq_none_iff ix k).mpr hn] at h
  exact Option.noConfusion h

theorem AgreeOn.live {s : Side} {levels : Ladder} {ix : Index} (h : AgreeOn s levels ix)
    (k : Nat) (loc : Locator) (hf : ix.find k = some loc) (hs : loc.side = s) :
    ∃ x ∈ levels, x.1 = loc.price ∧ ∃ o ∈ x.2, o.id = k :=
  h.2.2.2 k (Index.mem_keys_of_find ix k loc hf) loc hf hs

theorem AgreeOn.intro {s : Side} {levels : Ladder} {ix : Index} (h1 : levels.WF)
    (h2 : ∀ x ∈ levels, (x.2.map Order.id).Nodup)
    (h3 : ∀ x ∈ levels, ∀ o ∈ x.2, ix.find o.id = some { side := s, price := x.1 })
    (h4 : ∀ k loc, ix.find k = some loc → loc.side = s →
      ∃ x ∈ levels, x.1 = loc.price ∧ ∃ o ∈ x.2, o.id = k) : AgreeOn s levels ix :=
  ⟨h1, h2, h3, fun k _ loc hf hs => h4 k loc hf hs⟩

/-- A ladder that is not touched still agrees with an index whose entries of that side
are the same. -/
theorem AgreeOn.of_index {s : Side} {levels : Ladder} {ix ix1 : Index}
    (h : AgreeOn s levels ix)
    (hkeep : ∀ k loc, ix.find k = some loc → loc.side = s → ix1.find k = some loc)
    (hsub : ∀ k loc, ix1.find k = some loc → loc.side = s → ix.find k = some loc) :
    AgreeOn s levels ix1 := by
  refine AgreeOn.intro h.1 h.2.1 ?_ ?_
  · intro x hx o ho
    exact hkeep _ _ (h.2.2.1 x hx o ho) rfl
  · intro k loc hf hs
    exact h.live k loc (hsub k loc hf hs) hs

/-- In a sorted ladder a level is determined by its price. -/
theorem Ladder.eq_of_mem (l : Ladder) (h : l.WF) (x y : Nat × List Order)
    (hx : x ∈ l) (hy : y ∈ l) (hk : x.1 = y.1) : x = y := by
  obtain ⟨p, q⟩ := x
  obtain ⟨p1, q1⟩ := y
  simp only at hk
  subst hk
  have h1 := Ladder.lookup_of_mem l h p q hx
  have h2 := Ladder.lookup_of_mem l h p q1 hy
  rw [h1] at h2
  injection h2 with h2
  rw [h2]

/-- Appending an order with a fresh id to the queue at its price keeps the agreement on
its own side. -/
theorem AgreeOn.add_limit {s : Side} {levels : Ladder} {ix : Index}
    (h : AgreeOn s levels ix) (o : Order) (hid : o.id ∉ ix.keys) :
    AgreeOn s (levels.put o.price ((levels.lookup o.price).getD [] ++ [o]))
      (ix.assign o.id { side := s, price := o.price }) := by
  obtain ⟨hwf, hnd, hloc, _⟩ := id h
  have hq : ∀ o1 ∈ (levels.lookup o.price).getD [],
      ix.find o1.id = some { side := s, price := o.price } ∧
      (o.price, (levels.lookup o.price).getD []) ∈ levels := by
    intro o1 ho1
    cases hl : levels.lookup o.price with
    | none => rw [hl] at ho1; simp at ho1
    | some q =>
      rw [hl] at ho1
      have hm := Ladder.mem_of_lookup levels _ _ hl
      exact ⟨hloc _ hm o1 ho1, by simpa using hm⟩
  have hne : ∀ (o1 : Order) (loc : Locator), ix.find o1.id = some loc → o1.id ≠ o.id := by
    intro o1 loc hf he
    exact hid (he ▸ Index.mem_keys_of_find ix _ _ hf)
  refine AgreeOn.intro (Ladder.put_WF _ _ _ hwf) ?_ ?_ ?_
  · intro x hx
    rcases (Ladder.mem_put levels hwf _ _ x).mp hx with hx | ⟨hx, _⟩
    · rw [hx]
      simp only [List.map_append, List.map_cons, List.map_nil]
      rw [List.nodup_append]
      refine ⟨?_, by simp, ?_⟩
      · cases hl : levels.lookup o.price with
        | none => simp
        | some q => exact hnd _ (Ladder.mem_of_lookup levels _ _ hl)
      · intro a ha hb
        have hb2 : a = o.id := by simpa using hb
        obtain ⟨o1, ho1, rfl⟩ := List.mem_map.mp ha
        exact hne o1 _ (hq o1 ho1).1 hb2
    · exact hnd x hx
  · intro x hx o1 ho1
    rw [Index.find_assign]
    rcases (Ladder.mem_put levels hwf _ _ x).mp hx with hx | ⟨hx, _⟩
    · rw [hx] at ho1 ⊢
      rcases List.mem_append.mp ho1 with ho1 | ho1
      · rw [if_neg (hne o1 _ (hq o1 ho1).1)]
        exact (hq o1 ho1).1
      · have : o1 = o := by simpa using ho1
        rw [this]; simp
    · rw [if_neg (hne o1 _ (hloc x hx o1 ho1))]
      exact hloc x hx o1 ho1
  · intro k loc hf hs
    rw [Index.find_assign] at hf
    by_cases hk : k = o.id
    · rw [if_pos hk] at hf
      injection hf with hf
      refine ⟨(o.price, (levels.lookup o.price).getD [] ++ [o]),
        (Ladder.mem_put levels hwf _ _ _).mpr (Or.inl rfl), by rw [← hf], o, by simp, hk.symm⟩
    · rw [if_neg hk] at hf
      obtain ⟨x, hx, hxp, o1, ho1, hoid⟩ := h.live k loc hf hs
      by_cases hp : x.1 = o.price
      · have hlk : levels.lookup o.price = some x.2 :=
          Ladder.lookup_of_mem levels hwf _ _ (by rw [← hp]; exact hx)
        refine ⟨(o.price, (levels.lookup o.price).getD [] ++ [o]),
          (Ladder.mem_put levels hwf _ _ _).mpr (Or.inl rfl), by rw [← hxp, hp], o1, ?_, hoid⟩
        rw [hlk]; simp [ho1]
      · exact ⟨x, (Ladder.mem_put levels hwf _ _ _).mpr (Or.inr ⟨hx, hp⟩), hxp, o1, ho1, hoid⟩

/-- Inserting a LIMIT order whose id is not in the index keeps the agreement. -/
theorem add_limit_order_agree (b : OrderBook) (o : Order) (h : b.Agree)
    (hid : o.id ∉ b.orders_.keys) : (add_limit_order b o).Agree := by
  obtain ⟨hk, hb, ha⟩ := h
  have hkeys : ((b.orders_.assign o.id { side := o.side, price := o.price })).keys.Nodup := by
    simp only [Index.assign, Index.erase_of_not_mem _ _ hid, Index.keys, List.map_cons]
    exact List.nodup_cons.mpr ⟨hid, hk⟩
  have hother : ∀ (s : Side) (levels : Ladder), s ≠ o.side → AgreeOn s levels b.orders_ →
      AgreeOn s levels (b.orders_.assign o.id { side := o.side, price := o.price }) := by
    intro s levels hs hl
    refine hl.of_index ?_ ?_
    · intro k loc hf _
      rw [Index.find_assign]
      have : k ≠ o.id := fun he => hid (he ▸ Index.mem_keys_of_find _ _ _ hf)
      rw [if_neg this]; exact hf
    · intro k loc hf hside
      rw [Index.find_assign] at hf
      by_cases hk : k = o.id
      · rw [if_pos hk] at hf
        injection hf with hf
        rw [← hf] at hside
        exact absurd hside.symm hs
      · rw [if_neg hk] at hf; exact hf
  by_cases hs : o.side = Side.BUY
  · simp only [add_limit_order, hs, if_true, OrderBook.Agree]
    rw [hs] at hkeys hother
    refine ⟨hkeys, ?_, hother Side.SELL _ (by decide) ha⟩
    exact hb.add_limit o hid
  · have hs2 : o.side = Side.SELL := by
      cases hh : o.side with
      | BUY => exact absurd hh hs
      | SELL => rfl
    simp only [add_limit_order, hs2, OrderBook.Agree]
    rw [hs2] at hkeys hother
    simp only [show ¬ (Side.SELL = Side.BUY) by decide, if_false]
    refine ⟨hkeys, hother Side.BUY _ (by decide) hb, ?_⟩
    exact ha.add_limit o hid

theorem cancel_levels_lookup (levels : Ladder) (p X k : Nat) :
    (cancel_levels levels p X p).lookup k =
      if k = p then
        (if ((levels.lookup p).getD []).filter (fun o => !(o.id == X)) = [] then none
          else some (((levels.lookup p).getD []).filter (fun o => !(o.id == X))))
      else levels.lookup k := by
  unfold cancel_levels
  by_cases he : ((levels.lookup p).getD []).filter (fun o => !(o.id == X)) = []
  · simp only [he, List.isEmpty_nil, if_true, Ladder.erase_put, Ladder.lookup_erase]
  · have he2 : (((levels.lookup p).getD []).filter (fun o => !(o.id == X))).isEmpty = false := by
      simpa [List.isEmpty_iff] using he
    simp only [he2, he, if_false]
    exact Ladder.lookup_put _ _ _ _

theorem cancel_levels_WF_any (levels : Ladder) (p X e : Nat) (h : levels.WF) :
    (cancel_levels levels p X e).WF := by
  unfold cancel_levels
  by_cases he : (((levels.lookup p).getD []).filter (fun o => !(o.id == X))).isEmpty = true
  · simp only [he, if_true]
    exact Ladder.erase_WF _ _ (Ladder.put_WF _ _ _ h)
  · simp only [he]
    exact Ladder.put_WF _ _ _ h

theorem cancel_levels_WF (levels : Ladder) (p X : Nat) (h : levels.WF) :
    (cancel_levels levels p X p).WF :=
  cancel_levels_WF_any levels p X p h

/-- Whatever key the erase of line 35 uses, every order stored afterwards was stored
before, in the level at the same price. -/
theorem cancel_levels_sub (levels : Ladder) (p X e : Nat) (h : levels.WF) :
    ∀ x ∈ cancel_levels levels p X e, ∀ o ∈ x.2, ∃ q, (x.1, q) ∈ levels ∧ o ∈ q := by
  have hput : ∀ x ∈ levels.put p (((levels.lookup p).getD []).filter (fun o => !(o.id == X))),
      ∀ o ∈ x.2, ∃ q, (x.1, q) ∈ levels ∧ o ∈ q := by
    intro x hx o ho
    rcases (Ladder.mem_put levels h _ _ x).mp hx with hx | ⟨hx, _⟩
    · rw [hx] at ho ⊢
      have ho1 := (List.mem_filter.mp ho).1
      cases hlk : levels.lookup p with
      | none => rw [hlk] at ho1; simp at ho1
      | some q =>
        rw [hlk] at ho1
        exact ⟨q, Ladder.mem_of_lookup levels _ _ hlk, ho1⟩
    · exact ⟨x.2, hx, ho⟩
  unfold cancel_levels
  by_cases he : (((levels.lookup p).getD []).filter (fun o => !(o.id == X))).isEmpty = true
  · simp only [he, if_true]
    intro x hx
    exact hput x ((Ladder.mem_erase _ _ x).mp hx).1
  · simp only [he]
    exact hput

/-- The erase of line 35 with the key read at line 30, or no erase at all, gives the
ladder that pruning the emptied level gives. -/
theorem cancel_levels_of_reads_back (levels : Ladder) (p X e : Nat)
    (h : (!(((levels.lookup p).getD []).filter (fun o => !(o.id == X))).isEmpty || e == p) = true) :
    cancel_levels levels p X e = cancel_levels levels p X p := by
  unfold cancel_levels
  by_cases he : (((levels.lookup p).getD []).filter (fun o => !(o.id == X))).isEmpty = true
  · have hep : e = p := by simpa [he] using h
    rw [hep]
  · simp [he]

theorem cancel_levels_mem (levels : Ladder) (p X : Nat) (h : levels.WF) (x : Nat × List Order) :
    x ∈ cancel_levels levels p X p ↔
      (x = (p, ((levels.lookup p).getD []).filter (fun o => !(o.id == X))) ∧
        ((levels.lookup p).getD []).filter (fun o => !(o.id == X)) ≠ []) ∨
      (x ∈ levels ∧ x.1 ≠ p) := by
  obtain ⟨k, v⟩ := x
  rw [Ladder.mem_iff_lookup _ (cancel_levels_WF levels p X h), cancel_levels_lookup]
  by_cases hk : k = p
  · subst hk
    by_cases he : ((levels.lookup k).getD []).filter (fun o => !(o.id == X)) = []
    · simp [he]
    · simp [he, eq_comm]
  · simp only [hk, if_false, Prod.mk.injEq, false_and, false_or, ne_eq, not_false_eq_true,
      and_true]
    exact (Ladder.mem_iff_lookup levels h k v).symm

/-- Removing the located order keeps the agreement on its side. -/
theorem AgreeOn.cancel {s : Side} {levels : Ladder} {ix : Index}
    (h : AgreeOn s levels ix) (X p : Nat) (hf : ix.find X = some { side := s, price := p }) :
    AgreeOn s (cancel_levels levels p X p) (ix.erase X) := by
  obtain ⟨hwf, hnd, hloc, _⟩ := id h
  obtain ⟨x0, hx0, hx0p, _⟩ := h.live X _ hf rfl
  simp only at hx0p
  have hlk : levels.lookup p = some x0.2 :=
    Ladder.lookup_of_mem levels hwf _ _ (by rw [← hx0p]; exact hx0)
  refine AgreeOn.intro (cancel_levels_WF _ _ _ hwf) ?_ ?_ ?_
  · intro x hx
    rcases (cancel_levels_mem levels p X hwf x).mp hx with ⟨hx, _⟩ | ⟨hx, _⟩
    · rw [hx, hlk]
      exact (hnd x0 hx0).sublist ((List.filter_sublist _).map _)
    · exact hnd x hx
  · intro x hx o ho
    rw [Index.find_erase]
    rcases (cancel_levels_mem levels p X hwf x).mp hx with ⟨hx, _⟩ | ⟨hx, hxp⟩
    · rw [hx, hlk] at ho
      rw [hx]
      obtain ⟨ho1, ho2⟩ := List.mem_filter.mp ho
      have hne : o.id ≠ X := by simpa using ho2
      rw [if_neg hne]
      have := hloc x0 hx0 o ho1
      rw [hx0p] at this
      exact this
    · have := hloc x hx o ho
      have hne : o.id ≠ X := by
        intro he
        rw [he, hf] at this
        injection this with this
        injection this with _ hp
        exact hxp hp.symm
      rw [if_neg hne]; exact this
  · intro k loc hk hs
    rw [Index.find_erase] at hk
    by_cases hkX : k = X
    · rw [if_pos hkX] at hk; exact Option.noConfusion hk
    · rw [if_neg hkX] at hk
      obtain ⟨x, hx, hxp, o, ho, hoid⟩ := h.live k loc hk hs
      by_cases hp : x.1 = p
      · have hxe : x = x0 := Ladder.eq_of_mem levels hwf x x0 hx hx0 (by rw [hp, hx0p])
        have hin : o ∈ ((levels.lookup p).getD []).filter (fun o => !(o.id == X)) := by
          rw [hlk, ← hxe]
          exact List.mem_filter.mpr ⟨ho, by simpa [hoid] using hkX⟩
        refine ⟨_, (cancel_levels_mem levels p X hwf _).mpr (Or.inl ⟨rfl, ?_⟩), ?_, o, hin, hoid⟩
        · exact List.ne_nil_of_mem hin
        · simp only; rw [← hp, hxp]
      · exact ⟨x, (cancel_levels_mem levels p X hwf _).mpr (Or.inr ⟨hx, hp⟩), hxp, o, ho, hoid⟩

theorem Index.erase_keys_nodup (ix : Index) (X : Nat) (h : ix.keys.Nodup) :
    (ix.erase X).keys.Nodup := by
  unfold Index.keys Index.erase at *
  exact h.sublist ((List.filter_sublist _).map _)

theorem cancel_order_of_find (b : OrderBook) (X : Nat) (freed : FreedReads) (loc : Locator)
    (hf : b.orders_.find X = some loc) :
    b.cancel_order X freed = (true,
      if (read_ptr b X loc freed).side = Side.BUY then
        { b with bids_ := cancel_levels b.bids_ (read_ptr b X loc freed).price X freed.erase_price,
                 orders_ := b.orders_.erase X }
      else
        { b with asks_ := cancel_levels b.asks_ (read_ptr b X loc freed).price X freed.erase_price,
                 orders_ := b.orders_.erase X }) := by
  unfold cancel_order
  rw [hf]
  by_cases hs : (read_ptr b X loc freed).side = Side.BUY <;> simp [hs]

theorem cancel_order_of_not_mem (b : OrderBook) (X : Nat) (freed : FreedReads)
    (h : X ∉ b.orders_.keys) : b.cancel_order X freed = (false, b) := by
  unfold cancel_order
  rw [(Index.find_eq_none_iff _ _).mpr h]

/-- When the index agrees with the ladders, the node of every index entry is stored:
no pointer of the index dangles. -/
theorem Agree.node_stored (b : OrderBook) (h : b.Agree) (X : Nat) (loc : Locator)
    (hf : b.orders_.find X = some loc) : node_stored b X loc = true := by
  have hown : AgreeOn loc.side (if loc.side = Side.BUY then b.bids_ else b.asks_) b.orders_ := by
    by_cases hs : loc.side = Side.BUY
    · simp only [hs, if_true]; exact h.2.1
    · have hs2 : loc.side = Side.SELL := by
        cases hh : loc.side with
        | BUY => exact absurd hh hs
        | SELL => rfl
      simp only [hs2, show ¬ (Side.SELL = Side.BUY) by decide, if_false]; exact h.2.2
  obtain ⟨x0, hx0, hx0p, o, ho, hoid⟩ := hown.live X loc hf rfl
  have hlk : (if loc.side = Side.BUY then b.bids_ else b.asks_).lookup loc.price = some x0.2 :=
    Ladder.lookup_of_mem _ hown.1 _ _ (by rw [← hx0p]; exact hx0)
  unfold OrderBook.node_stored
  rw [hlk]
  simp only [Option.getD_some, List.any_eq_true]
  exact ⟨o, ho, by simp [hoid]⟩

/-- A call of `cancel_order` whose pointer does not dangle and whose read of line 35 is
harmless removes the order from the level of its price and prunes that level when it
became empty. -/
theorem cancel_order_exact (b : OrderBook) (X : Nat) (freed : FreedReads) (loc : Locator)
    (hf : b.orders_.find X = some loc) (hst : node_stored b X loc = true)
    (hrb : b.cancel_reads_back X freed = true) :
    b.cancel_order X freed = (true,
      if loc.side = Side.BUY then
        { b with bids_ := cancel_levels b.bids_ loc.price X loc.price,
                 orders_ := b.orders_.erase X }
      else { b with asks_ := cancel_levels b.asks_ loc.price X loc.price,
                    orders_ := b.orders_.erase X }) := by
  have hrd : read_ptr b X loc freed = loc := by simp [read_ptr, hst]
  rw [cancel_order_of_find b X freed loc hf, hrd]
  simp only [cancel_reads_back, hf, hrd] at hrb
  by_cases hs : loc.side = Side.BUY
  · simp only [hs, if_true] at hrb ⊢
    rw [cancel_levels_of_reads_back _ _ _ _ hrb]
  · simp only [hs, if_false] at hrb ⊢
    rw [cancel_levels_of_reads_back _ _ _ _ hrb]

/-- Cancelling keeps the agreement when its read of line 35 is harmless. -/
theorem cancel_order_agree (b : OrderBook) (X : Nat) (freed : FreedReads) (h : b.Agree)
    (hrb : b.cancel_reads_back X freed = true) :
    (b.cancel_order X freed).2.Agree := by
  cases hf : b.orders_.find X with
  | none =>
    rw [cancel_order_of_not_mem b X freed ((Index.find_eq_none_iff _ _).mp hf)]
    exact h
  | some loc =>
    rw [cancel_order_exact b X freed loc hf (Agree.node_stored b h X loc hf) hrb]
    obtain ⟨hk, hb, ha⟩ := h
    have hother : ∀ (s : Side) (levels : Ladder), s ≠ loc.side → AgreeOn s levels b.orders_ →
        AgreeOn s levels (b.orders_.erase X) := by
      intro s levels hs hl
      refine hl.of_index ?_ ?_
      · intro k loc1 hk1 hside
        rw [Index.find_erase]
        have : k ≠ X := by
          intro he
          rw [he, hf] at hk1
          injection hk1 with hk1
          rw [hk1] at hs
          exact hs hside.symm
        rw [if_neg this]; exact hk1
      · intro k loc1 hk1 _
        rw [Index.find_erase] at hk1
        by_cases hkX : k = X
        · rw [if_pos hkX] at hk1; exact Option.noConfusion hk1
        · rw [if_neg hkX] at hk1; exact hk1
    obtain ⟨ls, lp⟩ := loc
    by_cases hs : ls = Side.BUY
    · subst hs
      simp only [if_true, OrderBook.Agree]
      exact ⟨Index.erase_keys_nodup _ _ hk, hb.cancel X lp hf, hother Side.SELL _ (by simp) ha⟩
    · have hs2 : ls = Side.SELL := by
        cases ls with
        | BUY => exact absurd rfl hs
        | SELL => rfl
      subst hs2
      simp only [show ¬ (Side.SELL = Side.BUY) by decide, if_false, OrderBook.Agree]
      exact ⟨Index.erase_keys_nodup _ _ hk, hother Side.BUY _ (by simp) hb, ha.cancel X lp hf⟩

/-- In a queue with distinct ids, `remove_if` by the id of one of its orders removes
exactly that order. -/
theorem filter_id_split (q : List Order) (hnd : (q.map Order.id).Nodup) (o : Order)
    (ho : o ∈ q) :
    ∃ pre post, q = pre ++ o :: post ∧
      q.filter (fun o1 => !(o1.id == o.id)) = pre ++ post := by
  obtain ⟨pre, post, rfl⟩ := List.append_of_mem ho
  refine ⟨pre, post, rfl, ?_⟩
  simp only [List.map_append, List.map_cons] at hnd
  have h1 : ∀ a ∈ pre, a.id ≠ o.id := by
    intro a ha he
    have := (List.nodup_append.mp hnd).2.2 (List.mem_map.mpr ⟨a, ha, rfl⟩)
    apply this
    rw [he]; exact List.mem_cons_self _ _
  have h2 : ∀ a ∈ post, a.id ≠ o.id := by
    intro a ha he
    have := (List.nodup_cons.mp (List.nodup_append.mp hnd).2.1).1
    apply this
    rw [← he]; exact List.mem_map.mpr ⟨a, ha, rfl⟩
  rw [List.filter_append, List.filter_cons]
  simp only [beq_self_eq_true, Bool.not_true, Bool.false_eq_true, if_false]
  rw [List.filter_eq_self.mpr, List.filter_eq_self.mpr]
  · intro a ha; simpa using h2 a ha
  · intro a ha; simpa using h1 a ha

theorem Ladder.mem_orders (l : Ladder) (o : Order) :
    o ∈ Ladder.orders l ↔ ∃ x ∈ l, o ∈ x.2 := by
  simp [Ladder.orders, List.mem_flatMap]

theorem match_level_index_sublist (order : Order) (ix : Index) (q : List Order) :
    List.Sublist (match_level order ix q).2.2 ix := by
  induction q generalizing order ix with
  | nil => simp [match_level]
  | cons resting rest ih =>
    by_cases h0 : order.remaining = 0
    · simp [match_level, h0]
    · by_cases h1 : resting.remaining = 0
      · simp only [match_level, h0, h1, if_true, if_false]
        exact ih order ix
      · simp only [match_level, h0, h1, if_false]
        refine List.Sublist.trans (ih _ _) ?_
        simp only [execute_trade]
        split
        · exact List.filter_sublist _
        · exact List.Sublist.refl _

theorem match_loop_index_sublist (levels : Ladder) (order : Order) (ix : Index) :
    List.Sublist (match_loop levels.length order levels ix).2.2 ix := by
  induction levels generalizing order ix with
  | nil => simp [match_loop_nil]
  | cons x rest ih =>
    obtain ⟨p, q⟩ := x
    rw [List.length_cons, match_loop_cons]
    by_cases h0 : order.remaining = 0
    · simp [h0]
    · simp only [h0, if_false]
      by_cases hk : remove_filled (match_level order ix q).2.1 = []
      · simp only [hk, if_true]
        exact List.Sublist.trans (ih _ _) (match_level_index_sublist order ix q)
      · simp only [hk, if_false]
        exact match_level_index_sublist order ix q

/-- The matching loop on the ladder of side `s`, all of whose orders have something
remaining, keeps the agreement of that ladder with the index and the positivity, and
removes from the index only entries of side `s`. -/
theorem AgreeOn.match_loop {s : Side} {levels : Ladder} {ix : Index}
    (h : AgreeOn s levels ix) (hpos : ∀ x ∈ levels, ∀ o ∈ x.2, 0 < o.remaining)
    (order : Order) :
    AgreeOn s (match_loop levels.length order levels ix).2.1
      (match_loop levels.length order levels ix).2.2 ∧
    (∀ x ∈ (match_loop levels.length order levels ix).2.1, ∀ o ∈ x.2, 0 < o.remaining) ∧
    (∀ k loc, (match_loop levels.length order levels ix).2.2.find k = some loc →
      ix.find k = some loc) ∧
    (∀ k loc, ix.find k = some loc → loc.side ≠ s →
      (match_loop levels.length order levels ix).2.2.find k = some loc) := by
  obtain ⟨hwf, hnd, hloc, _⟩ := id h
  have hresWF := match_loop_WF levels order ix hwf
  obtain ⟨gone, stay, hsplit, hres⟩ := match_loop_struct levels order ix hpos
  have hwf2 := hwf
  rw [hsplit] at hwf2
  obtain ⟨_, hstayWF, hlt⟩ := Ladder.WF_append gone stay hwf2
  have hgone_in : ∀ y ∈ gone, y ∈ levels := fun y hy => hsplit ▸ List.mem_append_left _ hy
  have hstay_in : ∀ y ∈ stay, y ∈ levels := fun y hy => hsplit ▸ List.mem_append_right _ hy
  have hEg : ∀ k, k ∈ (Ladder.orders gone).map Order.id →
      ∃ y ∈ gone, ix.find k = some { side := s, price := y.1 } := by
    intro k hk
    obtain ⟨o, ho, rfl⟩ := List.mem_map.mp hk
    obtain ⟨y, hy, hoy⟩ := (Ladder.mem_orders gone o).mp ho
    exact ⟨y, hy, hloc y (hgone_in y hy) o hoy⟩
  rcases hres with ⟨hl, hfind⟩ | ⟨p0, A, hd, tl, x, rest, hst, hl, hx0, hx1, hfind⟩
  · -- only whole levels were consumed
    have hnotE : ∀ y ∈ stay, ∀ o ∈ y.2, o.id ∉ (Ladder.orders gone).map Order.id := by
      intro y hy o ho hin
      obtain ⟨z, hz, hzf⟩ := hEg _ hin
      have := hloc y (hstay_in y hy) o ho
      rw [hzf] at this
      injection this with this
      injection this with _ hp
      have := hlt z hz y hy
      omega
    refine ⟨?_, ?_, ?_, ?_⟩
    · rw [hl]
      refine AgreeOn.intro hstayWF (fun y hy => hnd y (hstay_in y hy)) ?_ ?_
      · intro y hy o ho
        rw [hfind, if_neg (hnotE y hy o ho)]
        exact hloc y (hstay_in y hy) o ho
      · intro k loc hk hs
        rw [hfind] at hk
        by_cases hE : k ∈ (Ladder.orders gone).map Order.id
        · rw [if_pos hE] at hk; exact Option.noConfusion hk
        · rw [if_neg hE] at hk
          obtain ⟨y, hy, hyp, o, ho, hoid⟩ := h.live k loc hk hs
          rw [hsplit] at hy
          rcases List.mem_append.mp hy with hy | hy
          · exact absurd (List.mem_map.mpr ⟨o, (Ladder.mem_orders gone o).mpr ⟨y, hy, ho⟩, hoid⟩) hE
          · exact ⟨y, hy, hyp, o, ho, hoid⟩
    · rw [hl]
      exact fun y hy => hpos y (hstay_in y hy)
    · intro k loc hk
      rw [hfind] at hk
      by_cases hE : k ∈ (Ladder.orders gone).map Order.id
      · rw [if_pos hE] at hk; exact Option.noConfusion hk
      · rw [if_neg hE] at hk; exact hk
    · intro k loc hk hs
      rw [hfind]
      by_cases hE : k ∈ (Ladder.orders gone).map Order.id
      · obtain ⟨z, _, hzf⟩ := hEg _ hE
        rw [hzf] at hk
        injection hk with hk
        rw [← hk] at hs
        exact absurd rfl hs
      · rw [if_neg hE]; exact hk
  · -- the first level that stays was consumed in part
    have hx0in : (p0, A ++ hd :: tl) ∈ levels := hstay_in _ (by rw [hst]; exact List.mem_cons_self _ _)
    have hrest_in : ∀ y ∈ rest, y ∈ levels :=
      fun y hy => hstay_in y (by rw [hst]; exact List.mem_cons_of_mem _ hy)
    have hrest_gt : ∀ y ∈ rest, p0 < y.1 := by
      intro y hy
      rw [hst] at hstayWF
      exact (List.pairwise_cons.mp hstayWF).1 y.1 (List.mem_map.mpr ⟨y, hy, rfl⟩)
    have hgone_lt : ∀ z ∈ gone, z.1 < p0 := by
      intro z hz
      exact hlt z hz (p0, A ++ hd :: tl) (by rw [hst]; exact List.mem_cons_self _ _)
    have hE : ∀ k, k ∈ (Ladder.orders gone ++ A).map Order.id →
        (∃ z ∈ gone, ix.find k = some { side := s, price := z.1 }) ∨
        (k ∈ A.map Order.id ∧ ix.find k = some { side := s, price := p0 }) := by
      intro k hk
      rw [List.map_append, List.mem_append] at hk
      rcases hk with hk | hk
      · exact Or.inl (hEg k hk)
      · right
        obtain ⟨o, ho, rfl⟩ := List.mem_map.mp hk
        exact ⟨hk, hloc _ hx0in o (List.mem_append_left _ ho)⟩
    have hndx0 := hnd _ hx0in
    simp only [List.map_append, List.map_cons] at hndx0
    have hdisj : ∀ k, k ∈ A.map Order.id → k ∉ hd.id :: tl.map Order.id :=
      fun k hk hk2 => (List.nodup_append.mp hndx0).2.2 hk hk2
    -- ids of the orders that stay in the first level
    have hhead : ∀ o ∈ ({ hd with remaining := x } :: tl : List Order),
        o.id ∈ hd.id :: tl.map Order.id ∧ 0 < o.remaining := by
      intro o ho
      rcases List.mem_cons.mp ho with ho | ho
      · rw [ho]; exact ⟨List.mem_cons_self _ _, hx0⟩
      · exact ⟨List.mem_cons_of_mem _ (List.mem_map.mpr ⟨o, ho, rfl⟩),
          hpos _ hx0in o (List.mem_append_right _ (List.mem_cons_of_mem _ ho))⟩
    have hheadloc : ∀ k, k ∈ hd.id :: tl.map Order.id →
        ix.find k = some { side := s, price := p0 } := by
      intro k hk
      rcases List.mem_cons.mp hk with hk | hk
      · rw [hk]
        exact hloc _ hx0in hd (List.mem_append_right _ (List.mem_cons_self _ _))
      · obtain ⟨o, ho, rfl⟩ := List.mem_map.mp hk
        exact hloc _ hx0in o (List.mem_append_right _ (List.mem_cons_of_mem _ ho))
    have hkeepid : ∀ k p, ix.find k = some { side := s, price := p } →
        (p = p0 → k ∈ hd.id :: tl.map Order.id) → (∀ z ∈ gone, z.1 ≠ p) →
        k ∉ (Ladder.orders gone ++ A).map Order.id := by
      intro k p hk hp0 hpg hin
      rcases hE k hin with ⟨z, hz, hzf⟩ | ⟨hA, hAf⟩
      · rw [hzf] at hk
        injection hk with hk
        injection hk with _ hp
        exact hpg z hz hp
      · rw [hAf] at hk
        injection hk with hk
        injection hk with _ hp
        exact hdisj k hA (hp0 hp.symm)
    refine ⟨?_, ?_, ?_, ?_⟩
    · rw [hl]
      refine AgreeOn.intro (hl ▸ hresWF) ?_ ?_ ?_
      · intro y hy
        rcases List.mem_cons.mp hy with hy | hy
        · rw [hy]
          exact (List.nodup_append.mp hndx0).2.1
        · exact hnd y (hrest_in y hy)
      · intro y hy o ho
        rw [hfind]
        rcases List.mem_cons.mp hy with hy | hy
        · rw [hy] at ho ⊢
          have hk := hheadloc o.id (hhead o ho).1
          rw [if_neg (hkeepid o.id p0 hk (fun _ => (hhead o ho).1)
            (fun z hz => by have := hgone_lt z hz; omega))]
          exact hk
        · have hk := hloc y (hrest_in y hy) o ho
          rw [if_neg (hkeepid o.id y.1 hk
            (fun hp => by have := hrest_gt y hy; omega)
            (fun z hz => by have := hgone_lt z hz; have := hrest_gt y hy; omega))]
          exact hk
      · intro k loc hk hs
        rw [hfind] at hk
        by_cases hEk : k ∈ (Ladder.orders gone ++ A).map Order.id
        · rw [if_pos hEk] at hk; exact Option.noConfusion hk
        · rw [if_neg hEk] at hk
          obtain ⟨y, hy, hyp, o, ho, hoid⟩ := h.live k loc hk hs
          rw [hsplit] at hy
          rcases List.mem_append.mp hy with hy | hy
          · exfalso; apply hEk
            rw [List.map_append, List.mem_append]
            exact Or.inl (List.mem_map.mpr ⟨o, (Ladder.mem_orders gone o).mpr ⟨y, hy, ho⟩, hoid⟩)
          · rw [hst] at hy
            rcases List.mem_cons.mp hy with hy | hy
            · rw [hy] at ho hyp
              rcases List.mem_append.mp ho with ho | ho
              · exfalso; apply hEk
                rw [List.map_append, List.mem_append]
                exact Or.inr (List.mem_map.mpr ⟨o, ho, hoid⟩)
              · rcases List.mem_cons.mp ho with ho | ho
                · exact ⟨_, List.mem_cons_self _ _, hyp, { hd with remaining := x },
                    List.mem_cons_self _ _, by rw [← hoid, ho]⟩
                · exact ⟨_, List.mem_cons_self _ _, hyp, o, List.mem_cons_of_mem _ ho, hoid⟩
            · exact ⟨y, List.mem_cons_of_mem _ hy, hyp, o, ho, hoid⟩
    · rw [hl]
      intro y hy o ho
      rcases List.mem_cons.mp hy with hy | hy
      · rw [hy] at ho
        exact (hhead o ho).2
      · exact hpos y (hrest_in y hy) o ho
    · intro k loc hk
      rw [hfind] at hk
      by_cases hEk : k ∈ (Ladder.orders gone ++ A).map Order.id
      · rw [if_pos hEk] at hk; exact Option.noConfusion hk
      · rw [if_neg hEk] at hk; exact hk
    · intro k loc hk hs
      rw [hfind]
      by_cases hEk : k ∈ (Ladder.orders gone ++ A).map Order.id
      · exfalso
        rcases hE k hEk with ⟨z, _, hzf⟩ | ⟨_, hAf⟩
        · rw [hzf] at hk
          injection hk with hk
          rw [← hk] at hs
          exact hs rfl
        · rw [hAf] at hk
          injection hk with hk
          rw [← hk] at hs
          exact hs rfl
      · rw [if_neg hEk]; exact hk

theorem Index.keys_nodup_of_sublist (ix ix1 : Index) (h : List.Sublist ix1 ix)
    (hk : ix.keys.Nodup) : ix1.keys.Nodup := by
  unfold Index.keys at *
  exact hk.sublist (h.map _)

/-- Matching a MARKET order keeps the agreement and the positivity. -/
theorem match_market_order_agree (b : OrderBook) (m : Order) (h : b.Agree) (hp : b.Positive) :
    (match_market_order b m).Agree ∧ (match_market_order b m).Positive := by
  obtain ⟨hk, hb, ha⟩ := h
  have hpb : ∀ x ∈ b.bids_, ∀ o ∈ x.2, 0 < o.remaining :=
    fun x hx => hp x (List.mem_append_left _ hx)
  have hpa : ∀ x ∈ b.asks_, ∀ o ∈ x.2, 0 < o.remaining :=
    fun x hx => hp x (List.mem_append_right _ hx)
  by_cases hs : m.side = Side.BUY
  · obtain ⟨h1, h2, h3, h4⟩ := ha.match_loop hpa m
    simp only [match_market_order, hs, if_true, OrderBook.Agree, OrderBook.Positive]
    refine ⟨⟨Index.keys_nodup_of_sublist _ _ (match_loop_index_sublist _ _ _) hk, ?_, h1⟩, ?_⟩
    · exact hb.of_index (fun k loc hf hside => h4 k loc hf (by rw [hside]; decide))
        (fun k loc hf _ => h3 k loc hf)
    · intro x hx
      rcases List.mem_append.mp hx with hx | hx
      · exact hpb x hx
      · exact h2 x hx
  · obtain ⟨h1, h2, h3, h4⟩ := hb.match_loop hpb m
    simp only [match_market_order, hs, if_false, OrderBook.Agree, OrderBook.Positive]
    refine ⟨⟨Index.keys_nodup_of_sublist _ _ (match_loop_index_sublist _ _ _) hk, h1, ?_⟩, ?_⟩
    · exact ha.of_index (fun k loc hf hside => h4 k loc hf (by rw [hside]; decide))
        (fun k loc hf _ => h3 k loc hf)
    · intro x hx
      rcases List.mem_append.mp hx with hx | hx
      · exact h2 x hx
      · exact hpa x hx

theorem add_limit_order_positive (b : OrderBook) (o : Order) (hb : b.bids_.WF) (ha : b.asks_.WF)
    (hp : b.Positive) (ho : 0 < o.remaining) : (add_limit_order b o).Positive := by
  have hq : ∀ (levels : Ladder), (∀ x ∈ levels, ∀ o1 ∈ x.2, 0 < o1.remaining) →
      ∀ o1 ∈ (levels.lookup o.price).getD [] ++ [o], 0 < o1.remaining := by
    intro levels hl o1 ho1
    rcases List.mem_append.mp ho1 with ho1 | ho1
    · cases hlk : levels.lookup o.price with
      | none => rw [hlk] at ho1; simp at ho1
      | some q =>
        rw [hlk] at ho1
        exact hl _ (Ladder.mem_of_lookup levels _ _ hlk) o1 ho1
    · have : o1 = o := by simpa using ho1
      rw [this]; exact ho
  have hpb : ∀ x ∈ b.bids_, ∀ o ∈ x.2, 0 < o.remaining :=
    fun x hx => hp x (List.mem_append_left _ hx)
  have hpa : ∀ x ∈ b.asks_, ∀ o ∈ x.2, 0 < o.remaining :=
    fun x hx => hp x (List.mem_append_right _ hx)
  by_cases hs : o.side = Side.BUY
  · simp only [add_limit_order, hs, if_true, OrderBook.Positive]
    intro x hx
    rcases List.mem_append.mp hx with hx | hx
    · rcases (Ladder.mem_put _ hb _ _ x).mp hx with hx | ⟨hx, _⟩
      · rw [hx]; exact hq _ hpb
      · exact hpb x hx
    · exact hpa x hx
  · simp only [add_limit_order, hs, if_false, OrderBook.Positive]
    intro x hx
    rcases List.mem_append.mp hx with hx | hx
    · exact hpb x hx
    · rcases (Ladder.mem_put _ ha _ _ x).mp hx with hx | ⟨hx, _⟩
      · rw [hx]; exact hq _ hpa
      · exact hpa x hx

theorem cancel_levels_positive (levels : Ladder) (p X e : Nat) (h : levels.WF)
    (hp : ∀ x ∈ levels, ∀ o ∈ x.2, 0 < o.remaining) :
    ∀ x ∈ cancel_levels levels p X e, ∀ o ∈ x.2, 0 < o.remaining := by
  intro x hx o ho
  obtain ⟨q, hq, hoq⟩ := cancel_levels_sub levels p X e h x hx o ho
  exact hp _ hq o hoq

theorem cancel_order_positive (b : OrderBook) (X : Nat) (freed : FreedReads) (hb : b.bids_.WF)
    (ha : b.asks_.WF) (hp : b.Positive) : (b.cancel_order X freed).2.Positive := by
  have hpb : ∀ x ∈ b.bids_, ∀ o ∈ x.2, 0 < o.remaining :=
    fun x hx => hp x (List.mem_append_left _ hx)
  have hpa : ∀ x ∈ b.asks_, ∀ o ∈ x.2, 0 < o.remaining :=
    fun x hx => hp x (List.mem_append_right _ hx)
  cases hf : b.orders_.find X with
  | none =>
    rw [cancel_order_of_not_mem b X freed ((Index.find_eq_none_iff _ _).mp hf)]
    exact hp
  | some loc =>
    rw [cancel_order_of_find b X freed loc hf]
    by_cases hs : (read_ptr b X loc freed).side = Side.BUY
    · simp only [hs, if_true, OrderBook.Positive]
      intro x hx
      rcases List.mem_append.mp hx with hx | hx
      · exact cancel_levels_positive _ _ _ _ hb hpb x hx
      · exact hpa x hx
    · simp only [hs, if_false, OrderBook.Positive]
      intro x hx
      rcases List.mem_append.mp hx with hx | hx
      · exact hpb x hx
      · exact cancel_levels_positive _ _ _ _ ha hpa x hx

/-- One call keeps agreement and positivity, when a LIMIT order that is added has
something remaining and the read of line 35 of a cancellation is harmless. -/
theorem apply_invariant (b : OrderBook) (op : Op) (h : b.Agree) (hp : b.Positive)
    (hop : ∀ o, op = Op.add o → o.type = OrderType.LIMIT → 0 < o.remaining)
    (hrb : b.reads_back [op] = true) :
    (b.apply op).Agree ∧ (b.apply op).Positive := by
  cases op with
  | add o =>
    simp only [OrderBook.apply]
    by_cases hin : o.id ∈ b.orders_.keys
    · rw [add_order_of_mem b o hin]; exact ⟨h, hp⟩
    · by_cases hty : o.type = OrderType.LIMIT
      · rw [add_order_limit b o hin hty]
        exact ⟨add_limit_order_agree b o h hin,
          add_limit_order_positive b o h.2.1.1 h.2.2.1 hp (hop o rfl hty)⟩
      · have hty2 : o.type = OrderType.MARKET := by
          cases hh : o.type with
          | LIMIT => exact absurd hh hty
          | MARKET => rfl
        rw [add_order_market b o hin hty2]
        exact match_market_order_agree b o h hp
  | cancel X freed =>
    simp only [OrderBook.reads_back, Bool.and_true] at hrb
    simp only [OrderBook.apply]
    exact ⟨cancel_order_agree b X freed h hrb, cancel_order_positive b X freed h.2.1.1 h.2.2.1 hp⟩

theorem reads_back_cons (b : OrderBook) (op : Op) (rest : List Op) :
    b.reads_back (op :: rest) = (b.reads_back [op] && (b.apply op).reads_back rest) := by
  cases op with
  | add o => simp [OrderBook.reads_back]
  | cancel X freed => simp [OrderBook.reads_back]

/-- Agreement and positivity hold along every run in which the LIMIT orders submitted
have something remaining and the reads of line 35 are harmless. -/
theorem run_invariant (ops : List Op) (b : OrderBook) (h : b.Agree) (hp : b.Positive)
    (hops : ∀ o, Op.add o ∈ ops → o.type = OrderType.LIMIT → 0 < o.remaining)
    (hrb : b.reads_back ops = true) :
    (b.run ops).Agree ∧ (b.run ops).Positive := by
  induction ops generalizing b with
  | nil => exact ⟨h, hp⟩
  | cons op rest ih =>
    rw [reads_back_cons, Bool.and_eq_true] at hrb
    have h1 := apply_invariant b op h hp
      (fun o ho => hops o (ho ▸ List.mem_cons_self _ _)) hrb.1
    exact ih (b.apply op) h1.1 h1.2 (fun o ho => hops o (List.mem_cons_of_mem _ ho)) hrb.2

/-- In a state where index and ladders agree and all resting orders have something
remaining, the keys of the index are the ids of the resting orders. -/
theorem index_consistent_of_agree (b : OrderBook) (h : b.Agree) (hp : b.Positive) (id : Nat) :
    id ∈ b.orders_.keys ↔
      ∃ o ∈ Ladder.orders b.bids_ ++ Ladder.orders b.asks_, o.id = id ∧ 0 < o.remaining := by
  obtain ⟨_, hb, ha⟩ := h
  constructor
  · intro hin
    cases hf : b.orders_.find id with
    | none => exact absurd hin ((Index.find_eq_none_iff _ _).mp hf)
    | some loc =>
      by_cases hs : loc.side = Side.BUY
      · obtain ⟨x, hx, _, o, ho, hoid⟩ := hb.live id loc hf hs
        exact ⟨o, List.mem_append_left _ ((Ladder.mem_orders _ o).mpr ⟨x, hx, ho⟩), hoid,
          hp x (List.mem_append_left _ hx) o ho⟩
      · have hs2 : loc.side = Side.SELL := by
          cases hh : loc.side with
          | BUY => exact absurd hh hs
          | SELL => rfl
        obtain ⟨x, hx, _, o, ho, hoid⟩ := ha.live id loc hf hs2
        exact ⟨o, List.mem_append_right _ ((Ladder.mem_orders _ o).mpr ⟨x, hx, ho⟩), hoid,
          hp x (List.mem_append_right _ hx) o ho⟩
  · rintro ⟨o, ho, hoid, _⟩
    rcases List.mem_append.mp ho with ho | ho
    · obtain ⟨x, hx, hox⟩ := (Ladder.mem_orders _ o).mp ho
      exact hoid ▸ Index.mem_keys_of_find _ _ _ (hb.2.2.1 x hx o hox)
    · obtain ⟨x, hx, hox⟩ := (Ladder.mem_orders _ o).mp ho
      exact hoid ▸ Index.mem_keys_of_find _ _ _ (ha.2.2.1 x hx o hox)

/-! ## Facts that hold along every run -/

theorem forall₂_mem_right {α β : Type} {R : α → β → Prop} {l1 : List α} {l2 : List β}
    (h : List.Forall₂ R l1 l2) : ∀ y ∈ l2, ∃ x ∈ l1, R x y := by
  induction h with
  | nil => intro y hy; simp at hy
  | cons hr _ ih =>
    intro y hy
    rcases List.mem_cons.mp hy with hy | hy
    · exact ⟨_, List.mem_cons_self _ _, hy ▸ hr⟩
    · obtain ⟨x, hx, hxy⟩ := ih y hy
      exact ⟨x, List.mem_cons_of_mem _ hx, hxy⟩

/-- Every order left in a walked level is what remains of an order of that level. -/
theorem match_level_mem_residual (order : Order) (ix : Index) (q : List Order) :
    ∀ o ∈ remove_filled (match_level order ix q).2.1, ∃ o0 ∈ q, Residual o0 o := by
  intro o ho
  unfold remove_filled at ho
  exact forall₂_mem_right (match_level_residual order ix q) o (List.mem_filter.mp ho).1

/-- Every level left by the loop is either a level it started from, or a non-empty
queue of orders that remain of the orders of the level at the same price. -/
theorem match_loop_levels (levels : Ladder) (order : Order) (ix : Index) :
    ∀ x ∈ (match_loop levels.length order levels ix).2.1,
      x ∈ levels ∨
      (x.2 ≠ [] ∧ ∃ q, (x.1, q) ∈ levels ∧ ∀ o ∈ x.2, ∃ o0 ∈ q, Residual o0 o) := by
  induction levels generalizing order ix with
  | nil => simp [match_loop_nil]
  | cons y rest ih =>
    obtain ⟨p, q⟩ := y
    rw [List.length_cons, match_loop_cons]
    by_cases h0 : order.remaining = 0
    · simp only [h0, if_true]
      intro x hx
      exact Or.inl hx
    · simp only [h0, if_false]
      by_cases hk : remove_filled (match_level order ix q).2.1 = []
      · simp only [hk, if_true]
        intro x hx
        rcases ih _ _ x hx with h | ⟨hne, q0, hq0, hres⟩
        · exact Or.inl (List.mem_cons_of_mem _ h)
        · exact Or.inr ⟨hne, q0, List.mem_cons_of_mem _ hq0, hres⟩
      · simp only [hk, if_false]
        intro x hx
        rcases List.mem_cons.mp hx with hx | hx
        · right
          rw [hx]
          exact ⟨hk, q, List.mem_cons_self _ _, match_level_mem_residual order ix q⟩
        · exact Or.inl (List.mem_cons_of_mem _ hx)

theorem match_loop_noEmpty (levels : Ladder) (order : Order) (ix : Index)
    (h : levels.NoEmpty) : Ladder.NoEmpty (match_loop levels.length order levels ix).2.1 := by
  intro x hx
  rcases match_loop_levels levels order ix x hx with hx | ⟨hne, _⟩
  · exact h x hx
  · exact hne

theorem match_loop_all (P : Nat → Order → Prop)
    (hP : ∀ p o o1, Residual o o1 → P p o → P p o1)
    (levels : Ladder) (order : Order) (ix : Index) (h : Ladder.All P levels) :
    Ladder.All P (match_loop levels.length order levels ix).2.1 := by
  intro x hx o ho
  rcases match_loop_levels levels order ix x hx with hx | ⟨_, q, hq, hres⟩
  · exact h x hx o ho
  · obtain ⟨o0, ho0, hr⟩ := hres o ho
    exact hP x.1 o0 o hr (h (x.1, q) hq o0 ho0)

theorem put_append_noEmpty (levels : Ladder) (hwf : levels.WF) (o : Order)
    (h : levels.NoEmpty) :
    Ladder.NoEmpty (levels.put o.price ((levels.lookup o.price).getD [] ++ [o])) := by
  intro x hx
  rcases (Ladder.mem_put levels hwf _ _ x).mp hx with hx | ⟨hx, _⟩
  · rw [hx]; simp
  · exact h x hx

theorem put_append_all (P : Nat → Order → Prop) (levels : Ladder) (hwf : levels.WF)
    (o : Order) (ho : P o.price o) (h : Ladder.All P levels) :
    Ladder.All P (levels.put o.price ((levels.lookup o.price).getD [] ++ [o])) := by
  intro x hx o1 ho1
  rcases (Ladder.mem_put levels hwf _ _ x).mp hx with hx | ⟨hx, _⟩
  · rw [hx] at ho1 ⊢
    rcases List.mem_append.mp ho1 with ho1 | ho1
    · cases hl : levels.lookup o.price with
      | none => rw [hl] at ho1; simp at ho1
      | some q =>
        rw [hl] at ho1
        exact h _ (Ladder.mem_of_lookup levels _ _ hl) o1 ho1
    · have : o1 = o := by simpa using ho1
      rw [this]; exact ho
  · exact h x hx o1 ho1

/-- A cancellation whose read of line 35 is harmless leaves no empty level behind. -/
theorem cancel_levels_noEmpty (levels : Ladder) (p X : Nat) (hwf : levels.WF)
    (h : levels.NoEmpty) : Ladder.NoEmpty (cancel_levels levels p X p) := by
  intro x hx
  rcases (cancel_levels_mem levels p X hwf x).mp hx with ⟨hx, hne⟩ | ⟨hx, _⟩
  · rw [hx]; exact hne
  · exact h x hx

theorem cancel_levels_all (P : Nat → Order → Prop) (levels : Ladder) (p X e : Nat)
    (hwf : levels.WF) (h : Ladder.All P levels) : Ladder.All P (cancel_levels levels p X e) := by
  intro x hx o ho
  obtain ⟨q, hq, hoq⟩ := cancel_levels_sub levels p X e hwf x hx o ho
  exact h _ hq o hoq

/-- The state is well shaped: both ladders are sorted and the keys of the index are
distinct, whatever the reads of freed memory return. -/
theorem apply_shaped (b : OrderBook) (op : Op)
    (h : b.bids_.WF ∧ b.asks_.WF ∧ b.orders_.keys.Nodup) :
    (b.apply op).bids_.WF ∧ (b.apply op).asks_.WF ∧ (b.apply op).orders_.keys.Nodup := by
  obtain ⟨hb, ha, hk⟩ := h
  cases op with
  | add o =>
    simp only [OrderBook.apply]
    by_cases hin : o.id ∈ b.orders_.keys
    · rw [add_order_of_mem b o hin]; exact ⟨hb, ha, hk⟩
    · by_cases hty : o.type = OrderType.LIMIT
      · rw [add_order_limit b o hin hty]
        have hkeys : ((b.orders_.assign o.id { side := o.side, price := o.price })).keys.Nodup := by
          simp only [Index.assign, Index.erase_of_not_mem _ _ hin, Index.keys, List.map_cons]
          exact List.nodup_cons.mpr ⟨hin, hk⟩
        by_cases hs : o.side = Side.BUY
        · simp only [add_limit_order, hs, if_true]
          rw [hs] at hkeys
          exact ⟨Ladder.put_WF _ _ _ hb, ha, hkeys⟩
        · simp only [add_limit_order, hs, if_false]
          exact ⟨hb, Ladder.put_WF _ _ _ ha, hkeys⟩
      · have hty2 : o.type = OrderType.MARKET := by
          cases hh : o.type with
          | LIMIT => exact absurd hh hty
          | MARKET => rfl
        rw [add_order_market b o hin hty2]
        by_cases hs : o.side = Side.BUY
        · simp only [match_market_order, hs, if_true]
          exact ⟨hb, match_loop_WF _ _ _ ha,
            Index.keys_nodup_of_sublist _ _ (match_loop_index_sublist _ _ _) hk⟩
        · simp only [match_market_order, hs, if_false]
          exact ⟨match_loop_WF _ _ _ hb, ha,
            Index.keys_nodup_of_sublist _ _ (match_loop_index_sublist _ _ _) hk⟩
  | cancel X freed =>
    simp only [OrderBook.apply]
    cases hf : b.orders_.find X with
    | none =>
      rw [cancel_order_of_not_mem b X freed ((Index.find_eq_none_iff _ _).mp hf)]
      exact ⟨hb, ha, hk⟩
    | some loc =>
      rw [cancel_order_of_find b X freed loc hf]
      by_cases hs : (read_ptr b X loc freed).side = Side.BUY
      · simp only [hs, if_true]
        exact ⟨cancel_levels_WF_any _ _ _ _ hb, ha, Index.erase_keys_nodup _ _ hk⟩
      · simp only [hs, if_false]
        exact ⟨hb, cancel_levels_WF_any _ _ _ _ ha, Index.erase_keys_nodup _ _ hk⟩

theorem run_shaped_from (ops : List Op) (b : OrderBook)
    (h : b.bids_.WF ∧ b.asks_.WF ∧ b.orders_.keys.Nodup) :
    (b.run ops).bids_.WF ∧ (b.run ops).asks_.WF ∧ (b.run ops).orders_.keys.Nodup := by
  induction ops generalizing b with
  | nil => exact h
  | cons op rest ih => exact ih (b.apply op) (apply_shaped b op h)

/-- Every state reached from the empty book has sorted ladders and an index with
distinct keys. -/
theorem run_shaped (ops : List Op) :
    (OrderBook.empty.run ops).bids_.WF ∧ (OrderBook.empty.run ops).asks_.WF ∧
      (OrderBook.empty.run ops).orders_.keys.Nodup :=
  run_shaped_from ops OrderBook.empty (by decide)

/-- A cancellation whose read of line 35 is harmless leaves no empty level behind,
also when the pointer of the index entry dangles. -/
theorem cancel_order_noEmpty (b : OrderBook) (X : Nat) (freed : FreedReads)
    (hb : b.bids_.WF) (ha : b.asks_.WF) (hnb : b.bids_.NoEmpty) (hna : b.asks_.NoEmpty)
    (hrb : b.cancel_reads_back X freed = true) :
    (b.cancel_order X freed).2.bids_.NoEmpty ∧ (b.cancel_order X freed).2.asks_.NoEmpty := by
  cases hf : b.orders_.find X with
  | none =>
    rw [cancel_order_of_not_mem b X freed ((Index.find_eq_none_iff _ _).mp hf)]
    exact ⟨hnb, hna⟩
  | some loc =>
    rw [cancel_order_of_find b X freed loc hf]
    simp only [cancel_reads_back, hf] at hrb
    by_cases hs : (read_ptr b X loc freed).side = Side.BUY
    · simp only [hs, if_true] at hrb ⊢
      rw [cancel_levels_of_reads_back _ _ _ _ hrb]
      exact ⟨cancel_levels_noEmpty _ _ _ hb hnb, hna⟩
    · simp only [hs, if_false] at hrb ⊢
      rw [cancel_levels_of_reads_back _ _ _ _ hrb]
      exact ⟨hnb, cancel_levels_noEmpty _ _ _ ha hna⟩

theorem apply_noEmpty (b : OrderBook) (op : Op) (hb : b.bids_.WF) (ha : b.asks_.WF)
    (hnb : b.bids_.NoEmpty) (hna : b.asks_.NoEmpty) (hrb : b.reads_back [op] = true) :
    (b.apply op).bids_.NoEmpty ∧ (b.apply op).asks_.NoEmpty := by
  cases op with
  | add o =>
    simp only [OrderBook.apply]
    by_cases hin : o.id ∈ b.orders_.keys
    · rw [add_order_of_mem b o hin]; exact ⟨hnb, hna⟩
    · by_cases hty : o.type = OrderType.LIMIT
      · rw [add_order_limit b o hin hty]
        by_cases hs : o.side = Side.BUY
        · simp only [add_limit_order, hs, if_true]
          exact ⟨put_append_noEmpty _ hb o hnb, hna⟩
        · simp only [add_limit_order, hs, if_false]
          exact ⟨hnb, put_append_noEmpty _ ha o hna⟩
      · have hty2 : o.type = OrderType.MARKET := by
          cases hh : o.type with
          | LIMIT => exact absurd hh hty
          | MARKET => rfl
        rw [add_order_market b o hin hty2]
        by_cases hs : o.side = Side.BUY
        · simp only [match_market_order, hs, if_true]
          exact ⟨hnb, match_loop_noEmpty _ _ _ hna⟩
        · simp only [match_market_order, hs, if_false]
          exact ⟨match_loop_noEmpty _ _ _ hnb, hna⟩
  | cancel X freed =>
    simp only [OrderBook.reads_back, Bool.and_true] at hrb
    simp only [OrderBook.apply]
    exact cancel_order_noEmpty b X freed hb ha hnb hna hrb

theorem run_noEmpty_from (ops : List Op) (b : OrderBook)
    (hwf : b.bids_.WF ∧ b.asks_.WF ∧ b.orders_.keys.Nodup)
    (hnb : b.bids_.NoEmpty) (hna : b.asks_.NoEmpty) (hrb : b.reads_back ops = true) :
    (b.run ops).bids_.NoEmpty ∧ (b.run ops).asks_.NoEmpty := by
  induction ops generalizing b with
  | nil => exact ⟨hnb, hna⟩
  | cons op rest ih =>
    rw [reads_back_cons, Bool.and_eq_true] at hrb
    have h1 := apply_noEmpty b op hwf.1 hwf.2.1 hnb hna hrb.1
    exact ih (b.apply op) (apply_shaped b op hwf) h1.1 h1.2 hrb.2

/-- No level with an empty queue is reached from the empty book as long as the read of
line 35 of every cancellation is harmless, zero quantities and dangling index entries
included. -/
theorem run_noEmpty (ops : List Op) (hrb : OrderBook.empty.reads_back ops = true) :
    (OrderBook.empty.run ops).bids_.NoEmpty ∧ (OrderBook.empty.run ops).asks_.NoEmpty :=
  run_noEmpty_from ops OrderBook.empty (by decide) (by intro x hx; simp [OrderBook.empty] at hx)
    (by intro x hx; simp [OrderBook.empty] at hx) hrb

/-- A property of stored orders that survives a reduction of `remaining` and holds for
every LIMIT order when it is inserted holds along the run. -/
theorem run_all_from (Pb Pa : Nat → Order → Prop)
    (hPb : ∀ p o o1, Residual o o1 → Pb p o → Pb p o1)
    (hPa : ∀ p o o1, Residual o o1 → Pa p o → Pa p o1)
    (ops : List Op) (b : OrderBook)
    (hops : ∀ o, Op.add o ∈ ops → o.type = OrderType.LIMIT →
      (o.side = Side.BUY → Pb o.price o) ∧ (o.side ≠ Side.BUY → Pa o.price o))
    (hwf : b.bids_.WF ∧ b.asks_.WF)
    (h : Ladder.All Pb b.bids_ ∧ Ladder.All Pa b.asks_) :
    Ladder.All Pb (b.run ops).bids_ ∧ Ladder.All Pa (b.run ops).asks_ := by
  induction ops generalizing b with
  | nil => exact h
  | cons op rest ih =>
    obtain ⟨hb, ha⟩ := hwf
    obtain ⟨hpb, hpa⟩ := h
    have hstep : ((b.apply op).bids_.WF ∧ (b.apply op).asks_.WF) ∧
        (Ladder.All Pb (b.apply op).bids_ ∧ Ladder.All Pa (b.apply op).asks_) := by
      cases op with
      | add o =>
        simp only [OrderBook.apply]
        by_cases hin : o.id ∈ b.orders_.keys
        · rw [add_order_of_mem b o hin]; exact ⟨⟨hb, ha⟩, hpb, hpa⟩
        · by_cases hty : o.type = OrderType.LIMIT
          · rw [add_order_limit b o hin hty]
            have ho := hops o (List.mem_cons_self _ _) hty
            by_cases hs : o.side = Side.BUY
            · simp only [add_limit_order, hs, if_true]
              exact ⟨⟨Ladder.put_WF _ _ _ hb, ha⟩, put_append_all Pb _ hb o (ho.1 hs) hpb, hpa⟩
            · simp only [add_limit_order, hs, if_false]
              exact ⟨⟨hb, Ladder.put_WF _ _ _ ha⟩, hpb, put_append_all Pa _ ha o (ho.2 hs) hpa⟩
          · have hty2 : o.type = OrderType.MARKET := by
              cases hh : o.type with
              | LIMIT => exact absurd hh hty
              | MARKET => rfl
            rw [add_order_market b o hin hty2]
            by_cases hs : o.side = Side.BUY
            · simp only [match_market_order, hs, if_true]
              exact ⟨⟨hb, match_loop_WF _ _ _ ha⟩, hpb, match_loop_all Pa hPa _ _ _ hpa⟩
            · simp only [match_market_order, hs, if_false]
              exact ⟨⟨match_loop_WF _ _ _ hb, ha⟩, match_loop_all Pb hPb _ _ _ hpb, hpa⟩
      | cancel X freed =>
        simp only [OrderBook.apply]
        cases hf : b.orders_.find X with
        | none =>
          rw [cancel_order_of_not_mem b X freed ((Index.find_eq_none_iff _ _).mp hf)]
          exact ⟨⟨hb, ha⟩, hpb, hpa⟩
        | some loc =>
          rw [cancel_order_of_find b X freed loc hf]
          by_cases hs : (read_ptr b X loc freed).side = Side.BUY
          · simp only [hs, if_true]
            exact ⟨⟨cancel_levels_WF_any _ _ _ _ hb, ha⟩,
              cancel_levels_all Pb _ _ _ _ hb hpb, hpa⟩
          · simp only [hs, if_false]
            exact ⟨⟨hb, cancel_levels_WF_any _ _ _ _ ha⟩, hpb,
              cancel_levels_all Pa _ _ _ _ ha hpa⟩
    exact ih (b.apply op) (fun o ho => hops o (List.mem_cons_of_mem _ ho)) hstep.1 hstep.2

theorem Index.length_erase (ix : Index) (id : Nat) (hk : ix.keys.Nodup) (hin : id ∈ ix.keys) :
    (ix.erase id).length + 1 = ix.length := by
  induction ix with
  | nil => simp [Index.keys] at hin
  | cons e t ih =>
    obtain ⟨a, loc⟩ := e
    simp only [Index.keys, List.map_cons, List.nodup_cons] at hk
    by_cases ha : a = id
    · subst ha
      have hnot : a ∉ Index.keys t := hk.1
      have : Index.erase ((a, loc) :: t) a = t := by
        have h1 := Index.erase_of_not_mem t a hnot
        simp only [Index.erase, List.filter_cons, beq_self_eq_true, Bool.not_true,
          Bool.false_eq_true, if_false] at h1 ⊢
        exact h1
      rw [this]; simp
    · have hin2 : id ∈ Index.keys t := by
        simp only [Index.keys, List.map_cons, List.mem_cons] at hin
        rcases hin with hin | hin
        · exact absurd hin.symm ha
        · exact hin
      have hb : (a == id) = false := by simpa using ha
      have := ih hk.2 hin2
      simp only [Index.erase, List.filter_cons, hb, Bool.not_false, if_true,
        List.length_cons] at this ⊢
      omega

theorem Index.not_mem_keys_erase (ix : Index) (id : Nat) : id ∉ (ix.erase id).keys := by
  intro h
  exact ((Index.mem_keys_erase ix id id).mp h).2 rfl

theorem cancel_order_index (b : OrderBook) (X : Nat) (freed : FreedReads)
    (h : X ∈ b.orders_.keys) :
    (b.cancel_order X freed).1 = true ∧
      (b.cancel_order X freed).2.orders_ = b.orders_.erase X := by
  cases hf : b.orders_.find X with
  | none => exact absurd h ((Index.find_eq_none_iff _ _).mp hf)
  | some loc =>
    rw [cancel_order_of_find b X freed loc hf]
    by_cases hs : (read_ptr b X loc freed).side = Side.BUY <;> simp [hs]

theorem match_loop_count_of_exhausted (n : Nat) (order : Order) (levels : Ladder) (ix : Index)
    (h : order.remaining = 0) : match_loop_count n order levels ix = 0 := by
  cases n <;> simp [match_loop_count, h]

theorem match_step_progress (order : Order) (p : Nat) (q : List Order) (rest : Ladder)
    (ix : Index) :
    (match_step order p q rest ix).1.remaining = 0 ∨ (match_step order p q rest ix).2.1 = rest := by
  by_cases hk : remove_filled (match_level order ix q).2.1 = []
  · right
    simp [match_step, hk]
  · left
    exact match_level_of_survivor order ix q hk

theorem match_loop_count_le (fuel : Nat) (order : Order) (levels : Ladder) (ix : Index) :
    match_loop_count fuel order levels ix ≤ levels.length := by
  induction fuel generalizing order levels ix with
  | zero => simp [match_loop_count]
  | succ n ih =>
    by_cases h0 : 0 < order.remaining
    · cases levels with
      | nil => simp [match_loop_count]
      | cons x rest =>
        obtain ⟨p, q⟩ := x
        simp only [match_loop_count, h0, if_true, List.length_cons]
        rcases match_step_progress order p q rest ix with hz | hr
        · rw [match_loop_count_of_exhausted _ _ _ _ hz]
          omega
        · have := ih (match_step order p q rest ix).1 (match_step order p q rest ix).2.1
            (match_step order p q rest ix).2.2
          rw [hr] at this
          rw [hr]
          omega
    · simp [match_loop_count, h0]

theorem match_loop_count_nil (n : Nat) (order : Order) (ix : Index) :
    match_loop_count n order [] ix = 0 := by
  cases n <;> simp [match_loop_count]

/-- The iteration count does not depend on the fuel once there is one unit per level. -/
theorem match_loop_count_fuel (levels : Ladder) (n : Nat) (order : Order) (ix : Index)
    (h : levels.length ≤ n) :
    match_loop_count n order levels ix = match_loop_count levels.length order levels ix := by
  induction levels generalizing n order ix with
  | nil => simp [match_loop_count_nil]
  | cons x rest ih =>
    obtain ⟨p, q⟩ := x
    obtain ⟨m, rfl⟩ : ∃ m, n = m + 1 := ⟨n - 1, by simp at h; omega⟩
    have hm : rest.length ≤ m := by simpa using h
    by_cases h0 : 0 < order.remaining
    · simp only [List.length_cons, match_loop_count, h0, if_true]
      rcases match_step_progress order p q rest ix with hz | hr
      · rw [match_loop_count_of_exhausted _ _ _ _ hz, match_loop_count_of_exhausted _ _ _ _ hz]
      · rw [hr, ih m _ _ hm]
    · simp [match_loop_count, h0]

theorem queue_liquidity_append (q1 q2 : List Order) :
    queue_liquidity (q1 ++ q2) = queue_liquidity q1 + queue_liquidity q2 := by
  simp [queue_liquidity]

theorem queue_liquidity_pos (q : List Order) (hne : q ≠ []) (hpos : ∀ o ∈ q, 0 < o.remaining) :
    0 < queue_liquidity q := by
  cases q with
  | nil => exact absurd rfl hne
  | cons o t =>
    rw [queue_liquidity_cons]
    have := hpos o (List.mem_cons_self _ _)
    omega

/-- On a sorted ladder `gone ++ x :: t`, the liquidity up to the price of `x` is that of
`gone` and `x`, and the liquidity up to a smaller price is at most that of `gone`. -/
theorem Ladder.liquidity_upto_split (gone : Ladder) (x : Nat × List Order) (t : Ladder)
    (h : Ladder.WF (gone ++ x :: t)) :
    Ladder.liquidity_upto (gone ++ x :: t) x.1 = Ladder.liquidity gone + queue_liquidity x.2 ∧
    ∀ p1, p1 < x.1 → Ladder.liquidity_upto (gone ++ x :: t) p1 ≤ Ladder.liquidity gone := by
  obtain ⟨_, hst, hlt⟩ := Ladder.WF_append gone (x :: t) h
  have ht : ∀ c ∈ t, x.1 < c.1 := by
    intro c hc
    exact (List.pairwise_cons.mp hst).1 c.1 (List.mem_map.mpr ⟨c, hc, rfl⟩)
  have hg : ∀ c ∈ gone, c.1 < x.1 := fun c hc => hlt c hc x (List.mem_cons_self _ _)
  constructor
  · unfold Ladder.liquidity_upto
    have h1 : gone.filter (fun kv => decide (kv.1 ≤ x.1)) = gone := by
      apply List.filter_eq_self.mpr
      intro c hc
      have := hg c hc
      simp; omega
    have h2 : t.filter (fun kv => decide (kv.1 ≤ x.1)) = [] := by
      apply List.filter_eq_nil_iff.mpr
      intro c hc
      have := ht c hc
      simp; omega
    rw [List.filter_append, h1, List.filter_cons, h2]
    simp [Ladder.liquidity_append, Ladder.liquidity_cons, Ladder.liquidity]
  · intro p1 hp1
    unfold Ladder.liquidity_upto
    have h2 : (x :: t).filter (fun kv => decide (kv.1 ≤ p1)) = [] := by
      apply List.filter_eq_nil_iff.mpr
      intro c hc
      rcases List.mem_cons.mp hc with hc | hc
      · rw [hc]; simp; omega
      · have := ht c hc
        simp; omega
    rw [List.filter_append, h2, List.append_nil]
    exact Ladder.liquidity_filter_le gone _

theorem Ladder.liquidity_upto_le (l : Ladder) (p : Nat) :
    Ladder.liquidity_upto l p ≤ Ladder.liquidity l :=
  Ladder.liquidity_filter_le l _

/-- Where the loop stops on a sorted ladder of non-empty levels whose orders all have
something remaining: the ladder is emptied when its liquidity does not exceed the
incoming remaining, and otherwise the first level left is the first one up to which the
liquidity exceeds the incoming remaining. -/
theorem match_loop_stop (levels : Ladder) (order : Order) (ix : Index)
    (hwf : levels.WF) (hne : levels.NoEmpty)
    (hpos : ∀ x ∈ levels, ∀ o ∈ x.2, 0 < o.remaining) :
    ((match_loop levels.length order levels ix).2.1 = [] → Ladder.liquidity levels ≤ order.remaining) ∧
    (∀ x t, (match_loop levels.length order levels ix).2.1 = x :: t →
      order.remaining < Ladder.liquidity_upto levels x.1 ∧
      ∀ p1, p1 < x.1 → Ladder.liquidity_upto levels p1 ≤ order.remaining) := by
  obtain ⟨hc1, hc2⟩ := match_loop_conservation levels order ix
  obtain ⟨gone, stay, hsplit, hres⟩ := match_loop_struct levels order ix hpos
  rcases hres with ⟨hl, _⟩ | ⟨p0, A, hd, tl, x, rest, hst, hl, hx0, hx1, _⟩
  · constructor
    · intro hnil
      rw [hnil] at hc1
      simp only [Ladder.liquidity, List.map_nil, List.sum_nil] at hc1
      simp only [Ladder.liquidity]
      omega
    · intro y t hy
      have hfin : (match_loop levels.length order levels ix).1.remaining = 0 := by
        rcases hc2 with h | h
        · exact h
        · rw [hy] at h; exact absurd h (List.cons_ne_nil _ _)
      have hstay : stay = y :: t := by rw [← hl, hy]
      rw [hl] at hc1
      have hwf2 := hwf
      rw [hsplit, hstay] at hwf2
      obtain ⟨hu1, hu2⟩ := Ladder.liquidity_upto_split gone y t hwf2
      have hyin : y ∈ levels := by rw [hsplit, hstay]; simp
      have hyp := queue_liquidity_pos y.2 (hne y hyin) (hpos y hyin)
      have hL : Ladder.liquidity levels = Ladder.liquidity gone + Ladder.liquidity stay := by
        rw [hsplit, Ladder.liquidity_append]
      rw [hsplit, hstay]
      rw [hstay] at hL hc1
      constructor
      · rw [hu1]; omega
      · intro p1 hp1
        have := hu2 p1 hp1
        omega
  · constructor
    · intro hnil
      rw [hl] at hnil
      exact absurd hnil (List.cons_ne_nil _ _)
    · intro y t hy
      have hfin : (match_loop levels.length order levels ix).1.remaining = 0 := by
        rcases hc2 with h | h
        · exact h
        · rw [hy] at h; exact absurd h (List.cons_ne_nil _ _)
      have hy1 : y.1 = p0 := by
        rw [hl] at hy
        injection hy with hy _
        rw [← hy]
      have hwf2 := hwf
      rw [hsplit, hst] at hwf2
      obtain ⟨hu1, hu2⟩ := Ladder.liquidity_upto_split gone (p0, A ++ hd :: tl) rest hwf2
      have hL : Ladder.liquidity levels = Ladder.liquidity gone +
          (queue_liquidity A + (hd.remaining + queue_liquidity tl) + Ladder.liquidity rest) := by
        rw [hsplit, hst, Ladder.liquidity_append, Ladder.liquidity_cons,
          queue_liquidity_append, queue_liquidity_cons]
      have hL1 : Ladder.liquidity (match_loop levels.length order levels ix).2.1 =
          x + queue_liquidity tl + Ladder.liquidity rest := by
        rw [hl, Ladder.liquidity_cons, queue_liquidity_cons]
      simp only [queue_liquidity_append, queue_liquidity_cons] at hu1
      rw [hsplit, hst, hy1]
      constructor
      · rw [hu1]; omega
      · intro p1 hp1
        have := hu2 p1 hp1
        omega

/-- In a sorted ladder whose queues have distinct ids and whose orders are located by
the index at the price of their level, all stored ids are distinct. -/
theorem Ladder.ids_nodup (s : Side) (levels : Ladder) (ix : Index) (hwf : levels.WF)
    (hnd : ∀ x ∈ levels, (x.2.map Order.id).Nodup)
    (hloc : ∀ x ∈ levels, ∀ o ∈ x.2, ix.find o.id = some { side := s, price := x.1 }) :
    ((Ladder.orders levels).map Order.id).Nodup := by
  induction levels with
  | nil => simp [Ladder.orders_nil]
  | cons y t ih =>
    obtain ⟨p, q⟩ := y
    rw [Ladder.orders_cons, List.map_append, List.nodup_append]
    have ht := ih (List.pairwise_cons.mp hwf).2
      (fun x hx => hnd x (List.mem_cons_of_mem _ hx))
      (fun x hx => hloc x (List.mem_cons_of_mem _ hx))
    refine ⟨hnd (p, q) (List.mem_cons_self _ _), ht, ?_⟩
    intro k hk1 hk2
    obtain ⟨o1, ho1, rfl⟩ := List.mem_map.mp hk1
    obtain ⟨o2, ho2, he⟩ := List.mem_map.mp hk2
    obtain ⟨x, hx, hox⟩ := (Ladder.mem_orders t o2).mp ho2
    have h1 := hloc (p, q) (List.mem_cons_self _ _) o1 ho1
    have h2 := hloc x (List.mem_cons_of_mem _ hx) o2 hox
    rw [he, h1] at h2
    injection h2 with h2
    injection h2 with _ hp
    have := (List.pairwise_cons.mp hwf).1 x.1 (List.mem_map.mpr ⟨x, hx, rfl⟩)
    simp only at hp
    omega

/-- When index and ladders agree, the ids stored across both ladders are distinct. -/
theorem stored_ids_nodup (b : OrderBook) (h : b.Agree) :
    ((Ladder.orders b.bids_ ++ Ladder.orders b.asks_).map Order.id).Nodup := by
  obtain ⟨_, hb, ha⟩ := h
  rw [List.map_append, List.nodup_append]
  refine ⟨Ladder.ids_nodup Side.BUY _ _ hb.1 hb.2.1 hb.2.2.1,
    Ladder.ids_nodup Side.SELL _ _ ha.1 ha.2.1 ha.2.2.1, ?_⟩
  intro k hk1 hk2
  obtain ⟨o1, ho1, rfl⟩ := List.mem_map.mp hk1
  obtain ⟨o2, ho2, he⟩ := List.mem_map.mp hk2
  obtain ⟨x1, hx1, hox1⟩ := (Ladder.mem_orders _ o1).mp ho1
  obtain ⟨x2, hx2, hox2⟩ := (Ladder.mem_orders _ o2).mp ho2
  have h1 := hb.2.2.1 x1 hx1 o1 hox1
  have h2 := ha.2.2.1 x2 hx2 o2 hox2
  rw [he, h1] at h2
  injection h2 with h2
  injection h2 with hs _
  exact Side.noConfusion hs

theorem Residual.placed (s : Side) (p : Nat) (o o1 : Order) (hr : Residual o o1)
    (h : o.price = p ∧ o.side = s) : o1.price = p ∧ o1.side = s := by
  have h1 := hr.1
  have hp : o1.price = o.price := by rw [h1]
  have hs : o1.side = o.side := by rw [h1]
  rw [hp, hs]; exact h

/-- The contract of `cancel_order` in a state whose index agrees with its ladders, for
a call whose read of line 35 is harmless: when `id` is not in the index the call returns
false and nothing changes; otherwise it returns true, the queue at the located price on
the located side was `pre ++ o :: post` with `o` the order of that id and becomes
`pre ++ post`, that level is removed exactly when `pre ++ post` is empty, every other
level of that ladder and the whole other ladder are unchanged, and the index is the old
index without `id`. -/
theorem cancel_order_contract (b : OrderBook) (hag : b.Agree) (id : Nat) (freed : FreedReads)
    (hrb : b.cancel_reads_back id freed = true) :
    (id ∉ b.orders_.keys → b.cancel_order id freed = (false, b)) ∧
    (id ∈ b.orders_.keys →
      ∃ loc pre o post, b.orders_.find id = some loc ∧
        (b.cancel_order id freed).1 = true ∧
        (if loc.side = Side.BUY then b.bids_ else b.asks_).lookup loc.price =
          some (pre ++ o :: post) ∧
        o.id = id ∧
        (if loc.side = Side.BUY then (b.cancel_order id freed).2.bids_
          else (b.cancel_order id freed).2.asks_).lookup loc.price =
            (if pre ++ post = [] then none else some (pre ++ post)) ∧
        (∀ p, p ≠ loc.price →
          (if loc.side = Side.BUY then (b.cancel_order id freed).2.bids_
            else (b.cancel_order id freed).2.asks_).lookup p =
          (if loc.side = Side.BUY then b.bids_ else b.asks_).lookup p) ∧
        (if loc.side = Side.BUY then (b.cancel_order id freed).2.asks_
          else (b.cancel_order id freed).2.bids_) =
          (if loc.side = Side.BUY then b.asks_ else b.bids_) ∧
        (b.cancel_order id freed).2.orders_ = b.orders_.erase id ∧
        (∀ k, k ∈ (b.cancel_order id freed).2.orders_.keys ↔ k ∈ b.orders_.keys ∧ k ≠ id)) := by
  refine ⟨cancel_order_of_not_mem b id freed, ?_⟩
  intro hin
  cases hf : b.orders_.find id with
  | none => exact absurd hin ((Index.find_eq_none_iff _ _).mp hf)
  | some loc =>
    have hown : AgreeOn loc.side (if loc.side = Side.BUY then b.bids_ else b.asks_) b.orders_ := by
      by_cases hs : loc.side = Side.BUY
      · simp only [hs, if_true]; exact hag.2.1
      · have hs2 : loc.side = Side.SELL := by
          cases hh : loc.side with
          | BUY => exact absurd hh hs
          | SELL => rfl
        simp only [hs2, show ¬ (Side.SELL = Side.BUY) by decide, if_false]; exact hag.2.2
    obtain ⟨x0, hx0, hx0p, o, ho, hoid⟩ := hown.live id loc hf rfl
    have hlk : (if loc.side = Side.BUY then b.bids_ else b.asks_).lookup loc.price = some x0.2 :=
      Ladder.lookup_of_mem _ hown.1 _ _ (by rw [← hx0p]; exact hx0)
    obtain ⟨pre, post, hsplit, hfilter⟩ := filter_id_split x0.2 (hown.2.1 x0 hx0) o ho
    rw [hoid] at hfilter
    have hcl : ∀ k, (cancel_levels (if loc.side = Side.BUY then b.bids_ else b.asks_)
        loc.price id loc.price).lookup k =
        if k = loc.price then (if pre ++ post = [] then none else some (pre ++ post))
        else (if loc.side = Side.BUY then b.bids_ else b.asks_).lookup k := by
      intro k
      rw [cancel_levels_lookup, hlk]
      simp only [Option.getD_some, hfilter]
    refine ⟨loc, pre, o, post, rfl, ?_, by rw [hlk, hsplit], hoid, ?_, ?_, ?_, ?_, ?_⟩
    · rw [cancel_order_exact b id freed loc hf (Agree.node_stored b hag id loc hf) hrb]
    · rw [cancel_order_exact b id freed loc hf (Agree.node_stored b hag id loc hf) hrb]
      have := hcl loc.price
      by_cases hs : loc.side = Side.BUY
      · simp only [hs, if_true] at this ⊢; exact this
      · simp only [hs, if_false] at this ⊢; exact this
    · intro p hp
      rw [cancel_order_exact b id freed loc hf (Agree.node_stored b hag id loc hf) hrb]
      have := hcl p
      by_cases hs : loc.side = Side.BUY
      · simp only [hs, if_true, hp, if_false] at this ⊢; exact this
      · simp only [hs, if_false, hp] at this ⊢; exact this
    · rw [cancel_order_exact b id freed loc hf (Agree.node_stored b hag id loc hf) hrb]
      by_cases hs : loc.side = Side.BUY <;> simp [hs]
    · rw [cancel_order_exact b id freed loc hf (Agree.node_stored b hag id loc hf) hrb]
      by_cases hs : loc.side = Side.BUY <;> simp [hs]
    · intro k
      rw [cancel_order_exact b id freed loc hf (Agree.node_stored b hag id loc hf) hrb]
      have := Index.mem_keys_erase b.orders_ id k
      by_cases hs : loc.side = Side.BUY
      · simp only [hs, if_true]; exact this
      · simp only [hs, if_false]; exact this


/-- Along every sequence of `add_order` and `cancel_order` calls from the empty book in
which every LIMIT order submitted has remaining = quantity > 0 and the read of line 35
of every cancellation is harmless, the reached state satisfies: the identifiers of the
orders stored across both ladders are pairwise distinct; an identifier is stored exactly
when it is a key of the index; every stored order has remaining > 0 and sits in the
level keyed by its own price on the ladder of its own side; and `total_orders()` is the
number of stored orders. -/
theorem run_well_formed (ops : List Op)
    (hops : ∀ o, Op.add o ∈ ops → o.type = OrderType.LIMIT →
      o.remaining = o.quantity ∧ 0 < o.quantity)
    (hrb : OrderBook.empty.reads_back ops = true) :
    ((Ladder.orders (OrderBook.empty.run ops).bids_ ++
        Ladder.orders (OrderBook.empty.run ops).asks_).map Order.id).Nodup ∧
    (∀ id, id ∈ (Ladder.orders (OrderBook.empty.run ops).bids_ ++
        Ladder.orders (OrderBook.empty.run ops).asks_).map Order.id ↔
      id ∈ (OrderBook.empty.run ops).orders_.keys) ∧
    (∀ x ∈ (OrderBook.empty.run ops).bids_, ∀ o ∈ x.2,
      0 < o.remaining ∧ o.price = x.1 ∧ o.side = Side.BUY) ∧
    (∀ x ∈ (OrderBook.empty.run ops).asks_, ∀ o ∈ x.2,
      0 < o.remaining ∧ o.price = x.1 ∧ o.side = Side.SELL) ∧
    (OrderBook.empty.run ops).total_orders =
      (Ladder.orders (OrderBook.empty.run ops).bids_ ++
        Ladder.orders (OrderBook.empty.run ops).asks_).length := by
  have hpos : ∀ o, Op.add o ∈ ops → o.type = OrderType.LIMIT → 0 < o.remaining := by
    intro o ho hty
    have := hops o ho hty
    omega
  obtain ⟨hag, hp⟩ := run_invariant ops OrderBook.empty (by decide) (by decide) hpos hrb
  have hplaced := run_all_from (fun p o => o.price = p ∧ o.side = Side.BUY)
    (fun p o => o.price = p ∧ o.side = Side.SELL)
    (fun p o o1 hr h => Residual.placed Side.BUY p o o1 hr h)
    (fun p o o1 hr h => Residual.placed Side.SELL p o o1 hr h)
    ops OrderBook.empty
    (fun o _ _ => ⟨fun hs => ⟨rfl, hs⟩, fun hs => ⟨rfl, by
      cases hh : o.side with
      | BUY => exact absurd hh hs
      | SELL => rfl⟩⟩)
    (by decide) ⟨by intro x hx; simp [OrderBook.empty] at hx,
      by intro x hx; simp [OrderBook.empty] at hx⟩
  have hnd := stored_ids_nodup _ hag
  have hmem : ∀ id, id ∈ (Ladder.orders (OrderBook.empty.run ops).bids_ ++
        Ladder.orders (OrderBook.empty.run ops).asks_).map Order.id ↔
      id ∈ (OrderBook.empty.run ops).orders_.keys := by
    intro id
    rw [index_consistent_of_agree _ hag hp id]
    constructor
    · intro h
      obtain ⟨o, ho, hoid⟩ := List.mem_map.mp h
      refine ⟨o, ho, hoid, ?_⟩
      rcases List.mem_append.mp ho with ho | ho
      · obtain ⟨x, hx, hox⟩ := (Ladder.mem_orders _ o).mp ho
        exact hp x (List.mem_append_left _ hx) o hox
      · obtain ⟨x, hx, hox⟩ := (Ladder.mem_orders _ o).mp ho
        exact hp x (List.mem_append_right _ hx) o hox
    · rintro ⟨o, ho, hoid, _⟩
      exact List.mem_map.mpr ⟨o, ho, hoid⟩
  refine ⟨hnd, hmem, ?_, ?_, ?_⟩
  · intro x hx o ho
    exact ⟨hp x (List.mem_append_left _ hx) o ho, hplaced.1 x hx o ho⟩
  · intro x hx o ho
    exact ⟨hp x (List.mem_append_right _ hx) o ho, hplaced.2 x hx o ho⟩
  · have hperm := (List.perm_ext_iff_of_nodup hnd hag.1).mpr hmem
    have hlen := hperm.length_eq
    simp only [List.length_map, Index.keys] at hlen
    simp only [total_orders]
    exact hlen.symm


/-! ## The claims -/

/-- C1 (as amended): for every finite sequence of `add_order` and `cancel_order` calls
from the empty book in which every LIMIT order submitted has remaining > 0 and every
`cancel_order` call either leaves the queue it removed from non-empty or erases at line
35 the key it read at line 30 (the read of the destroyed node returns the price the node
held), an identifier is a key of the order index if and only if an order with that
identifier and remaining > 0 rests in the bid or the ask ladder. -/
theorem C1_index_consistency (ops : List Op)
    (hops : ∀ o, Op.add o ∈ ops → o.type = OrderType.LIMIT → 0 < o.remaining)
    (hrb : OrderBook.empty.reads_back ops = true) (id : Nat) :
    id ∈ (OrderBook.empty.run ops).orders_.keys ↔
      ∃ o ∈ Ladder.orders (OrderBook.empty.run ops).bids_ ++
          Ladder.orders (OrderBook.empty.run ops).asks_,
        o.id = id ∧ 0 < o.remaining := by
  have h := run_invariant ops OrderBook.empty (by decide) (by decide) hops hrb
  exact index_consistent_of_agree _ h.1 h.2 id

/-- C1 as stated fails: after `add_order(Order::Limit(1, 1, BUY, 100, 0))` on the empty
book the identifier 1 is a key of the index, but no order with identifier 1 and
remaining > 0 rests in a ladder. -/
theorem C1_counterexample :
    ¬ (1 ∈ (OrderBook.empty.run [Op.add (Order.Limit 1 1 Side.BUY 100 0)]).orders_.keys ↔
      ∃ o ∈ Ladder.orders (OrderBook.empty.run [Op.add (Order.Limit 1 1 Side.BUY 100 0)]).bids_ ++
          Ladder.orders (OrderBook.empty.run [Op.add (Order.Limit 1 1 Side.BUY 100 0)]).asks_,
        o.id = 1 ∧ 0 < o.remaining) := by
  decide

theorem C1_index_consistency_witness :
    (∀ o, Op.add o ∈ [Op.add (Order.Limit 1 1 Side.SELL 100 10),
        Op.add (Order.Limit 3 1 Side.SELL 100 5),
        Op.add (Order.Market 2 1 Side.BUY 4),
        Op.cancel 1 { side := Side.BUY, price := 7, erase_price := 8 },
        Op.cancel 3 { side := Side.SELL, price := 100, erase_price := 100 }] →
      o.type = OrderType.LIMIT → 0 < o.remaining) ∧
    OrderBook.empty.reads_back [Op.add (Order.Limit 1 1 Side.SELL 100 10),
        Op.add (Order.Limit 3 1 Side.SELL 100 5),
        Op.add (Order.Market 2 1 Side.BUY 4),
        Op.cancel 1 { side := Side.BUY, price := 7, erase_price := 8 },
        Op.cancel 3 { side := Side.SELL, price := 100, erase_price := 100 }] = true ∧
    (1 ∈ (OrderBook.empty.run [Op.add (Order.Limit 1 1 Side.SELL 100 10),
        Op.add (Order.Limit 3 1 Side.SELL 100 5),
        Op.add (Order.Market 2 1 Side.BUY 4),
        Op.cancel 1 { side := Side.BUY, price := 7, erase_price := 8 },
        Op.cancel 3 { side := Side.SELL, price := 100, erase_price := 100 }]).orders_.keys ↔
      ∃ o ∈ Ladder.orders (OrderBook.empty.run [Op.add (Order.Limit 1 1 Side.SELL 100 10),
            Op.add (Order.Limit 3 1 Side.SELL 100 5),
            Op.add (Order.Market 2 1 Side.BUY 4),
            Op.cancel 1 { side := Side.BUY, price := 7, erase_price := 8 },
            Op.cancel 3 { side := Side.SELL, price := 100, erase_price := 100 }]).bids_ ++
          Ladder.orders (OrderBook.empty.run [Op.add (Order.Limit 1 1 Side.SELL 100 10),
            Op.add (Order.Limit 3 1 Side.SELL 100 5),
            Op.add (Order.Market 2 1 Side.BUY 4),
            Op.cancel 1 { side := Side.BUY, price := 7, erase_price := 8 },
            Op.cancel 3 { side := Side.SELL, price := 100, erase_price := 100 }]).asks_,
        o.id = 1 ∧ 0 < o.remaining) :=
  ⟨by
      intro o ho _
      simp only [List.mem_cons, Op.add.injEq, List.mem_singleton, reduceCtorEq, or_false,
        List.not_mem_nil] at ho
      rcases ho with ho | ho | ho <;> subst ho <;> decide,
    by decide,
    C1_index_consistency [Op.add (Order.Limit 1 1 Side.SELL 100 10),
        Op.add (Order.Limit 3 1 Side.SELL 100 5),
        Op.add (Order.Market 2 1 Side.BUY 4),
        Op.cancel 1 { side := Side.BUY, price := 7, erase_price := 8 },
        Op.cancel 3 { side := Side.SELL, price := 100, erase_price := 100 }] (by
      intro o ho _
      simp only [List.mem_cons, Op.add.injEq, List.mem_singleton, reduceCtorEq, or_false,
        List.not_mem_nil] at ho
      rcases ho with ho | ho | ho <;> subst ho <;> decide) (by decide) 1⟩

/-- C2 (the code departs from the claim): with bids resting at 100 and 101,
`best_bid_price()` reports 101, yet a SELL MARKET order of 5 is matched against the bid
at 100, which `levels.begin()` selects, and the bid at 101 is left untouched. -/
theorem C2_sell_market_starts_at_lowest_bid :
    (OrderBook.empty.run [Op.add (Order.Limit 1 1 Side.BUY 100 10),
        Op.add (Order.Limit 2 1 Side.BUY 101 10)]).best_bid_price = some 101 ∧
    ((OrderBook.empty.run [Op.add (Order.Limit 1 1 Side.BUY 100 10),
        Op.add (Order.Limit 2 1 Side.BUY 101 10)]).add_order
          (Order.Market 3 1 Side.SELL 5)).2.bids_ =
      [(100, [{ Order.Limit 1 1 Side.BUY 100 10 with remaining := 5 }]),
       (101, [Order.Limit 2 1 Side.BUY 101 10])] := by
  decide

/-- C3: for a BUY MARKET order whose id is not in the index, on a sorted ask ladder: if
the level at price `p` is not the same after the call (an ask there was reduced or
removed), then no level at a price below `p` exists any more, so every ask that rested
below `p` has been removed, and the liquidity that rested below `p` is at most the
incoming quantity, which paid for filling all of it. -/
theorem C3_price_priority_buy (b : OrderBook) (m : Order) (hwf : b.asks_.WF)
    (hty : m.type = OrderType.MARKET) (hside : m.side = Side.BUY)
    (hid : m.id ∉ b.orders_.keys) (p : Nat) (q : List Order)
    (hq : b.asks_.lookup p = some q)
    (hch : (b.add_order m).2.asks_.lookup p ≠ some q) :
    (∀ p1, p1 < p → (b.add_order m).2.asks_.lookup p1 = none) ∧
    Ladder.liquidity (b.asks_.filter (fun kv => kv.1 < p)) ≤ m.remaining := by
  rw [add_order_market b m hid hty] at hch ⊢
  simp only [match_market_order, hside, if_true] at hch ⊢
  exact match_loop_price_priority b.asks_ m b.orders_ hwf p q hq hch

theorem C3_price_priority_buy_witness :
    (OrderBook.empty.run [Op.add (Order.Limit 1 1 Side.SELL 100 10),
      Op.add (Order.Limit 2 1 Side.SELL 101 10), Op.add (Order.Limit 3 1 Side.SELL 102 10)]).asks_.WF ∧
    (Order.Market 100 1 Side.BUY 15).type = OrderType.MARKET ∧
    (Order.Market 100 1 Side.BUY 15).side = Side.BUY ∧
    (Order.Market 100 1 Side.BUY 15).id ∉
      (OrderBook.empty.run [Op.add (Order.Limit 1 1 Side.SELL 100 10),
        Op.add (Order.Limit 2 1 Side.SELL 101 10),
        Op.add (Order.Limit 3 1 Side.SELL 102 10)]).orders_.keys ∧
    (∀ p1, p1 < 101 →
      ((OrderBook.empty.run [Op.add (Order.Limit 1 1 Side.SELL 100 10),
        Op.add (Order.Limit 2 1 Side.SELL 101 10),
        Op.add (Order.Limit 3 1 Side.SELL 102 10)]).add_order
          (Order.Market 100 1 Side.BUY 15)).2.asks_.lookup p1 = none) ∧
    ((OrderBook.empty.run [Op.add (Order.Limit 1 1 Side.SELL 100 10),
        Op.add (Order.Limit 2 1 Side.SELL 101 10),
        Op.add (Order.Limit 3 1 Side.SELL 102 10)]).add_order
          (Order.Market 100 1 Side.BUY 15)).2.best_ask_price = some 101 :=
  ⟨by decide, rfl, rfl, by decide,
    (C3_price_priority_buy (OrderBook.empty.run [Op.add (Order.Limit 1 1 Side.SELL 100 10),
        Op.add (Order.Limit 2 1 Side.SELL 101 10), Op.add (Order.Limit 3 1 Side.SELL 102 10)])
      (Order.Market 100 1 Side.BUY 15) (by decide) rfl rfl (by decide) 101
      [Order.Limit 2 1 Side.SELL 101 10] (by decide) (by decide)).1,
    by decide⟩

/-- C4: when all resting orders have remaining > 0, after a MARKET order whose id is not
in the index every queue `q1` on the (sorted) opposite ladder is a suffix of the queue
`q` that stood at the same price before: `q` is an already consumed front part `gone`
followed either by `q1` unchanged, or by `h :: tl` where `q1` is `tl` behind `h` with a
smaller, still positive remaining; so orders are consumed in arrival order, a partially
filled order keeps its slot at the head, and the orders behind it are unchanged. -/
theorem C4_time_priority (b : OrderBook) (m : Order) (hpos : b.Positive)
    (hwf : Ladder.WF (if m.side = Side.BUY then b.asks_ else b.bids_))
    (hty : m.type = OrderType.MARKET) (hid : m.id ∉ b.orders_.keys)
    (p : Nat) (q1 : List Order)
    (h1 : (if m.side = Side.BUY then (b.add_order m).2.asks_
      else (b.add_order m).2.bids_).lookup p = some q1) :
    ∃ q gone, (if m.side = Side.BUY then b.asks_ else b.bids_).lookup p = some q ∧
      (q = gone ++ q1 ∨
        ∃ h tl x, q = gone ++ h :: tl ∧ q1 = { h with remaining := x } :: tl ∧
          0 < x ∧ x < h.remaining) := by
  rw [add_order_market b m hid hty] at h1
  rw [match_market_order_opposite] at h1
  refine match_loop_time_priority _ m b.orders_ ?_ hwf p q1 h1
  intro x hx
  apply hpos x
  by_cases hs : m.side = Side.BUY
  · simp only [hs, if_true] at hx
    exact List.mem_append_right _ hx
  · simp only [hs, if_false] at hx
    exact List.mem_append_left _ hx

theorem C4_time_priority_witness :
    (OrderBook.empty.run [Op.add (Order.Limit 1 1 Side.SELL 100 10),
      Op.add (Order.Limit 2 1 Side.SELL 100 5), Op.add (Order.Limit 3 1 Side.SELL 100 3)]).Positive ∧
    ((OrderBook.empty.run [Op.add (Order.Limit 1 1 Side.SELL 100 10),
      Op.add (Order.Limit 2 1 Side.SELL 100 5), Op.add (Order.Limit 3 1 Side.SELL 100 3)]).add_order
        (Order.Market 100 1 Side.BUY 12)).2.asks_ =
      [(100, [{ Order.Limit 2 1 Side.SELL 100 5 with remaining := 3 },
              Order.Limit 3 1 Side.SELL 100 3])] ∧
    ((OrderBook.empty.run [Op.add (Order.Limit 1 1 Side.SELL 100 10),
      Op.add (Order.Limit 2 1 Side.SELL 100 5), Op.add (Order.Limit 3 1 Side.SELL 100 3)]).add_order
        (Order.Market 100 1 Side.BUY 12)).2.total_orders = 2 ∧
    ∃ q gone, (OrderBook.empty.run [Op.add (Order.Limit 1 1 Side.SELL 100 10),
      Op.add (Order.Limit 2 1 Side.SELL 100 5),
      Op.add (Order.Limit 3 1 Side.SELL 100 3)]).asks_.lookup 100 = some q ∧
      (q = gone ++ [{ Order.Limit 2 1 Side.SELL 100 5 with remaining := 3 },
              Order.Limit 3 1 Side.SELL 100 3] ∨
        ∃ h tl x, q = gone ++ h :: tl ∧
          [{ Order.Limit 2 1 Side.SELL 100 5 with remaining := 3 },
              Order.Limit 3 1 Side.SELL 100 3] = { h with remaining := x } :: tl ∧
          0 < x ∧ x < h.remaining) :=
  ⟨by decide, by decide, by decide,
   C4_time_priority (OrderBook.empty.run [Op.add (Order.Limit 1 1 Side.SELL 100 10),
      Op.add (Order.Limit 2 1 Side.SELL 100 5), Op.add (Order.Limit 3 1 Side.SELL 100 3)])
      (Order.Market 100 1 Side.BUY 12) (by decide) (by decide) rfl (by decide) 100 _ (by decide)⟩

/-- C5: for a MARKET order of quantity `Q` (with `remaining = Q`) whose id is not in the
index, the liquidity of the opposite ladder does not grow, and it drops by exactly
`min(Q, L)`, where `L` is the liquidity of the opposite ladder before the call; as a
walk over a level changes nothing but the remaining of a resting order and never raises
it, that drop is the total filled quantity. In `execute_trade`, called with
`exec_qty = min(incoming.remaining, resting.remaining)`, the incoming and the resting
remaining both decrease by exactly `exec_qty`. -/
theorem C5_conservation (b : OrderBook) (m : Order) (hty : m.type = OrderType.MARKET)
    (hid : m.id ∉ b.orders_.keys) (hq : m.remaining = m.quantity) :
    Ladder.liquidity (if m.side = Side.BUY then (b.add_order m).2.asks_ else (b.add_order m).2.bids_) ≤
      Ladder.liquidity (if m.side = Side.BUY then b.asks_ else b.bids_) ∧
    Ladder.liquidity (if m.side = Side.BUY then b.asks_ else b.bids_) -
        Ladder.liquidity (if m.side = Side.BUY then (b.add_order m).2.asks_ else (b.add_order m).2.bids_) =
      min m.quantity (Ladder.liquidity (if m.side = Side.BUY then b.asks_ else b.bids_)) ∧
    (∀ (ix : Index) (incoming resting : Order),
      (execute_trade ix incoming resting (min incoming.remaining resting.remaining)).1.remaining =
          incoming.remaining - min incoming.remaining resting.remaining ∧
      (execute_trade ix incoming resting (min incoming.remaining resting.remaining)).2.1.remaining =
          resting.remaining - min incoming.remaining resting.remaining ∧
      min incoming.remaining resting.remaining ≤ incoming.remaining ∧
      min incoming.remaining resting.remaining ≤ resting.remaining) ∧
    (∀ (ix : Index) (incoming : Order) (level_orders : List Order),
      List.Forall₂ Residual level_orders (match_level incoming ix level_orders).2.1) := by
  rw [add_order_market b m hid hty]
  simp only [match_market_order_opposite]
  have hc := match_loop_conservation (if m.side = Side.BUY then b.asks_ else b.bids_) m b.orders_
  obtain ⟨h1, h2⟩ := hc
  have h3 : (match_loop (if m.side = Side.BUY then b.asks_ else b.bids_).length m
      (if m.side = Side.BUY then b.asks_ else b.bids_) b.orders_).1.remaining = 0 ∨
      Ladder.liquidity (match_loop (if m.side = Side.BUY then b.asks_ else b.bids_).length m
      (if m.side = Side.BUY then b.asks_ else b.bids_) b.orders_).2.1 = 0 := by
    rcases h2 with h2 | h2
    · exact Or.inl h2
    · right; rw [h2]; rfl
  refine ⟨?_, ?_, ?_, fun ix incoming level_orders => match_level_residual incoming ix level_orders⟩
  · rcases h3 with h3 | h3 <;> omega
  · rcases h3 with h3 | h3 <;> omega
  · intro ix incoming resting
    simp only [execute_trade, usub64_of_le, Nat.min_le_left, Nat.min_le_right]
    simp

theorem C5_conservation_witness :
    (Order.Market 100 1 Side.BUY 15).type = OrderType.MARKET ∧
    (Order.Market 100 1 Side.BUY 15).id ∉
      (OrderBook.empty.run [Op.add (Order.Limit 1 1 Side.SELL 100 10),
        Op.add (Order.Limit 2 1 Side.SELL 101 10)]).orders_.keys ∧
    (Order.Market 100 1 Side.BUY 15).remaining = (Order.Market 100 1 Side.BUY 15).quantity ∧
    Ladder.liquidity (OrderBook.empty.run [Op.add (Order.Limit 1 1 Side.SELL 100 10),
        Op.add (Order.Limit 2 1 Side.SELL 101 10)]).asks_ -
      Ladder.liquidity ((OrderBook.empty.run [Op.add (Order.Limit 1 1 Side.SELL 100 10),
        Op.add (Order.Limit 2 1 Side.SELL 101 10)]).add_order
          (Order.Market 100 1 Side.BUY 15)).2.asks_ = min 15 20 :=
  ⟨rfl, by decide, rfl,
    (C5_conservation (OrderBook.empty.run [Op.add (Order.Limit 1 1 Side.SELL 100 10),
        Op.add (Order.Limit 2 1 Side.SELL 101 10)]) (Order.Market 100 1 Side.BUY 15)
      rfl (by decide) rfl).2.1⟩

/-- C6: `add_order(o)` returns false exactly when `o.id` is a key of the order index;
when it returns false the bid ladder, the ask ladder and the index are unchanged; in
every other case it returns true. -/
theorem C6_duplicate_rejection_atomic (b : OrderBook) (o : Order) :
    ((b.add_order o).1 = false ↔ o.id ∈ b.orders_.keys) ∧
    ((b.add_order o).1 = false → (b.add_order o).2 = b) ∧
    (o.id ∉ b.orders_.keys → (b.add_order o).1 = true) := by
  by_cases h : o.id ∈ b.orders_.keys
  · simp [add_order_of_mem b o h, h]
  · have hf := (Index.find_eq_none_iff _ _).mpr h
    by_cases hty : o.type = OrderType.LIMIT
    · simp [add_order, hf, hty, h]
    · simp [add_order, hf, hty, h]

/-- C7: for a LIMIT order `o` whose id is not in the index, `add_order(o)` returns true;
the queue at `o.price` on the ladder of `o.side` becomes the previous queue (empty when
the level was absent) with `o` appended at the tail; every other level of that ladder
is unchanged and the ladder stays sorted; the index gains the single entry `o.id`,
which locates side `o.side` and price `o.price`, every other entry is unchanged, and
`total_orders()` grows by exactly 1. -/
theorem C7_limit_insertion (b : OrderBook) (o : Order) (hty : o.type = OrderType.LIMIT)
    (hid : o.id ∉ b.orders_.keys) :
    (b.add_order o).1 = true ∧
    (if o.side = Side.BUY then (b.add_order o).2.bids_ else (b.add_order o).2.asks_).lookup o.price =
      some (((if o.side = Side.BUY then b.bids_ else b.asks_).lookup o.price).getD [] ++ [o]) ∧
    (∀ p, p ≠ o.price →
      (if o.side = Side.BUY then (b.add_order o).2.bids_ else (b.add_order o).2.asks_).lookup p =
        (if o.side = Side.BUY then b.bids_ else b.asks_).lookup p) ∧
    ((if o.side = Side.BUY then b.bids_ else b.asks_).WF →
      (if o.side = Side.BUY then (b.add_order o).2.bids_ else (b.add_order o).2.asks_).WF) ∧
    (b.add_order o).2.orders_.find o.id = some { side := o.side, price := o.price } ∧
    (∀ id, id ≠ o.id → (b.add_order o).2.orders_.find id = b.orders_.find id) ∧
    (∀ id, id ∈ (b.add_order o).2.orders_.keys ↔ id = o.id ∨ id ∈ b.orders_.keys) ∧
    (b.add_order o).2.total_orders = b.total_orders + 1 := by
  rw [add_order_limit b o hid hty]
  have hkeys : ∀ id, id ∈ (b.orders_.assign o.id { side := o.side, price := o.price }).keys ↔
      id = o.id ∨ id ∈ b.orders_.keys := by
    intro id
    simp [Index.assign, Index.erase_of_not_mem _ _ hid, Index.keys]
  have hlen : (b.orders_.assign o.id { side := o.side, price := o.price }).length =
      b.orders_.length + 1 := by
    simp [Index.assign, Index.erase_of_not_mem _ _ hid]
  by_cases hs : o.side = Side.BUY
  · simp only [add_limit_order, hs, if_true, total_orders]
    refine ⟨trivial, ?_, ?_, ?_, ?_, ?_, ?_, ?_⟩
    · simp [Ladder.lookup_put]
    · intro p hp; simp [Ladder.lookup_put, hp]
    · exact Ladder.put_WF _ _ _
    · simp [Index.find_assign]
    · intro id hne; simp [Index.find_assign, hne]
    · simpa [hs] using hkeys
    · simpa [hs] using hlen
  · simp only [add_limit_order, hs, if_false, total_orders]
    refine ⟨trivial, ?_, ?_, ?_, ?_, ?_, ?_, ?_⟩
    · simp [Ladder.lookup_put]
    · intro p hp; simp [Ladder.lookup_put, hp]
    · exact Ladder.put_WF _ _ _
    · simp [Index.find_assign]
    · intro id hne; simp [Index.find_assign, hne]
    · exact hkeys
    · exact hlen

theorem C7_limit_insertion_witness :
    (Order.Limit 1 1 Side.BUY 100 10).type = OrderType.LIMIT ∧
    (Order.Limit 1 1 Side.BUY 100 10).id ∉ OrderBook.empty.orders_.keys ∧
    (OrderBook.empty.add_order (Order.Limit 1 1 Side.BUY 100 10)).2.bids_.lookup 100 =
      some [Order.Limit 1 1 Side.BUY 100 10] ∧
    (OrderBook.empty.add_order (Order.Limit 1 1 Side.BUY 100 10)).2.total_orders = 1 :=
  ⟨rfl, by decide,
    (C7_limit_insertion OrderBook.empty (Order.Limit 1 1 Side.BUY 100 10) rfl (by decide)).2.1,
    (C7_limit_insertion OrderBook.empty (Order.Limit 1 1 Side.BUY 100 10) rfl
      (by decide)).2.2.2.2.2.2.2⟩

/-- C8: for a LIMIT order `o` whose id is not in the index, whatever its price,
`add_order(o)` leaves the opposite ladder identical and `o` itself, with its remaining
undiminished, is the last order of the queue at its price on its own side; and a state
whose best bid is at or above its best ask is reachable from the empty book. -/
theorem C8_no_crossing_on_limit_entry (b : OrderBook) (o : Order)
    (hty : o.type = OrderType.LIMIT) (hid : o.id ∉ b.orders_.keys) :
    (if o.side = Side.BUY then (b.add_order o).2.asks_ else (b.add_order o).2.bids_) =
      (if o.side = Side.BUY then b.asks_ else b.bids_) ∧
    (∃ q, (if o.side = Side.BUY then (b.add_order o).2.bids_ else (b.add_order o).2.asks_).lookup
      o.price = some (q ++ [o])) ∧
    (∃ ops x y, (OrderBook.empty.run ops).best_bid_price = some x ∧
      (OrderBook.empty.run ops).best_ask_price = some y ∧ y ≤ x) := by
  rw [add_order_limit b o hid hty]
  refine ⟨?_, ⟨_, add_limit_order_lookup b o⟩, ?_⟩
  · by_cases hs : o.side = Side.BUY <;> simp [add_limit_order, hs]
  · exact ⟨[Op.add (Order.Limit 1 1 Side.SELL 100 10), Op.add (Order.Limit 2 1 Side.BUY 105 10)],
      105, 100, by decide, by decide, by decide⟩

theorem C8_no_crossing_witness :
    (Order.Limit 2 1 Side.BUY 105 10).type = OrderType.LIMIT ∧
    (Order.Limit 2 1 Side.BUY 105 10).id ∉
      (OrderBook.empty.add_order (Order.Limit 1 1 Side.SELL 100 10)).2.orders_.keys ∧
    ((OrderBook.empty.add_order (Order.Limit 1 1 Side.SELL 100 10)).2.add_order
        (Order.Limit 2 1 Side.BUY 105 10)).2.asks_ =
      (OrderBook.empty.add_order (Order.Limit 1 1 Side.SELL 100 10)).2.asks_ :=
  ⟨rfl, by decide,
    (C8_no_crossing_on_limit_entry (OrderBook.empty.add_order (Order.Limit 1 1 Side.SELL 100 10)).2
      (Order.Limit 2 1 Side.BUY 105 10) rfl (by decide)).1⟩

/-- C9: after any sequence of LIMIT insertions with distinct ids from the empty book,
`best_bid_price()` is the maximum price among the inserted BUY orders and
`best_ask_price()` the minimum price among the inserted SELL orders; each is absent
exactly when no order of that side was inserted. -/
theorem C9_best_price_queries (os : List Order) (hty : ∀ o ∈ os, o.type = OrderType.LIMIT)
    (hid : (os.map Order.id).Nodup) :
    (OrderBook.empty.run (os.map Op.add)).best_bid_price =
      ((os.filter (fun o => o.side = Side.BUY)).map Order.price).max? ∧
    (OrderBook.empty.run (os.map Op.add)).best_ask_price =
      ((os.filter (fun o => o.side = Side.SELL)).map Order.price).min? ∧
    ((OrderBook.empty.run (os.map Op.add)).best_bid_price = none ↔
      ∀ o ∈ os, o.side ≠ Side.BUY) ∧
    ((OrderBook.empty.run (os.map Op.add)).best_ask_price = none ↔
      ∀ o ∈ os, o.side ≠ Side.SELL) := by
  obtain ⟨hb, ha, hkb, hka, _⟩ := run_limits os hty hid
  have h1 := (best_bid_price_eq_max _ hb).trans (max?_congr_mem _ _ hkb)
  have h2 := (best_ask_price_eq_min _ ha).trans (min?_congr_mem _ _ hka)
  refine ⟨h1, h2, ?_, ?_⟩
  · rw [h1, List.max?_eq_none_iff]
    simp [List.filter_eq_nil_iff]
  · rw [h2, List.min?_eq_none_iff]
    simp [List.filter_eq_nil_iff]

theorem C9_best_price_queries_witness :
    (∀ o ∈ [Order.Limit 1 1 Side.BUY 100 10, Order.Limit 2 1 Side.SELL 110 5,
      Order.Limit 3 1 Side.BUY 99 7], o.type = OrderType.LIMIT) ∧
    ([Order.Limit 1 1 Side.BUY 100 10, Order.Limit 2 1 Side.SELL 110 5,
      Order.Limit 3 1 Side.BUY 99 7].map Order.id).Nodup ∧
    (OrderBook.empty.run ([Order.Limit 1 1 Side.BUY 100 10, Order.Limit 2 1 Side.SELL 110 5,
      Order.Limit 3 1 Side.BUY 99 7].map Op.add)).best_bid_price = some 100 ∧
    (OrderBook.empty.run ([Order.Limit 1 1 Side.BUY 100 10, Order.Limit 2 1 Side.SELL 110 5,
      Order.Limit 3 1 Side.BUY 99 7].map Op.add)).best_ask_price = some 110 :=
  ⟨by decide, by decide,
    (C9_best_price_queries [Order.Limit 1 1 Side.BUY 100 10, Order.Limit 2 1 Side.SELL 110 5,
      Order.Limit 3 1 Side.BUY 99 7] (by decide) (by decide)).1,
    (C9_best_price_queries [Order.Limit 1 1 Side.BUY 100 10, Order.Limit 2 1 Side.SELL 110 5,
      Order.Limit 3 1 Side.BUY 99 7] (by decide) (by decide)).2.1⟩

/-- C10 (the code departs from the claim): after
`add_order(Order::Limit(1, 1, BUY, 100, 10))` on the empty book the index agrees with the
ladders, and `cancel_order(1)` empties the level at 100 and then erases the key that line
35 reads from the node line 32 destroyed. The emptied level is removed only when that
read returns 100: with any other value it stays in the bid ladder with an empty queue.
With a second bid `Order::Limit(2, 1, BUY, 101, 10)` and a read that returns 101, the
level at 101, which the call should leave unchanged, is erased together with order 2,
the emptied level at 100 stays, and 2 remains a key of the index. -/
theorem C10_cancel_erases_key_read_after_destroy :
    (OrderBook.empty.run [Op.add (Order.Limit 1 1 Side.BUY 100 10)]).Agree ∧
    (∀ freed : FreedReads,
      (OrderBook.empty.run [Op.add (Order.Limit 1 1 Side.BUY 100 10)]).cancel_order 1 freed =
        (true, { bids_ := if freed.erase_price = 100 then [] else [(100, [])],
                 asks_ := [], orders_ := [] })) ∧
    (OrderBook.empty.run [Op.add (Order.Limit 1 1 Side.BUY 100 10),
        Op.add (Order.Limit 2 1 Side.BUY 101 10)]).Agree ∧
    (OrderBook.empty.run [Op.add (Order.Limit 1 1 Side.BUY 100 10),
        Op.add (Order.Limit 2 1 Side.BUY 101 10)]).cancel_order 1
        { side := Side.BUY, price := 100, erase_price := 101 } =
      (true, { bids_ := [(100, [])], asks_ := [],
               orders_ := [(2, { side := Side.BUY, price := 101 })] }) := by
  refine ⟨by decide, ?_, by decide, by decide⟩
  intro freed
  have hb : OrderBook.empty.run [Op.add (Order.Limit 1 1 Side.BUY 100 10)] =
      { bids_ := [(100, [Order.Limit 1 1 Side.BUY 100 10])], asks_ := [],
        orders_ := [(1, { side := Side.BUY, price := 100 })] } := by decide
  rw [hb]
  by_cases he : freed.erase_price = 100
  · simp [cancel_order, Index.find, read_ptr, node_stored, cancel_levels, Ladder.lookup,
      Ladder.put, Ladder.erase, Index.erase, Order.Limit, he]
  · have he2 : ¬ 100 = freed.erase_price := fun h => he h.symm
    simp [cancel_order, Index.find, read_ptr, node_stored, cancel_levels, Ladder.lookup,
      Ladder.put, Ladder.erase, Index.erase, Order.Limit, he, he2]

/-- C11: in every state reached from the empty book and for every identifier that is a
key of the index, `cancel_order(id)` returns true and lowers `total_orders()` by
exactly 1, and a second `cancel_order(id)` right after it returns false and leaves the
state as it is; this holds whatever the reads of freed memory in the two calls
return. -/
theorem C11_cancel_twice (ops : List Op) (id : Nat) (freed1 freed2 : FreedReads)
    (hlive : id ∈ (OrderBook.empty.run ops).orders_.keys) :
    ((OrderBook.empty.run ops).cancel_order id freed1).1 = true ∧
    ((OrderBook.empty.run ops).cancel_order id freed1).2.total_orders + 1 =
      (OrderBook.empty.run ops).total_orders ∧
    (((OrderBook.empty.run ops).cancel_order id freed1).2.cancel_order id freed2) =
      (false, ((OrderBook.empty.run ops).cancel_order id freed1).2) := by
  obtain ⟨h1, h2⟩ := cancel_order_index _ id freed1 hlive
  refine ⟨h1, ?_, ?_⟩
  · simp only [total_orders, h2]
    exact Index.length_erase _ id (run_shaped ops).2.2 hlive
  · apply cancel_order_of_not_mem
    rw [h2]
    exact Index.not_mem_keys_erase _ id

theorem C11_cancel_twice_witness :
    1 ∈ (OrderBook.empty.run [Op.add (Order.Limit 1 1 Side.BUY 100 10),
      Op.add (Order.Limit 2 1 Side.BUY 100 5)]).orders_.keys ∧
    (OrderBook.empty.run [Op.add (Order.Limit 1 1 Side.BUY 100 10),
      Op.add (Order.Limit 2 1 Side.BUY 100 5)]).total_orders = 2 ∧
    ((OrderBook.empty.run [Op.add (Order.Limit 1 1 Side.BUY 100 10),
      Op.add (Order.Limit 2 1 Side.BUY 100 5)]).cancel_order 1
        { side := Side.SELL, price := 3, erase_price := 4 }).1 = true ∧
    ((OrderBook.empty.run [Op.add (Order.Limit 1 1 Side.BUY 100 10),
      Op.add (Order.Limit 2 1 Side.BUY 100 5)]).cancel_order 1
        { side := Side.SELL, price := 3, erase_price := 4 }).2.total_orders = 1 ∧
    (((OrderBook.empty.run [Op.add (Order.Limit 1 1 Side.BUY 100 10),
      Op.add (Order.Limit 2 1 Side.BUY 100 5)]).cancel_order 1
        { side := Side.SELL, price := 3, erase_price := 4 }).2.cancel_order 1
        { side := Side.BUY, price := 5, erase_price := 6 }).1 = false :=
  ⟨by decide, by decide,
    (C11_cancel_twice [Op.add (Order.Limit 1 1 Side.BUY 100 10),
      Op.add (Order.Limit 2 1 Side.BUY 100 5)] 1
      { side := Side.SELL, price := 3, erase_price := 4 }
      { side := Side.BUY, price := 5, erase_price := 6 } (by decide)).1,
    by decide, by decide⟩

/-- C12 (as amended): on a sorted ask ladder without empty levels in which all resting
asks have remaining > 0, after a BUY MARKET order of quantity `Q` (with `remaining = Q`)
whose id is not in the index, `best_ask_price()` is the price `p` exactly when `p` is
the lowest price such that the liquidity resting at prices up to `p` before the call is
strictly greater than `Q`, and it is absent exactly when `Q` is at least the total ask
liquidity. -/
theorem C12_best_ask_after_market_buy (b : OrderBook) (m : Order) (hwf : b.asks_.WF)
    (hne : b.asks_.NoEmpty) (hpos : ∀ x ∈ b.asks_, ∀ o ∈ x.2, 0 < o.remaining)
    (hty : m.type = OrderType.MARKET) (hside : m.side = Side.BUY)
    (hid : m.id ∉ b.orders_.keys) (hq : m.remaining = m.quantity) :
    (∀ p, (b.add_order m).2.best_ask_price = some p ↔
      (m.quantity < Ladder.liquidity_upto b.asks_ p ∧
        ∀ p1, p1 < p → Ladder.liquidity_upto b.asks_ p1 ≤ m.quantity)) ∧
    ((b.add_order m).2.best_ask_price = none ↔ Ladder.liquidity b.asks_ ≤ m.quantity) := by
  rw [add_order_market b m hid hty]
  obtain ⟨hs1, hs2⟩ := match_loop_stop b.asks_ m b.orders_ hwf hne hpos
  rw [hq] at hs1 hs2
  have hbest : (match_market_order b m).best_ask_price =
      (match_loop b.asks_.length m b.asks_ b.orders_).2.1.first_key := by
    simp only [best_ask_price, match_market_order, hside, if_true]
    cases (match_loop b.asks_.length m b.asks_ b.orders_).2.1 with
    | nil => rfl
    | cons x t => rfl
  simp only [hbest]
  cases hr : (match_loop b.asks_.length m b.asks_ b.orders_).2.1 with
  | nil =>
    have hL := hs1 hr
    constructor
    · intro p
      simp only [Ladder.first_key, List.head?_nil, Option.map_none']
      constructor
      · intro h; exact Option.noConfusion h
      · rintro ⟨h1, _⟩
        have := Ladder.liquidity_upto_le b.asks_ p
        omega
    · simp [Ladder.first_key, hL]
  | cons x t =>
    obtain ⟨h1, h2⟩ := hs2 x t hr
    constructor
    · intro p
      simp only [Ladder.first_key, List.head?_cons, Option.map_some', Option.some.injEq]
      constructor
      · intro hp; rw [← hp]; exact ⟨h1, h2⟩
      · rintro ⟨hp1, hp2⟩
        rcases Nat.lt_trichotomy x.1 p with hlt | heq | hgt
        · have := hp2 x.1 hlt; omega
        · exact heq
        · have := h2 p hgt; omega
    · simp only [Ladder.first_key, List.head?_cons, Option.map_some']
      constructor
      · intro h; exact Option.noConfusion h
      · intro hL
        have := Ladder.liquidity_upto_le b.asks_ x.1
        omega

/-- C12 as stated fails in a state with an empty ask level: the calls
`add_order(Order::Limit(1, 1, SELL, 100, 0))`, `add_order(Order::Limit(2, 1, SELL, 101, 10))`,
`add_order(Order::Market(3, 1, BUY, 5))`, `cancel_order(1)` reach, when the reads through
the dangling pointer of order 1 return SELL and 100 and the read of line 35 returns
another price, the asks `100 -> []`, `101 -> [order 2 with remaining 5]`. All resting
asks have remaining > 0 there, and after a BUY MARKET order of quantity 0 the best ask
is 100, although no liquidity rests at prices up to 100; the lowest price with liquidity
above 0 is 101. -/
theorem C12_counterexample :
    OrderBook.empty.run [Op.add (Order.Limit 1 1 Side.SELL 100 0),
        Op.add (Order.Limit 2 1 Side.SELL 101 10), Op.add (Order.Market 3 1 Side.BUY 5),
        Op.cancel 1 { side := Side.SELL, price := 100, erase_price := 0 }] =
      { bids_ := [],
        asks_ := [(100, []), (101, [{ Order.Limit 2 1 Side.SELL 101 10 with remaining := 5 }])],
        orders_ := [(2, { side := Side.SELL, price := 101 })] } ∧
    (∀ x ∈ [(100, []), (101, [{ Order.Limit 2 1 Side.SELL 101 10 with remaining := 5 }])],
      ∀ o ∈ x.2, 0 < o.remaining) ∧
    Ladder.WF [(100, []), (101, [{ Order.Limit 2 1 Side.SELL 101 10 with remaining := 5 }])] ∧
    ((OrderBook.add_order
      { bids_ := [],
        asks_ := [(100, []), (101, [{ Order.Limit 2 1 Side.SELL 101 10 with remaining := 5 }])],
        orders_ := [(2, { side := Side.SELL, price := 101 })] }
      (Order.Market 4 1 Side.BUY 0)).2.best_ask_price = some 100) ∧
    Ladder.liquidity_upto
      [(100, []), (101, [{ Order.Limit 2 1 Side.SELL 101 10 with remaining := 5 }])] 100 = 0 ∧
    ¬ ((Order.Market 4 1 Side.BUY 0).quantity < Ladder.liquidity_upto
      [(100, []), (101, [{ Order.Limit 2 1 Side.SELL 101 10 with remaining := 5 }])] 100) ∧
    (Order.Market 4 1 Side.BUY 0).quantity < Ladder.liquidity_upto
      [(100, []), (101, [{ Order.Limit 2 1 Side.SELL 101 10 with remaining := 5 }])] 101 := by
  decide

theorem C12_best_ask_after_market_buy_witness :
    (OrderBook.empty.run [Op.add (Order.Limit 1 1 Side.SELL 100 10),
      Op.add (Order.Limit 2 1 Side.SELL 101 10),
      Op.add (Order.Limit 3 1 Side.SELL 102 10)]).asks_.WF ∧
    (OrderBook.empty.run [Op.add (Order.Limit 1 1 Side.SELL 100 10),
      Op.add (Order.Limit 2 1 Side.SELL 101 10),
      Op.add (Order.Limit 3 1 Side.SELL 102 10)]).asks_.NoEmpty ∧
    (∀ x ∈ (OrderBook.empty.run [Op.add (Order.Limit 1 1 Side.SELL 100 10),
      Op.add (Order.Limit 2 1 Side.SELL 101 10),
      Op.add (Order.Limit 3 1 Side.SELL 102 10)]).asks_, ∀ o ∈ x.2, 0 < o.remaining) ∧
    (Order.Market 100 1 Side.BUY 15).remaining = (Order.Market 100 1 Side.BUY 15).quantity ∧
    ((OrderBook.empty.run [Op.add (Order.Limit 1 1 Side.SELL 100 10),
      Op.add (Order.Limit 2 1 Side.SELL 101 10),
      Op.add (Order.Limit 3 1 Side.SELL 102 10)]).add_order
        (Order.Market 100 1 Side.BUY 15)).2.best_ask_price = some 101 ∧
    ((OrderBook.empty.run [Op.add (Order.Limit 1 1 Side.SELL 100 10),
      Op.add (Order.Limit 2 1 Side.SELL 101 10),
      Op.add (Order.Limit 3 1 Side.SELL 102 10)]).add_order
        (Order.Market 100 1 Side.BUY 15)).2.total_orders = 2 ∧
    ((15 : Nat) < Ladder.liquidity_upto (OrderBook.empty.run
      [Op.add (Order.Limit 1 1 Side.SELL 100 10), Op.add (Order.Limit 2 1 Side.SELL 101 10),
      Op.add (Order.Limit 3 1 Side.SELL 102 10)]).asks_ 101 ∧
      ∀ p1, p1 < 101 → Ladder.liquidity_upto (OrderBook.empty.run
        [Op.add (Order.Limit 1 1 Side.SELL 100 10), Op.add (Order.Limit 2 1 Side.SELL 101 10),
        Op.add (Order.Limit 3 1 Side.SELL 102 10)]).asks_ p1 ≤ 15) :=
  ⟨by decide, by decide, by decide, rfl, by decide, by decide,
    ((C12_best_ask_after_market_buy (OrderBook.empty.run
      [Op.add (Order.Limit 1 1 Side.SELL 100 10), Op.add (Order.Limit 2 1 Side.SELL 101 10),
      Op.add (Order.Limit 3 1 Side.SELL 102 10)]) (Order.Market 100 1 Side.BUY 15)
      (by decide) (by decide) (by decide) rfl rfl (by decide) rfl).1 101).mp (by decide)⟩

/-- C13: after `add_order(m)` for a MARKET order `m` whose id is not in the index, the
call returns true, `m.id` is not a key of the index, the ladder on the side of `m` is
unchanged, and every order stored on the opposite ladder is what remains of an order that
was stored at that price before, so `m` itself is stored nowhere; hence, when every
order stored before the call has its id in the index, no order with id `m.id` is
stored in either ladder after it. -/
theorem C13_market_orders_never_rest (b : OrderBook) (m : Order)
    (hty : m.type = OrderType.MARKET) (hid : m.id ∉ b.orders_.keys) :
    (b.add_order m).1 = true ∧
    m.id ∉ (b.add_order m).2.orders_.keys ∧
    (if m.side = Side.BUY then (b.add_order m).2.bids_ else (b.add_order m).2.asks_) =
      (if m.side = Side.BUY then b.bids_ else b.asks_) ∧
    (∀ x ∈ (if m.side = Side.BUY then (b.add_order m).2.asks_ else (b.add_order m).2.bids_),
      ∀ o ∈ x.2, ∃ q, (x.1, q) ∈ (if m.side = Side.BUY then b.asks_ else b.bids_) ∧
        ∃ o0 ∈ q, Residual o0 o) ∧
    ((∀ o ∈ Ladder.orders b.bids_ ++ Ladder.orders b.asks_, o.id ∈ b.orders_.keys) →
      ∀ o ∈ Ladder.orders (b.add_order m).2.bids_ ++ Ladder.orders (b.add_order m).2.asks_,
        o.id ≠ m.id) := by
  rw [add_order_market b m hid hty]
  have hidx : m.id ∉ (match_market_order b m).orders_.keys := by
    rw [match_market_order_index]
    intro hin
    apply hid
    have hsub := match_loop_index_sublist (if m.side = Side.BUY then b.asks_ else b.bids_) m
      b.orders_
    unfold Index.keys at hin ⊢
    exact (hsub.map Prod.fst).subset hin
  have hres : ∀ x ∈ (if m.side = Side.BUY then (match_market_order b m).asks_
      else (match_market_order b m).bids_),
      ∀ o ∈ x.2, ∃ q, (x.1, q) ∈ (if m.side = Side.BUY then b.asks_ else b.bids_) ∧
        ∃ o0 ∈ q, Residual o0 o := by
    rw [match_market_order_opposite]
    intro x hx o ho
    rcases match_loop_levels _ m b.orders_ x hx with hx | ⟨_, q, hq, hr⟩
    · exact ⟨x.2, hx, o, ho, Residual.refl o⟩
    · exact ⟨q, hq, hr o ho⟩
  refine ⟨rfl, hidx, match_market_order_own b m, hres, ?_⟩
  intro hix o ho hoid
  have hown := match_market_order_own b m
  -- an order stored after the call has the id of an order stored before it
  have hold : ∃ o0 ∈ Ladder.orders b.bids_ ++ Ladder.orders b.asks_, o0.id = o.id := by
    by_cases hs : m.side = Side.BUY
    · simp only [hs, if_true] at hown hres
      rcases List.mem_append.mp ho with ho | ho
      · rw [hown] at ho
        exact ⟨o, List.mem_append_left _ ho, rfl⟩
      · obtain ⟨x, hx, hox⟩ := (Ladder.mem_orders _ o).mp ho
        obtain ⟨q, hq, o0, ho0, hr⟩ := hres x hx o hox
        refine ⟨o0, List.mem_append_right _ ((Ladder.mem_orders _ o0).mpr ⟨_, hq, ho0⟩), ?_⟩
        rw [hr.1]
    · simp only [hs, if_false] at hown hres
      rcases List.mem_append.mp ho with ho | ho
      · obtain ⟨x, hx, hox⟩ := (Ladder.mem_orders _ o).mp ho
        obtain ⟨q, hq, o0, ho0, hr⟩ := hres x hx o hox
        refine ⟨o0, List.mem_append_left _ ((Ladder.mem_orders _ o0).mpr ⟨_, hq, ho0⟩), ?_⟩
        rw [hr.1]
      · rw [hown] at ho
        exact ⟨o, List.mem_append_right _ ho, rfl⟩
  obtain ⟨o0, ho0, he⟩ := hold
  apply hid
  rw [← hoid, ← he]
  exact hix o0 ho0

theorem C13_market_orders_never_rest_witness :
    (Order.Market 100 1 Side.BUY 12).type = OrderType.MARKET ∧
    (Order.Market 100 1 Side.BUY 12).id ∉
      (OrderBook.empty.run [Op.add (Order.Limit 1 1 Side.SELL 100 10),
        Op.add (Order.Limit 2 1 Side.SELL 100 5)]).orders_.keys ∧
    (Order.Market 100 1 Side.BUY 12).id ∉
      ((OrderBook.empty.run [Op.add (Order.Limit 1 1 Side.SELL 100 10),
        Op.add (Order.Limit 2 1 Side.SELL 100 5)]).add_order
          (Order.Market 100 1 Side.BUY 12)).2.orders_.keys ∧
    ((OrderBook.empty.run [Op.add (Order.Limit 1 1 Side.SELL 100 10),
        Op.add (Order.Limit 2 1 Side.SELL 100 5)]).add_order
          (Order.Market 100 1 Side.BUY 12)).2.asks_ =
      [(100, [{ Order.Limit 2 1 Side.SELL 100 5 with remaining := 3 }])] :=
  ⟨rfl, by decide,
    (C13_market_orders_never_rest (OrderBook.empty.run [Op.add (Order.Limit 1 1 Side.SELL 100 10),
        Op.add (Order.Limit 2 1 Side.SELL 100 5)]) (Order.Market 100 1 Side.BUY 12) rfl
      (by decide)).2.1,
    by decide⟩

/-- C14: when the ladder opposite to a MARKET order whose id is not in the index is
empty (the ask ladder for a BUY, the bid ladder for a SELL), `add_order` returns true
and the bid ladder, the ask ladder and the index are exactly as before, whatever the
quantity of the order. -/
theorem C14_market_into_empty_ladder (b : OrderBook) (m : Order)
    (hty : m.type = OrderType.MARKET) (hid : m.id ∉ b.orders_.keys)
    (hempty : (if m.side = Side.BUY then b.asks_ else b.bids_) = []) :
    b.add_order m = (true, b) := by
  rw [add_order_market b m hid hty]
  by_cases hs : m.side = Side.BUY
  · simp only [hs, if_true] at hempty
    simp [match_market_order, hs, hempty, match_loop]
    rw [← hempty]
  · simp only [hs, if_false] at hempty
    simp [match_market_order, hs, hempty, match_loop]
    rw [← hempty]

theorem C14_market_into_empty_ladder_witness :
    (Order.Market 1 1 Side.BUY 10).type = OrderType.MARKET ∧
    (Order.Market 1 1 Side.BUY 10).id ∉ OrderBook.empty.orders_.keys ∧
    (if (Order.Market 1 1 Side.BUY 10).side = Side.BUY then OrderBook.empty.asks_
      else OrderBook.empty.bids_) = [] ∧
    OrderBook.empty.add_order (Order.Market 1 1 Side.BUY 10) = (true, OrderBook.empty) ∧
    (OrderBook.empty.add_order (Order.Market 1 1 Side.BUY 10)).2.total_orders = 0 :=
  ⟨rfl, by decide, rfl,
    C14_market_into_empty_ladder OrderBook.empty (Order.Market 1 1 Side.BUY 10) rfl
      (by decide) rfl,
    by decide⟩

/-- C15 (the code departs from the claim): the calls
`add_order(Order::Limit(1, 1, SELL, 100, 0))`, `add_order(Order::Limit(2, 1, SELL, 101, 10))`,
`add_order(Order::Market(3, 1, BUY, 5))` leave the asks `101 -> [order 2 with remaining 5]`
and the identifier 1 in the index, although the node of order 1 was destroyed by the
`remove_if` of line 91. `cancel_order(1)` then reads side and price through the dangling
pointer; when these reads return SELL and 100, `levels[100]` of line 30 creates an empty
level at 100, and when the read of line 35 returns another price that level is not
erased: the ask ladder has a level with an empty queue, `total_ask_levels()` is 2 with
orders stored at one price only, and `best_ask_price()` is 100. -/
theorem C15_cancel_leaves_empty_level :
    OrderBook.empty.run [Op.add (Order.Limit 1 1 Side.SELL 100 0),
        Op.add (Order.Limit 2 1 Side.SELL 101 10), Op.add (Order.Market 3 1 Side.BUY 5)] =
      { bids_ := [],
        asks_ := [(101, [{ Order.Limit 2 1 Side.SELL 101 10 with remaining := 5 }])],
        orders_ := [(2, { side := Side.SELL, price := 101 }),
          (1, { side := Side.SELL, price := 100 })] } ∧
    (OrderBook.empty.run [Op.add (Order.Limit 1 1 Side.SELL 100 0),
        Op.add (Order.Limit 2 1 Side.SELL 101 10), Op.add (Order.Market 3 1 Side.BUY 5),
        Op.cancel 1 { side := Side.SELL, price := 100, erase_price := 0 }]).asks_ =
      [(100, []), (101, [{ Order.Limit 2 1 Side.SELL 101 10 with remaining := 5 }])] ∧
    ¬ (∀ x ∈ (OrderBook.empty.run [Op.add (Order.Limit 1 1 Side.SELL 100 0),
        Op.add (Order.Limit 2 1 Side.SELL 101 10), Op.add (Order.Market 3 1 Side.BUY 5),
        Op.cancel 1 { side := Side.SELL, price := 100, erase_price := 0 }]).asks_, x.2 ≠ []) ∧
    (OrderBook.empty.run [Op.add (Order.Limit 1 1 Side.SELL 100 0),
        Op.add (Order.Limit 2 1 Side.SELL 101 10), Op.add (Order.Market 3 1 Side.BUY 5),
        Op.cancel 1 { side := Side.SELL, price := 100, erase_price := 0 }]).total_ask_levels = 2 ∧
    ((OrderBook.empty.run [Op.add (Order.Limit 1 1 Side.SELL 100 0),
        Op.add (Order.Limit 2 1 Side.SELL 101 10), Op.add (Order.Market 3 1 Side.BUY 5),
        Op.cancel 1 { side := Side.SELL, price := 100, erase_price := 0 }]).asks_.filter
      (fun x => !x.2.isEmpty)).length = 1 ∧
    (OrderBook.empty.run [Op.add (Order.Limit 1 1 Side.SELL 100 0),
        Op.add (Order.Limit 2 1 Side.SELL 101 10), Op.add (Order.Market 3 1 Side.BUY 5),
        Op.cancel 1 { side := Side.SELL, price := 100, erase_price := 0 }]).best_ask_price =
      some 100 := by
  decide

/-- C16: if every order passed to `add_order` has remaining <= quantity, every order
resting in a reached state has remaining <= quantity (and remaining >= 0, as it is
unsigned), whatever the reads of freed memory return; and every trade that the walk of
a level makes (`execute_trade` is called from nowhere else) is made with a quantity
`exec_qty` that is at most the remaining of the incoming order at that point and at
most the remaining of the resting order, so that the two subtractions of
`execute_trade` do not wrap around: for a queue `pre ++ resting :: post` in which the
walk reaches `resting` with something remaining on both sides, the walk is
`walk_with_trade` at such an `exec_qty`. -/
theorem C16_remaining_within_bounds (ops : List Op)
    (hops : ∀ o, Op.add o ∈ ops → o.remaining ≤ o.quantity) :
    (∀ o ∈ Ladder.orders (OrderBook.empty.run ops).bids_ ++
        Ladder.orders (OrderBook.empty.run ops).asks_,
      0 ≤ o.remaining ∧ o.remaining ≤ o.quantity) ∧
    (∀ (order : Order) (ix : Index) (pre : List Order) (resting : Order) (post : List Order),
      (match_level order ix pre).1.remaining ≠ 0 → resting.remaining ≠ 0 →
      ∃ exec_qty,
        exec_qty ≤ (match_level order ix pre).1.remaining ∧
        exec_qty ≤ resting.remaining ∧
        usub64 (match_level order ix pre).1.remaining exec_qty + exec_qty =
          (match_level order ix pre).1.remaining ∧
        usub64 resting.remaining exec_qty + exec_qty = resting.remaining ∧
        match_level order ix (pre ++ resting :: post) =
          walk_with_trade order ix pre resting post exec_qty) := by
  constructor
  · have h := run_all_from (fun _ o => o.remaining ≤ o.quantity) (fun _ o => o.remaining ≤ o.quantity)
      (fun p o o1 hr ho => by
        have h1 := hr.1
        have h2 := hr.2
        have hq : o1.quantity = o.quantity := by rw [h1]
        omega)
      (fun p o o1 hr ho => by
        have h1 := hr.1
        have h2 := hr.2
        have hq : o1.quantity = o.quantity := by rw [h1]
        omega)
      ops OrderBook.empty (fun o ho _ => ⟨fun _ => hops o ho, fun _ => hops o ho⟩)
      (by decide) ⟨by intro x hx; simp [OrderBook.empty] at hx,
        by intro x hx; simp [OrderBook.empty] at hx⟩
    intro o ho
    refine ⟨Nat.zero_le _, ?_⟩
    rcases List.mem_append.mp ho with ho | ho
    · obtain ⟨x, hx, hox⟩ := (Ladder.mem_orders _ o).mp ho
      exact h.1 x hx o hox
    · obtain ⟨x, hx, hox⟩ := (Ladder.mem_orders _ o).mp ho
      exact h.2 x hx o hox
  · intro order ix pre resting post hinc hres
    have h1 : min (match_level order ix pre).1.remaining resting.remaining ≤
        (match_level order ix pre).1.remaining := Nat.min_le_left _ _
    have h2 : min (match_level order ix pre).1.remaining resting.remaining ≤
        resting.remaining := Nat.min_le_right _ _
    refine ⟨min (match_level order ix pre).1.remaining resting.remaining, h1, h2, ?_, ?_, ?_⟩
    · rw [usub64_of_le _ _ h1]; omega
    · rw [usub64_of_le _ _ h2]; omega
    · rw [match_level_append]
      simp only [walk_with_trade, match_level, hinc, hres, if_false]

theorem C16_remaining_within_bounds_witness :
    (∀ o, Op.add o ∈ [Op.add (Order.Limit 1 1 Side.SELL 100 10),
        Op.add (Order.Market 2 1 Side.BUY 4),
        Op.cancel 1 { side := Side.BUY, price := 0, erase_price := 0 }] →
      o.remaining ≤ o.quantity) ∧
    (∀ o ∈ Ladder.orders (OrderBook.empty.run [Op.add (Order.Limit 1 1 Side.SELL 100 10),
        Op.add (Order.Market 2 1 Side.BUY 4),
        Op.cancel 1 { side := Side.BUY, price := 0, erase_price := 0 }]).bids_ ++
        Ladder.orders (OrderBook.empty.run [Op.add (Order.Limit 1 1 Side.SELL 100 10),
        Op.add (Order.Market 2 1 Side.BUY 4),
        Op.cancel 1 { side := Side.BUY, price := 0, erase_price := 0 }]).asks_,
      0 ≤ o.remaining ∧ o.remaining ≤ o.quantity) ∧
    (OrderBook.empty.run [Op.add (Order.Limit 1 1 Side.SELL 100 10),
        Op.add (Order.Market 2 1 Side.BUY 4)]).asks_ =
      [(100, [{ Order.Limit 1 1 Side.SELL 100 10 with remaining := 6 }])] ∧
    (match_level (Order.Market 2 1 Side.BUY 4) [] [Order.Limit 3 1 Side.SELL 100 1]).1.remaining ≠ 0 ∧
    (∃ exec_qty,
      exec_qty ≤ (match_level (Order.Market 2 1 Side.BUY 4) []
        [Order.Limit 3 1 Side.SELL 100 1]).1.remaining ∧
      exec_qty ≤ (Order.Limit 1 1 Side.SELL 100 10).remaining ∧
      usub64 (match_level (Order.Market 2 1 Side.BUY 4) []
          [Order.Limit 3 1 Side.SELL 100 1]).1.remaining exec_qty + exec_qty =
        (match_level (Order.Market 2 1 Side.BUY 4) []
          [Order.Limit 3 1 Side.SELL 100 1]).1.remaining ∧
      usub64 (Order.Limit 1 1 Side.SELL 100 10).remaining exec_qty + exec_qty =
        (Order.Limit 1 1 Side.SELL 100 10).remaining ∧
      match_level (Order.Market 2 1 Side.BUY 4) []
          ([Order.Limit 3 1 Side.SELL 100 1] ++ Order.Limit 1 1 Side.SELL 100 10 :: []) =
        walk_with_trade (Order.Market 2 1 Side.BUY 4) [] [Order.Limit 3 1 Side.SELL 100 1]
          (Order.Limit 1 1 Side.SELL 100 10) [] exec_qty) :=
  ⟨by
      intro o ho
      simp only [List.mem_cons, Op.add.injEq, List.mem_singleton, List.not_mem_nil,
        or_false, reduceCtorEq] at ho
      rcases ho with ho | ho <;> subst ho <;> decide,
    (C16_remaining_within_bounds [Op.add (Order.Limit 1 1 Side.SELL 100 10),
        Op.add (Order.Market 2 1 Side.BUY 4),
        Op.cancel 1 { side := Side.BUY, price := 0, erase_price := 0 }] (by
      intro o ho
      simp only [List.mem_cons, Op.add.injEq, List.mem_singleton, List.not_mem_nil,
        or_false, reduceCtorEq] at ho
      rcases ho with ho | ho <;> subst ho <;> decide)).1,
    by decide, by decide,
    (C16_remaining_within_bounds [] (by intro o ho; simp at ho)).2
      (Order.Market 2 1 Side.BUY 4) [] [Order.Limit 3 1 Side.SELL 100 1]
      (Order.Limit 1 1 Side.SELL 100 10) [] (by decide) (by decide)⟩

/-- C17 (as amended): an order of either type with quantity 0 and remaining 0 whose id
is not in the index is accepted: `add_order` returns true. When it is a MARKET order it
is inert: the ladders and the index, and with them all five queries, are the same after
the call. When it is a LIMIT order it is inserted like any other LIMIT order: it rests
at the tail of the queue at its price and `total_orders()` grows by 1. -/
theorem C17_zero_quantity_orders (b : OrderBook) (o : Order) (hq : o.quantity = 0)
    (hr : o.remaining = 0) (hid : o.id ∉ b.orders_.keys) :
    (b.add_order o).1 = true ∧
    (o.type = OrderType.MARKET →
      (b.add_order o).2 = b ∧
      (b.add_order o).2.best_bid_price = b.best_bid_price ∧
      (b.add_order o).2.best_ask_price = b.best_ask_price ∧
      (b.add_order o).2.total_orders = b.total_orders ∧
      (b.add_order o).2.total_bid_levels = b.total_bid_levels ∧
      (b.add_order o).2.total_ask_levels = b.total_ask_levels) ∧
    (o.type = OrderType.LIMIT →
      (b.add_order o).2.total_orders = b.total_orders + 1 ∧
      (if o.side = Side.BUY then (b.add_order o).2.bids_
        else (b.add_order o).2.asks_).lookup o.price =
        some (((if o.side = Side.BUY then b.bids_ else b.asks_).lookup o.price).getD [] ++ [o])) := by
  refine ⟨?_, ?_, ?_⟩
  · by_cases hty : o.type = OrderType.LIMIT
    · rw [add_order_limit b o hid hty]
    · have hty2 : o.type = OrderType.MARKET := by
        cases hh : o.type with
        | LIMIT => exact absurd hh hty
        | MARKET => rfl
      rw [add_order_market b o hid hty2]
  · intro hty
    have hsame : (b.add_order o).2 = b := by
      rw [add_order_market b o hid hty]
      by_cases hs : o.side = Side.BUY
      · simp [match_market_order, hs, match_loop_of_exhausted _ _ _ _ hr]
      · simp [match_market_order, hs, match_loop_of_exhausted _ _ _ _ hr]
    rw [hsame]
    exact ⟨rfl, rfl, rfl, rfl, rfl, rfl⟩
  · intro hty
    rw [add_order_limit b o hid hty]
    refine ⟨?_, add_limit_order_lookup b o⟩
    have hlen : (b.orders_.assign o.id { side := o.side, price := o.price }).length =
        b.orders_.length + 1 := by
      simp [Index.assign, Index.erase_of_not_mem _ _ hid]
    by_cases hs : o.side = Side.BUY
    · simp only [add_limit_order, hs, if_true, total_orders]
      simpa [hs] using hlen
    · simp only [add_limit_order, hs, if_false, total_orders]
      exact hlen

/-- C17 as stated fails for a LIMIT order: `Order::Limit(1, 1, BUY, 100, 0)` has quantity
0 and remaining 0 and its id is not in the index of the empty book, and `add_order`
returns true, but afterwards the bid ladder and the index hold the order, and
`best_bid_price()`, `total_orders()` and `total_bid_levels()` have changed. -/
theorem C17_counterexample :
    (Order.Limit 1 1 Side.BUY 100 0).quantity = 0 ∧
    (Order.Limit 1 1 Side.BUY 100 0).remaining = 0 ∧
    (Order.Limit 1 1 Side.BUY 100 0).id ∉ OrderBook.empty.orders_.keys ∧
    (OrderBook.empty.add_order (Order.Limit 1 1 Side.BUY 100 0)).1 = true ∧
    (OrderBook.empty.add_order (Order.Limit 1 1 Side.BUY 100 0)).2 ≠ OrderBook.empty ∧
    OrderBook.empty.best_bid_price = none ∧
    (OrderBook.empty.add_order (Order.Limit 1 1 Side.BUY 100 0)).2.best_bid_price = some 100 ∧
    OrderBook.empty.total_orders = 0 ∧
    (OrderBook.empty.add_order (Order.Limit 1 1 Side.BUY 100 0)).2.total_orders = 1 ∧
    OrderBook.empty.total_bid_levels = 0 ∧
    (OrderBook.empty.add_order (Order.Limit 1 1 Side.BUY 100 0)).2.total_bid_levels = 1 := by
  decide

theorem C17_zero_quantity_orders_witness :
    (Order.Market 1 1 Side.BUY 0).quantity = 0 ∧ (Order.Market 1 1 Side.BUY 0).remaining = 0 ∧
    (Order.Market 1 1 Side.BUY 0).id ∉
      (OrderBook.empty.add_order (Order.Limit 2 1 Side.SELL 100 10)).2.orders_.keys ∧
    ((OrderBook.empty.add_order (Order.Limit 2 1 Side.SELL 100 10)).2.add_order
        (Order.Market 1 1 Side.BUY 0)).1 = true ∧
    ((OrderBook.empty.add_order (Order.Limit 2 1 Side.SELL 100 10)).2.add_order
        (Order.Market 1 1 Side.BUY 0)).2 =
      (OrderBook.empty.add_order (Order.Limit 2 1 Side.SELL 100 10)).2 :=
  ⟨rfl, rfl, by decide,
    (C17_zero_quantity_orders (OrderBook.empty.add_order (Order.Limit 2 1 Side.SELL 100 10)).2
      (Order.Market 1 1 Side.BUY 0) rfl rfl (by decide)).1,
    ((C17_zero_quantity_orders (OrderBook.empty.add_order (Order.Limit 2 1 Side.SELL 100 10)).2
      (Order.Market 1 1 Side.BUY 0) rfl rfl (by decide)).2.1 rfl).1⟩

/-- C20: the loop of `match_market_order` over the ladder opposite to the order
terminates. Every iteration either brings the incoming remaining to 0 or removes the
first level; however many iterations are allowed, at most as many as there are levels
are performed; after one iteration per level the loop condition is false; and allowing
more iterations changes neither the result nor the number of iterations performed.
Levels may hold orders with remaining 0. -/
theorem C20_matching_terminates (b : OrderBook) (m : Order) :
    (∀ (order : Order) (p : Nat) (level_orders : List Order) (rest : Ladder) (ix : Index),
      (match_step order p level_orders rest ix).1.remaining = 0 ∨
      (match_step order p level_orders rest ix).2.1 = rest) ∧
    (∀ fuel, match_loop_count fuel m (if m.side = Side.BUY then b.asks_ else b.bids_)
      b.orders_ ≤ (if m.side = Side.BUY then b.asks_ else b.bids_).length) ∧
    ((match_loop (if m.side = Side.BUY then b.asks_ else b.bids_).length m
        (if m.side = Side.BUY then b.asks_ else b.bids_) b.orders_).1.remaining = 0 ∨
      (match_loop (if m.side = Side.BUY then b.asks_ else b.bids_).length m
        (if m.side = Side.BUY then b.asks_ else b.bids_) b.orders_).2.1 = []) ∧
    (∀ fuel, (if m.side = Side.BUY then b.asks_ else b.bids_).length ≤ fuel →
      match_loop fuel m (if m.side = Side.BUY then b.asks_ else b.bids_) b.orders_ =
        match_loop (if m.side = Side.BUY then b.asks_ else b.bids_).length m
          (if m.side = Side.BUY then b.asks_ else b.bids_) b.orders_ ∧
      match_loop_count fuel m (if m.side = Side.BUY then b.asks_ else b.bids_) b.orders_ =
        match_loop_count (if m.side = Side.BUY then b.asks_ else b.bids_).length m
          (if m.side = Side.BUY then b.asks_ else b.bids_) b.orders_) := by
  refine ⟨match_step_progress, fun fuel => match_loop_count_le fuel _ _ _,
    (match_loop_conservation _ _ _).2, fun fuel hf => ⟨match_loop_fuel _ fuel _ _ hf,
      match_loop_count_fuel _ fuel _ _ hf⟩⟩
